import Mathlib

/-!
node-ebml: the vint codec, the streaming decoder and the encoder.

A shallow embedding of `src/ebml/decoder.js` and `src/ebml/encoder.js`.
Buffers are lists of byte values, a JavaScript exception is an `Except.error`,
and the `null` a function returns for "wait for more data" is `none`.

`src/ebml/tools.js` and `src/ebml/schema.js` are not among the sources.  The
helpers of `tools` are modelled from the specification and from the unit tests
in `test/ebml.js` and `test/value.js`; the schema table is a parameter of every
definition that looks an element up.  The encoder keeps encoded elements in
objects of the package `buffers`, of which it reads the field `length` and the
field `buffer`, which these objects do not have.
-/

namespace Ebml

/-- A buffer: the list of its byte values. -/
abbrev Bytes := List Nat

/-- The exceptions the decoder side can raise. -/
inductive DecodeError where
  /-- `Unrepresentable length`: the first byte of a vint has no marker bit. -/
  | unrepresentableLength
  /-- A property of `undefined` is read (empty tag stack, `null` vint). -/
  | typeError
  /-- A float element whose payload is neither 4 nor 8 bytes long. -/
  | floatLength
  /-- Arithmetic on a header whose `dataSize` was never set yields `NaN`,
  which the number fields of this embedding do not represent. -/
  | notANumber
  /-- The loop budget of the embedding ran out (shown never to happen). -/
  | outOfFuel
  deriving DecidableEq, Repr

/-- The exceptions the encoder side can raise. -/
inductive EncodeError where
  /-- `Unrepresentable value` of `writeVint`. -/
  | unrepresentableValue
  /-- `No schema entry found for <name>`. -/
  | noSchemaEntry (name : String)
  /-- A property of `undefined` or `null` is read. -/
  | typeError
  /-- `write after end`: a chunk is written after `end()` has been called. -/
  | writeAfterEnd
  deriving DecidableEq, Repr

/-- A decoded variable-length integer: `value` is `-1` for "unknown". -/
structure Vint where
  value : Int
  length : Nat
  deriving DecidableEq, Repr

namespace Tools

/-- Modelled from the spec: `tools.concatenate` (tools.js is not among the
sources), the bytes of the first buffer followed by those of the second. -/
def concatenate (a b : Bytes) : Bytes := a ++ b

/-- Modelled from the spec: `tools.readHexString` (tools.js is not among the
sources).  The hex string of `buffer[start, end)` is the canonical key of an
element; the embedding keeps the bytes themselves, of which the hex string is
an injective rendering. -/
def readHexString (buffer : Bytes) (start «end» : Nat) : Bytes :=
  (buffer.drop start).take («end» - start)

/-- Big-endian value of a byte list. -/
def beValue (bs : Bytes) : Nat := bs.foldl (fun acc b => acc * 256 + b) 0

/-- Length class announced by the first byte of a vint: the byte starts with
`L - 1` zero bits followed by the marker bit.  `9` when no marker bit is set. -/
def vintLength (b : Nat) : Nat :=
  if 128 ≤ b then 1 else if 64 ≤ b then 2 else if 32 ≤ b then 3
  else if 16 ≤ b then 4 else if 8 ≤ b then 5 else if 4 ≤ b then 6
  else if 2 ≤ b then 7 else if 1 ≤ b then 8 else 9

/-- Modelled from the spec: `tools.readVint` (tools.js is not among the
sources).  Section 4.1: the first byte gives the length `L`; no marker bit is
the error `Unrepresentable length`; fewer than `L` bytes from `start` is the
"incomplete" result `null`; otherwise the value is the big-endian number made
of the bits after the marker and the following bytes.  The unknown value `-1`
follows `test/ebml.js`: the tests read `0xFF` as 127 and the all-ones vints of
4 to 7 bytes as `2^(7L) - 1`, read `2^53` exactly, and get `-1` for the two
8-byte vints above `2^53` they read, `2^53 + 1` and the all-ones one.  What the
other 8-byte vints above `2^53` give, neither the specification nor a test
says; they are given `-1` like the two that are tested.  A `start` at or after
the end of the buffer leaves no byte to read and is the incomplete result
too. -/
def readVint (buffer : Bytes) (start : Nat) : Except DecodeError (Option Vint) :=
  match buffer.get? start with
  | none => .ok none
  | some b0 =>
    let length := vintLength b0
    if 8 < length then .error .unrepresentableLength
    else if buffer.length < start + length then .ok none
    else
      let value := beValue ((b0 % 2 ^ (8 - length)) :: (buffer.drop (start + 1)).take (length - 1))
      if length = 8 ∧ 2 ^ 53 < value then .ok (some ⟨-1, length⟩)
      else .ok (some ⟨(value : Int), length⟩)

/-- The minimal length class of `writeVint`: the least `L` with
`value < 2^(7L) - 1`, so that the all-ones pattern of a class is never used. -/
def writeLength (value : Nat) : Nat :=
  if value < 2 ^ 7 - 1 then 1 else if value < 2 ^ 14 - 1 then 2
  else if value < 2 ^ 21 - 1 then 3 else if value < 2 ^ 28 - 1 then 4
  else if value < 2 ^ 35 - 1 then 5 else if value < 2 ^ 42 - 1 then 6
  else if value < 2 ^ 49 - 1 then 7 else 8

/-- The `n` low bytes of `value`, most significant first. -/
def toBytesBE : Nat → Nat → Bytes
  | 0, _ => []
  | n + 1, value => (value / 256 ^ n % 256) :: toBytesBE n value

/-- Modelled from the spec: `tools.writeVint` (tools.js is not among the
sources).  Section 4.1: a negative value or one above the largest number
representable is the error `Unrepresentable value`; otherwise the minimal
length class is chosen, the value is written big-endian and the marker bit is
set in the first byte.  The largest accepted value is `2^53`, the "max
representable JS number" that `test/ebml.js` writes and reads back. -/
def writeVint (value : Int) : Except EncodeError Bytes :=
  if value < 0 ∨ 2 ^ 53 < value then .error .unrepresentableValue
  else
    let v := value.toNat
    let length := writeLength v
    match toBytesBE length v with
    | [] => .ok []
    | b0 :: rest => .ok ((b0 ||| 1 <<< (8 - length)) :: rest)

end Tools

/-! ## Schema and events -/

/-- The element types of the schema table; `unknown` is what the decoder gives
an ID the table does not hold. -/
inductive ElemType where
  | master | unsigned | signed | float | string | utf8 | date | binary | unknown
  deriving DecidableEq, Repr

/-- One row of the schema table. -/
structure SchemaInfo where
  type : ElemType
  name : String
  deriving DecidableEq, Repr

/-- The schema table (schema.js is not among the sources): the rows in key
order, each key being the bytes of an element ID. -/
abbrev Schema := List (Bytes × SchemaInfo)

/-- An element header, the `tagObj` of the decoder.  `dataSize` is absent until
the size field has been read; `end` is `-1` for an unknown size. -/
structure TagObj where
  tag : Int
  tagStr : Bytes
  type : ElemType
  name : String
  start : Int
  «end» : Int
  dataSize : Option Int
  deriving DecidableEq, Repr

/-- The decoded value of a leaf element. -/
inductive Value where
  | unsigned (n : Nat)
  | hex (bs : Bytes)
  | signed (i : Int)
  | float32 (bits : Nat)
  | float64 (bits : Nat)
  | string (bs : Bytes)
  | utf8 (bs : Bytes)
  | date (nanos : Int)
  | binary (bs : Bytes)
  | block (track : Int) (timestamp : Int) (discardable : Bool) (payload : Bytes)
  deriving DecidableEq, Repr

/-- The record of a `tag` event: the header, the raw payload and its value. -/
structure TagData where
  tagObj : TagObj
  data : Bytes
  value : Value
  deriving DecidableEq, Repr

/-- The events the decoder pushes downstream. -/
inductive Event where
  | start (tagObj : TagObj)
  | tag (t : TagData)
  | «end» (tagObj : TagObj)
  deriving DecidableEq, Repr

namespace Tools

/-- Big-endian two's-complement value of a byte list. -/
def readSigned (bs : Bytes) : Int :=
  match bs with
  | [] => 0
  | b :: _ => if 128 ≤ b then (beValue bs : Int) - 256 ^ bs.length else beValue bs

/-- Modelled from the spec: `tools.readDataFromTag` (tools.js is not among the
sources), the typed value decoder of section 4.3.  Floats keep their bit
pattern, strings their bytes.  An unsigned integer of more than six bytes is
given as its hex string, here its bytes: `test/value.js` reads the seven bytes
of a `TrackUID` as the string `306d02aaa74d06`.  An element named `SimpleBlock`
or `Block` is split into the track vint, a signed 16-bit timestamp, a flags
byte whose low bit is "discardable", and the rest.  The record keeps the
payload as `data`, which is what the pipeline test feeds to the encoder. -/
def readDataFromTag (tagObj : TagObj) (data : Bytes) : Except DecodeError TagData :=
  if tagObj.name = "SimpleBlock" ∨ tagObj.name = "Block" then
    match readVint data 0 with
    | .error e => .error e
    | .ok none => .error .typeError
    | .ok (some track) =>
      .ok { tagObj, data,
            value := .block track.value
              (readSigned ((data.drop track.length).take 2))
              ((data.getD (track.length + 2) 0) % 2 = 1)
              (data.drop (track.length + 3)) }
  else
    match tagObj.type with
    | .unsigned =>
      if data.length ≤ 6 then .ok { tagObj, data, value := .unsigned (beValue data) }
      else .ok { tagObj, data, value := .hex data }
    | .signed => .ok { tagObj, data, value := .signed (readSigned data) }
    | .float =>
      if data.length = 4 then .ok { tagObj, data, value := .float32 (beValue data) }
      else if data.length = 8 then .ok { tagObj, data, value := .float64 (beValue data) }
      else .error .floatLength
    | .string => .ok { tagObj, data, value := .string data }
    | .utf8 => .ok { tagObj, data, value := .utf8 data }
    | .date => .ok { tagObj, data, value := .date (readSigned data) }
    | _ => .ok { tagObj, data, value := .binary data }

end Tools

/-- An index of `Buffer.subarray` on a buffer of `len` bytes: a negative index
counts from the end, and the result is clamped to `[0, len]`. -/
def clampIndex (len : Nat) (i : Int) : Nat :=
  if i < 0 then (len + i).toNat else min i.toNat len

/-- The bytes `Buffer.subarray(start, end)` selects. -/
def subarray (buffer : Bytes) (start «end» : Int) : Bytes :=
  (buffer.drop (clampIndex buffer.length start)).take
    (clampIndex buffer.length «end» - clampIndex buffer.length start)

/-! ## The decoder (`src/ebml/decoder.js`) -/

/-- The three phases `STATE_TAG`, `STATE_SIZE`, `STATE_CONTENT`. -/
inductive State where
  | tag | size | content
  deriving DecidableEq, Repr

/-- The fields of an `EbmlDecoder`.  `mBuffer` is `null` until the first chunk.
The head of `mTagStack` is the top of the stack (the last array element). -/
structure EbmlDecoder where
  mBuffer : Option Bytes
  mTagStack : List TagObj
  mState : State
  mCursor : Nat
  mTotal : Int
  deriving DecidableEq, Repr

namespace EbmlDecoder

/-- The decoder as constructed. -/
def fresh : EbmlDecoder :=
  { mBuffer := none, mTagStack := [], mState := .tag, mCursor := 0, mTotal := 0 }

/-- The static `getSchemaInfo(tagStr)`: the row of the schema, or the
`unknown` row. -/
def getSchemaInfo (schema : Schema) (tagStr : Bytes) : SchemaInfo :=
  (schema.lookup tagStr).getD { type := .unknown, name := "unknown" }

/-- What a `read...` method did: its boolean result, the decoder afterwards
and the events it pushed. -/
abbrev Step := Except DecodeError (Bool × EbmlDecoder × List Event)

/-- The method `readTag`. -/
def readTag (schema : Schema) (d : EbmlDecoder) : Step :=
  match d.mBuffer with
  | none => .error .typeError
  | some buffer =>
    if buffer.length ≤ d.mCursor then .ok (false, d, [])
    else
      let start := d.mTotal
      match Tools.readVint buffer d.mCursor with
      | .error e => .error e
      | .ok none => .ok (false, d, [])
      | .ok (some tag) =>
        let tagStr := Tools.readHexString buffer d.mCursor (d.mCursor + tag.length)
        let tagObj : TagObj :=
          { tag := tag.value
            tagStr := tagStr
            type := (getSchemaInfo schema tagStr).type
            name := (getSchemaInfo schema tagStr).name
            start := start
            «end» := start + tag.length
            dataSize := none }
        .ok (true,
          { d with
            mCursor := d.mCursor + tag.length
            mTotal := d.mTotal + tag.length
            mState := .size
            mTagStack := tagObj :: d.mTagStack }, [])

/-- The method `readSize`. -/
def readSize (d : EbmlDecoder) : Step :=
  match d.mTagStack with
  | [] => .error .typeError
  | tagObj :: rest =>
    match d.mBuffer with
    | none => .error .typeError
    | some buffer =>
      if buffer.length ≤ d.mCursor then .ok (false, d, [])
      else
        match Tools.readVint buffer d.mCursor with
        | .error e => .error e
        | .ok none => .ok (false, d, [])
        | .ok (some size) =>
          let sized : TagObj :=
            { tagObj with
              dataSize := some size.value
              «end» := if size.value = -1 then -1
                       else tagObj.«end» + (size.value + size.length) }
          .ok (true,
            { d with
              mCursor := d.mCursor + size.length
              mTotal := d.mTotal + size.length
              mState := .content
              mTagStack := sized :: rest }, [])

/-- The closing loop of `readContent`: while the stack is not empty and
`total < topEle.end` fails, push an `end` event for the top and pop it. -/
def closeEnded (total : Int) : List TagObj → List Event × List TagObj
  | [] => ([], [])
  | topEle :: rest =>
    if total < topEle.«end» then ([], topEle :: rest)
    else ((Event.«end» topEle) :: (closeEnded total rest).1, (closeEnded total rest).2)

/-- The method `readContent`. -/
def readContent (d : EbmlDecoder) : Step :=
  match d.mTagStack with
  | [] => .error .typeError
  | tagObj :: rest =>
    if tagObj.type = .master then
      .ok (true, { d with mState := .tag }, [Event.start tagObj])
    else
      match d.mBuffer with
      | none => .error .typeError
      | some buffer =>
        match tagObj.dataSize with
        | none => .error .notANumber
        | some dataSize =>
          if (buffer.length : Int) < d.mCursor + dataSize then .ok (false, d, [])
          else
            let data := subarray buffer d.mCursor (d.mCursor + dataSize)
            let total := d.mTotal + dataSize
            match Tools.readDataFromTag tagObj data with
            | .error e => .error e
            | .ok t =>
              .ok (true,
                { mBuffer := some (subarray buffer (d.mCursor + dataSize) buffer.length)
                  mCursor := 0
                  mTotal := total
                  mState := .tag
                  mTagStack := (closeEnded total rest).2 },
                Event.tag t :: (closeEnded total rest).1)

/-- One guarded call of the loop body,
`if (this.state === s && !this.read()) break;`: the result `true` goes on to
the next statement, `false` leaves the loop. -/
def guarded (s : State) (read : EbmlDecoder → Step) (d : EbmlDecoder) : Step :=
  if d.mState = s then read d else .ok (true, d, [])

/-- The body of the `while` loop of `_transform`: the three guarded calls in
sequence.  The result `false` is a `break`. -/
def body (schema : Schema) (d : EbmlDecoder) : Step :=
  match guarded .tag (readTag schema) d with
  | .error e => .error e
  | .ok (false, d1, e1) => .ok (false, d1, e1)
  | .ok (true, d1, e1) =>
    match guarded .size readSize d1 with
    | .error e => .error e
    | .ok (false, d2, e2) => .ok (false, d2, e1 ++ e2)
    | .ok (true, d2, e2) =>
      match guarded .content readContent d2 with
      | .error e => .error e
      | .ok (b, d3, e3) => .ok (b, d3, e1 ++ e2 ++ e3)

/-- The `while (this.cursor < this.buffer.length)` loop, with a budget of
passes. -/
def loop (schema : Schema) : Nat → EbmlDecoder → Except DecodeError (EbmlDecoder × List Event)
  | 0, _ => .error .outOfFuel
  | fuel + 1, d =>
    match d.mBuffer with
    | none => .error .typeError
    | some buffer =>
      if d.mCursor < buffer.length then
        match body schema d with
        | .error e => .error e
        | .ok (false, d1, e1) => .ok (d1, e1)
        | .ok (true, d1, e1) =>
          match loop schema fuel d1 with
          | .error e => .error e
          | .ok (d2, e2) => .ok (d2, e1 ++ e2)
      else .ok (d, [])

/-- The first statement of `_transform`: the chunk becomes the pending buffer
or is appended to it. -/
def append (d : EbmlDecoder) (chunk : Bytes) : EbmlDecoder :=
  { d with
    mBuffer := some (match d.mBuffer with
      | none => chunk
      | some buffer => Tools.concatenate buffer chunk) }

/-- The number of bytes of the pending buffer. -/
def pending (d : EbmlDecoder) : Nat :=
  match d.mBuffer with
  | none => 0
  | some buffer => buffer.length

/-- The method `_transform`: the decoder after the chunk and the events pushed.
The loop makes fewer than `pending + 2` passes (`transform_fuel`). -/
def _transform (schema : Schema) (d : EbmlDecoder) (chunk : Bytes) :
    Except DecodeError (EbmlDecoder × List Event) :=
  loop schema (pending (append d chunk) + 2) (append d chunk)

/-- Delivering chunks one after the other, the events collected in order. -/
def feed (schema : Schema) : EbmlDecoder → List Bytes → Except DecodeError (EbmlDecoder × List Event)
  | d, [] => .ok (d, [])
  | d, chunk :: chunks =>
    match _transform schema d chunk with
    | .error e => .error e
    | .ok (d1, e1) =>
      match feed schema d1 chunks with
      | .error e => .error e
      | .ok (d2, e2) => .ok (d2, e1 ++ e2)

end EbmlDecoder

/-! ## Sample data -/

/-- Three rows of the Matroska dictionary: `EBML` (a master), `EBMLVersion`
(an unsigned integer) and `Cluster` (a master). -/
def sampleSchema : Schema :=
  [([0x1a, 0x45, 0xdf, 0xa3], { type := .master, name := "EBML" }),
   ([0x42, 0x86], { type := .unsigned, name := "EBMLVersion" }),
   ([0x1f, 0x43, 0xb6, 0x75], { type := .master, name := "Cluster" })]

/-- The buffer of the pipeline test: an `EBML` element of size 4 that holds an
`EBMLVersion` of one byte, 0. -/
def sampleBytes : Bytes := [0x1a, 0x45, 0xdf, 0xa3, 0x84, 0x42, 0x86, 0x81, 0x00]

/-- An `EBML` element of unknown size followed by an `EBMLVersion` of one
byte. -/
def unknownSizeBytes : Bytes :=
  [0x1a, 0x45, 0xdf, 0xa3, 0x01, 0xff, 0xff, 0xff, 0xff, 0xff, 0xff, 0xff,
   0x42, 0x86, 0x81, 0x00]

/-- The header of the `EBML` element of `unknownSizeBytes` once its size is
read: `end` is the sentinel `-1`. -/
def unknownSizeHeader : TagObj :=
  { tag := 0x0a45dfa3, tagStr := [0x1a, 0x45, 0xdf, 0xa3], type := .master, name := "EBML",
    start := 0, «end» := -1, dataSize := some (-1) }

/-- The header of the `EBMLVersion` element of `unknownSizeBytes`. -/
def versionHeader : TagObj :=
  { tag := 0x0286, tagStr := [0x42, 0x86], type := .unsigned, name := "EBMLVersion",
    start := 12, «end» := 16, dataSize := some 1 }

/-- The decoder on `unknownSizeBytes` when the payload of `EBMLVersion` is
about to be read. -/
def beforeLeaf : EbmlDecoder :=
  { mBuffer := some unknownSizeBytes, mTagStack := [versionHeader, unknownSizeHeader],
    mState := .content, mCursor := 15, mTotal := 15 }

/-! ## The decoder as a machine of single calls -/

namespace EbmlDecoder

/-- The `read...` method the loop of `_transform` calls in the phase the
decoder is in. -/
def step (schema : Schema) (d : EbmlDecoder) : Step :=
  match d.mState with
  | .tag => readTag schema d
  | .size => readSize d
  | .content => readContent d

/-- Putting the events `es` in front of those of a result. -/
def prepend (es : List Event) :
    Except DecodeError (EbmlDecoder × List Event) → Except DecodeError (EbmlDecoder × List Event)
  | .error e => .error e
  | .ok (d, es1) => .ok (d, es ++ es1)

/-- The calls of `step` from `d` until one returns `false` or throws: `Runs d r`
says this sequence of calls ends with the result `r`. -/
inductive Runs (schema : Schema) : EbmlDecoder →
    Except DecodeError (EbmlDecoder × List Event) → Prop where
  | throws {d e} : step schema d = .error e → Runs schema d (.error e)
  | waits {d d1 e1} : step schema d = .ok (false, d1, e1) → Runs schema d (.ok (d1, e1))
  | more {d d1 e1 r} : step schema d = .ok (true, d1, e1) → Runs schema d1 r →
      Runs schema d (prepend e1 r)

/-- Calls of `step` that all return `true`: `Steps d d1 es` says they lead from
`d` to `d1` and push the events `es`. -/
inductive Steps (schema : Schema) : EbmlDecoder → EbmlDecoder → List Event → Prop where
  | done (d) : Steps schema d d []
  | next {d d1 d2 e1 e2} : step schema d = .ok (true, d1, e1) → Steps schema d1 d2 e2 →
      Steps schema d d2 (e1 ++ e2)

/-- The bytes of the pending buffer that lie after the cursor, as a number
that is negative when the cursor is beyond the buffer. -/
def remaining (d : EbmlDecoder) : Int := (pending d : Int) - d.mCursor

/-- The decoder with `x` appended to a pending buffer that exists. -/
def extend (d : EbmlDecoder) (x : Bytes) : EbmlDecoder :=
  { d with mBuffer := d.mBuffer.map (fun buffer => Tools.concatenate buffer x) }

/-- What holds of the decoder in every state the loop passes through: the
cursor is inside the pending buffer, a header is on the stack in the phases
that read one, and in the content phase `cursor + dataSize` is not negative. -/
def Inv (d : EbmlDecoder) : Prop :=
  d.mCursor ≤ pending d ∧
  (d.mState ≠ .tag → d.mTagStack ≠ []) ∧
  (d.mState = .content → ∀ h rest ds, d.mTagStack = h :: rest → h.dataSize = some ds →
    0 ≤ (d.mCursor : Int) + ds)

/-- A decoder between two chunks: the invariant holds, and either no chunk has
arrived yet or the call of its phase is waiting for more bytes. -/
def Resting (schema : Schema) (d : EbmlDecoder) : Prop :=
  Inv d ∧ ((d.mBuffer = none ∧ d.mState = .tag) ∨ step schema d = .ok (false, d, []))

/-- The number of passes the loop is sure to stay below. -/
def passBound (d : EbmlDecoder) : Int :=
  if d.mState = .tag then remaining d else (pending d : Int) + 1

/-- The part of a result that a consumer of the decoder observes: the events,
`total`, the phase and the tag stack. -/
def view (r : EbmlDecoder × List Event) : List Event × Int × State × List TagObj :=
  (r.2, r.1.mTotal, r.1.mState, r.1.mTagStack)

end EbmlDecoder

/-! ## Reachable states of the decoder -/

namespace EbmlDecoder

/-- The states a fresh decoder reaches: `Reach schema stream d events` says that
delivering chunks whose concatenation is `stream` leads to `d` and has pushed
`events`, no call having thrown. -/
inductive Reach (schema : Schema) : Bytes → EbmlDecoder → List Event → Prop where
  | fresh : Reach schema [] fresh []
  | deliver {stream d events chunk d1 e1} : Reach schema stream d events →
      _transform schema d chunk = .ok (d1, e1) →
      Reach schema (stream ++ chunk) d1 (events ++ e1)

/-- The header an event carries. -/
def header : Event → TagObj
  | .start h => h
  | .tag t => t.tagObj
  | .«end» h => h

/-- The header `h` is the one of the element whose first ID byte is at the
offset `h.start` of `stream`: the ID vint read there has the value `h.tag` and
the bytes `h.tagStr`, the size vint that follows it has the value `dataSize`,
and `end` is `-1` for the unknown size and otherwise
`start + li + ls + dataSize`. -/
def HeaderAt (stream : Bytes) (h : TagObj) : Prop :=
  0 ≤ h.start ∧ ∃ li ls ds,
    Tools.readVint stream h.start.toNat = .ok (some ⟨h.tag, li⟩) ∧
    h.tagStr = Tools.readHexString stream h.start.toNat (h.start.toNat + li) ∧
    h.tagStr.length = li ∧
    Tools.readVint stream (h.start.toNat + li) = .ok (some ⟨ds, ls⟩) ∧
    h.dataSize = some ds ∧
    h.«end» = if ds = -1 then -1 else h.start + li + ls + ds

/-- The header `h` of an element whose ID has been read at the offset
`h.start` of `stream` and whose size has not: `end` is `start + li`. -/
def IdAt (stream : Bytes) (h : TagObj) : Prop :=
  0 ≤ h.start ∧ ∃ li,
    Tools.readVint stream h.start.toNat = .ok (some ⟨h.tag, li⟩) ∧
    h.tagStr = Tools.readHexString stream h.start.toNat (h.start.toNat + li) ∧
    h.tagStr.length = li ∧
    h.dataSize = none ∧
    h.«end» = h.start + li

/-- The pending buffer is the part of the stream from the offset
`total - cursor` on: `total` is the stream offset of the cursor. -/
def Aligned (stream : Bytes) (d : EbmlDecoder) : Prop :=
  (d.mCursor : Int) ≤ d.mTotal ∧ d.mTotal - d.mCursor ≤ stream.length ∧
  (d.mBuffer = none ∧ stream = [] ∨
    d.mBuffer = some (stream.drop (d.mTotal - d.mCursor).toNat))

/-- The headers of the stack whose size has been read: all of them, except the
top one in the size phase. -/
def sized (d : EbmlDecoder) : List TagObj :=
  match d.mState with
  | .size => d.mTagStack.tail
  | _ => d.mTagStack

/-- What the headers of a reachable state have to do with the stream: the
buffer is aligned with it, every header whose size has been read, on the stack
or in an event, describes the element at its `start`, and in the size phase
the top header is that of the ID that ends at `total`. -/
def Described (stream : Bytes) (d : EbmlDecoder) (events : List Event) : Prop :=
  Aligned stream d ∧
  (∀ h ∈ sized d, HeaderAt stream h) ∧
  (d.mState = .size → ∀ h rest, d.mTagStack = h :: rest → IdAt stream h ∧
    h.start + h.tagStr.length = d.mTotal) ∧
  (∀ ev ∈ events, HeaderAt stream (header ev))

end EbmlDecoder

/-! ## Sample states -/

/-- The header of the `EBML` element of `sampleBytes`. -/
def ebmlHeader : TagObj :=
  { tag := 0x0a45dfa3, tagStr := [0x1a, 0x45, 0xdf, 0xa3], type := .master, name := "EBML",
    start := 0, «end» := 9, dataSize := some 4 }

/-- The first eight bytes of `sampleBytes`: the payload of `EBMLVersion` is
still missing. -/
def partialBytes : Bytes := [0x1a, 0x45, 0xdf, 0xa3, 0x84, 0x42, 0x86, 0x81]

/-- The decoder after `partialBytes`: it waits for the payload. -/
def waitingForPayload : EbmlDecoder :=
  { mBuffer := some partialBytes
    mTagStack := [{ tag := 0x0286, tagStr := [0x42, 0x86], type := .unsigned,
                    name := "EBMLVersion", start := 5, «end» := 9, dataSize := some 1 },
                  ebmlHeader]
    mState := .content, mCursor := 8, mTotal := 8 }

/-- A well-formed stream cut before its last byte: an `EBML` element of size 9
that holds an empty `Cluster` followed by an `EBMLVersion` of one byte. -/
def emptyMasterBytes : Bytes :=
  [0x1a, 0x45, 0xdf, 0xa3, 0x89, 0x1f, 0x43, 0xb6, 0x75, 0x80, 0x42, 0x86, 0x81]

/-- The header of the empty `Cluster` of `emptyMasterBytes`. -/
def emptyClusterHeader : TagObj :=
  { tag := 0x0f43b675, tagStr := [0x1f, 0x43, 0xb6, 0x75], type := .master, name := "Cluster",
    start := 5, «end» := 10, dataSize := some 0 }

/-- The header of the `EBMLVersion` of `emptyMasterBytes`. -/
def lateVersionHeader : TagObj :=
  { tag := 0x0286, tagStr := [0x42, 0x86], type := .unsigned, name := "EBMLVersion",
    start := 10, «end» := 14, dataSize := some 1 }

/-- The header of the `EBML` element of `emptyMasterBytes`. -/
def outerHeader : TagObj :=
  { tag := 0x0a45dfa3, tagStr := [0x1a, 0x45, 0xdf, 0xa3], type := .master, name := "EBML",
    start := 0, «end» := 14, dataSize := some 9 }

/-- The decoder after `emptyMasterBytes`: the empty `Cluster` is still on the
stack, below the `EBMLVersion` that follows it in the stream. -/
def afterEmptyMaster : EbmlDecoder :=
  { mBuffer := some emptyMasterBytes
    mTagStack := [lateVersionHeader, emptyClusterHeader, outerHeader]
    mState := .content, mCursor := 13, mTotal := 13 }

namespace EbmlDecoder

/-- The upper of two headers of the stack starts after the ID of the lower
one. -/
def StartsAfter (child parent : TagObj) : Prop :=
  parent.start + parent.tagStr.length < child.start

/-- The IDs of all headers of `stack` end before the offset `bound`. -/
def Below (bound : Int) (stack : List TagObj) : Prop :=
  ∀ h ∈ stack, h.start + h.tagStr.length < bound

/-- How the starts of the headers on the stack lie with respect to each other
and to `total`, phase by phase. -/
def Opened (d : EbmlDecoder) : Prop :=
  d.mTagStack.Pairwise StartsAfter ∧
  match d.mState with
  | .tag => Below d.mTotal d.mTagStack
  | .size => ∀ t rest, d.mTagStack = t :: rest →
      t.start + t.tagStr.length = d.mTotal ∧ 0 < t.tagStr.length ∧ Below t.start rest
  | .content => ∀ t rest, d.mTagStack = t :: rest →
      t.start + t.tagStr.length < d.mTotal ∧ 0 < t.tagStr.length ∧
      (∀ ds, t.dataSize = some ds → -1 ≤ ds) ∧ Below t.start rest

end EbmlDecoder

/-! ## The encoder (`src/ebml/encoder.js`) -/

/-- The record of an event written to the encoder, `{ data, name, ...rest }`:
of `rest` only `end` is read.  A field that is absent is `none`. -/
structure TagInfo where
  name : String
  data : Option Bytes
  «end» : Option Int
  deriving DecidableEq, Repr

/-- A chunk written to the encoder: `[tag, { data, name, ...rest }]`. -/
abbrev Chunk := String × TagInfo

/-- An element of a `children` array: `{ data }` with the bytes of an encoded
leaf, or the `tag` object of a child element, known by its reference. -/
inductive Child where
  | data (bs : Bytes)
  | tag (ref : Nat)
  deriving DecidableEq, Repr

/-- The `tag` object `startTag` creates, without its `data` field, which is kept
in the field `closed` of the encoder.  `ref` is the identity of the object. -/
structure OpenTag where
  ref : Nat
  id : Bytes
  name : String
  «end» : Option Int
  children : List Child
  deriving DecidableEq, Repr

/-- The fields of an `EbmlEncoder`.  The head of `mStack` is the top of the
stack.  `closed` holds the `data` of the tag objects that `endTag` has filled
in, `nextRef` counts the tag objects created, `ended` says that `this.end()`
has been called. -/
structure EbmlEncoder where
  mBuffer : Option Bytes
  mCorked : Bool
  mStack : List OpenTag
  closed : List (Nat × Bytes)
  nextRef : Nat
  ended : Bool
  deriving DecidableEq, Repr

/-- The size field of an element of unknown size, `01ffffffffffffff`. -/
def unknownSize : Bytes := [0x01, 0xff, 0xff, 0xff, 0xff, 0xff, 0xff, 0xff]

/-- The field `buffer` of the object `Buffers([...])` that `encodeTag`
returns.  The package `buffers` is not among the sources: its objects have the
fields `buffers` and `length` and no field `buffer`, so reading the field
gives `undefined`, here `none`, whatever bytes the object holds. -/
def Buffers.buffer (_data : Bytes) : Option Bytes := none

/-- The function `encodeTag`.  The bytes are those the `Buffers` object it
returns holds. -/
def encodeTag (tagId : Bytes) (tagData : Bytes) («end» : Option Int) :
    Except EncodeError Bytes :=
  if «end» = some (-1) then .ok (tagId ++ unknownSize ++ tagData)
  else
    match Tools.writeVint tagData.length with
    | .error e => .error e
    | .ok size => .ok (tagId ++ size ++ tagData)

namespace EbmlEncoder

/-- The encoder as constructed. -/
def fresh : EbmlEncoder :=
  { mBuffer := none, mCorked := false, mStack := [], closed := [], nextRef := 0,
    ended := false }

/-- What a method of the encoder did: the encoder afterwards and the chunks it
pushed downstream. -/
abbrev Result := Except EncodeError (EbmlEncoder × List Bytes)

/-- The method `flush`. -/
def flush (s : EbmlEncoder) : EbmlEncoder × List Bytes :=
  match s.mBuffer with
  | none => (s, [])
  | some buffer =>
    if s.mCorked then (s, [])
    else ({ s with mBuffer := none }, [buffer])

/-- The method `bufferAndFlush`.  The argument is `none` when the caller
passes `undefined`: `Buffers(undefined)` holds no byte, and `undefined` adds no
byte to a pending buffer. -/
def bufferAndFlush (s : EbmlEncoder) (buffer : Option Bytes) : EbmlEncoder × List Bytes :=
  flush { s with
    mBuffer := some (match s.mBuffer with
      | some pending => Tools.concatenate pending (buffer.getD [])
      | none => buffer.getD []) }

/-- The method `cork`. -/
def cork (s : EbmlEncoder) : EbmlEncoder := { s with mCorked := true }

/-- The method `uncork`. -/
def uncork (s : EbmlEncoder) : EbmlEncoder × List Bytes :=
  flush { s with mCorked := false }

/-- The static `getSchemaInfo(tagName)`: the first key of the schema whose row
has the name, or `null`.  A key that is falsy, the empty one, counts as
`null`. -/
def getSchemaInfo (schema : Schema) (tagName : String) : Option Bytes :=
  match (schema.map Prod.fst).find?
      (fun key => (schema.lookup key).map SchemaInfo.name = some tagName) with
  | none => none
  | some tagId => if tagId = [] then none else some tagId

/-- The method `writeTag`.  With an empty stack it hands `data.buffer` to
`bufferAndFlush`. -/
def writeTag (schema : Schema) (s : EbmlEncoder) (tagName : String)
    (tagData : Option Bytes) : Result :=
  match getSchemaInfo schema tagName with
  | none => .error (.noSchemaEntry tagName)
  | some tagId =>
    match tagData with
    | none => .ok (s, [])
    | some payload =>
      match encodeTag tagId payload none with
      | .error e => .error e
      | .ok data =>
        match s.mStack with
        | top :: rest =>
          .ok ({ s with
            mStack := { top with children := top.children ++ [Child.data data] } :: rest }, [])
        | [] => .ok (bufferAndFlush s (Buffers.buffer data))

/-- The method `startTag`. -/
def startTag (schema : Schema) (s : EbmlEncoder) (tagName : String) («end» : Option Int) :
    Result :=
  match getSchemaInfo schema tagName with
  | none => .error (.noSchemaEntry tagName)
  | some tagId =>
    let tag : OpenTag :=
      { ref := s.nextRef, id := tagId, name := tagName, «end» := «end», children := [] }
    match s.mStack with
    | top :: rest =>
      .ok ({ s with
        nextRef := s.nextRef + 1
        mStack := tag :: { top with children := top.children ++ [Child.tag tag.ref] } :: rest },
        [])
    | [] => .ok ({ s with nextRef := s.nextRef + 1, mStack := [tag] }, [])

/-- The `data` of a child: the bytes of `{ data }`, or what `endTag` has filled
in for a tag object, `null` if it has not. -/
def childData (closed : List (Nat × Bytes)) : Child → Option Bytes
  | .data bs => some bs
  | .tag ref => closed.lookup ref

/-- The buffer `Buffers(childTagDataBuffers)`: the `data` of the children one
after the other.  A `null` among them is a `TypeError`. -/
def childrenData (closed : List (Nat × Bytes)) : List Child → Except EncodeError Bytes
  | [] => .ok []
  | child :: children =>
    match childData closed child with
    | none => .error .typeError
    | some bs =>
      match childrenData closed children with
      | .error e => .error e
      | .ok tail => .ok (bs ++ tail)

/-- The method `endTag`.  The encoded element is kept as the `data` of the tag
object; with an empty stack `tag.data.buffer` is handed to `bufferAndFlush`. -/
def endTag (s : EbmlEncoder) : Result :=
  match s.mStack with
  | [] => .error .typeError
  | tag :: rest =>
    match childrenData s.closed tag.children with
    | .error e => .error e
    | .ok body =>
      match encodeTag tag.id body tag.«end» with
      | .error e => .error e
      | .ok data =>
        let popped : EbmlEncoder :=
          { s with mStack := rest, closed := (tag.ref, data) :: s.closed }
        match rest with
        | [] =>
          .ok ({ (bufferAndFlush popped (Buffers.buffer data)).1 with ended := true },
            (bufferAndFlush popped (Buffers.buffer data)).2)
        | _ :: _ => .ok ({ popped with ended := true }, [])

/-- The method `_transform`. -/
def _transform (schema : Schema) (s : EbmlEncoder) (chunk : Chunk) : Result :=
  if chunk.1 = "start" then startTag schema s chunk.2.name chunk.2.«end»
  else if chunk.1 = "tag" then writeTag schema s chunk.2.name chunk.2.data
  else if chunk.1 = "end" then endTag s
  else .ok (s, [])

/-- The calls of `_transform` for a list of chunks, one after the other, and
the buffers pushed downstream. -/
def transformAll (schema : Schema) : EbmlEncoder → List Chunk → Result
  | s, [] => .ok (s, [])
  | s, chunk :: chunks =>
    match _transform schema s chunk with
    | .error e => .error e
    | .ok (s1, out1) =>
      match transformAll schema s1 chunks with
      | .error e => .error e
      | .ok (s2, out2) => .ok (s2, out1 ++ out2)

end EbmlEncoder

namespace EbmlEncoder

/-- The method `_flush`, which a stream that has been ended calls before it
closes: `this.flush(done)`. -/
def _flush (s : EbmlEncoder) : EbmlEncoder × List Bytes := flush s

/-- Writing a chunk to the stream: once `end()` has been called a write is the
error `write after end` and the chunk is not transformed; a write during which
`end()` was called is followed by the call of `_flush`. -/
def write (schema : Schema) (s : EbmlEncoder) (chunk : Chunk) : Result :=
  if s.ended then .error .writeAfterEnd
  else
    match _transform schema s chunk with
    | .error e => .error e
    | .ok (s1, out1) =>
      if s1.ended then .ok ((_flush s1).1, out1 ++ (_flush s1).2) else .ok (s1, out1)

/-- Writing a list of chunks to the stream, one after the other, and the
buffers pushed downstream. -/
def feed (schema : Schema) : EbmlEncoder → List Chunk → Result
  | s, [] => .ok (s, [])
  | s, chunk :: chunks =>
    match write schema s chunk with
    | .error e => .error e
    | .ok (s1, out1) =>
      match feed schema s1 chunks with
      | .error e => .error e
      | .ok (s2, out2) => .ok (s2, out1 ++ out2)

end EbmlEncoder

/-! ## Trees of elements and their encoding -/

mutual
/-- An element as the events describe it: a leaf with its payload, or a
master with the `end` of its `start` event and its children. -/
inductive Tree where
  | leaf (name : String) (payload : Bytes)
  | master (name : String) («end» : Option Int) (children : Forest)
/-- The children of a master, in order. -/
inductive Forest where
  | nil
  | cons (t : Tree) (ts : Forest)
end

mutual
/-- The events of a tree: a `tag` event for a leaf; for a master a `start`
event, the events of the children and an `end` event. -/
def Tree.chunks : Tree → List Chunk
  | .leaf name payload => [("tag", { name := name, data := some payload, «end» := none })]
  | .master name e children =>
    ("start", { name := name, data := none, «end» := e }) ::
      (children.chunks ++ [("end", { name := name, data := none, «end» := e })])
/-- The events of the trees of a forest, one tree after the other. -/
def Forest.chunks : Forest → List Chunk
  | .nil => []
  | .cons t ts => t.chunks ++ ts.chunks
end

/-- The size header of the specification: the fixed marker for `end = -1`,
else the vint of the length of the body. -/
def sizeHeader («end» : Option Int) (body : Bytes) : Except EncodeError Bytes :=
  if «end» = some (-1) then .ok unknownSize else Tools.writeVint body.length

mutual
/-- The tree encoding of the specification:
`enc(leaf name p) = id(name) ++ writeVint(|p|) ++ p` and
`enc(master name end children) = id(name) ++ sizeHeader ++ body`, the body being
the encodings of the children one after the other. -/
def Tree.enc (schema : Schema) : Tree → Except EncodeError Bytes
  | .leaf name payload =>
    match EbmlEncoder.getSchemaInfo schema name with
    | none => .error (.noSchemaEntry name)
    | some id =>
      match Tools.writeVint payload.length with
      | .error e => .error e
      | .ok size => .ok (id ++ size ++ payload)
  | .master name e children =>
    match EbmlEncoder.getSchemaInfo schema name with
    | none => .error (.noSchemaEntry name)
    | some id =>
      match children.enc schema with
      | .error err => .error err
      | .ok body =>
        match sizeHeader e body with
        | .error err => .error err
        | .ok size => .ok (id ++ size ++ body)
/-- The encodings of the trees of a forest, one after the other. -/
def Forest.enc (schema : Schema) : Forest → Except EncodeError Bytes
  | .nil => .ok []
  | .cons t ts =>
    match t.enc schema with
    | .error e => .error e
    | .ok bs =>
      match ts.enc schema with
      | .error e => .error e
      | .ok rest => .ok (bs ++ rest)
end

/-- The tree of the pipeline test: `EBML` holding `EBMLVersion` with the
payload `00`. -/
def sampleTree : Tree :=
  .master "EBML" (some 9) (.cons (.leaf "EBMLVersion" [0x00]) .nil)

namespace EbmlEncoder

/-- The encoder `s1` is `s` after the events of children with the encoding
`bs` were given to the open tag `top`: the stack is as before but for the
children of its top, whose `data`, `body0` before, now make up `body0 ++ bs`;
tag objects that existed before have kept their `data`; the pending buffer and
the corked flag are as before. -/
def Appended (s s1 : EbmlEncoder) (top : OpenTag) (rest : List OpenTag) (body0 bs : Bytes) :
    Prop :=
  ∃ top1, s1.mStack = top1 :: rest ∧ top1.ref = top.ref ∧ top1.id = top.id ∧
    top1.name = top.name ∧ top1.«end» = top.«end» ∧
    childrenData s1.closed top1.children = .ok (body0 ++ bs) ∧
    (∀ ref, Child.tag ref ∈ top1.children → ref < s1.nextRef) ∧
    s.nextRef ≤ s1.nextRef ∧
    (∀ ref, ref < s.nextRef → s1.closed.lookup ref = s.closed.lookup ref) ∧
    s1.mBuffer = s.mBuffer ∧ s1.mCorked = s.mCorked

end EbmlEncoder

/-! ## The decoder piped into the encoder, and back -/

/-- An event of the decoder as the encoder receives it through
`decoder.pipe(encoder)`: the record of a `start` or `end` event is the header,
that of a `tag` event the header with the payload as `data`. -/
def toChunk : Event → Chunk
  | .start h => ("start", { name := h.name, data := none, «end» := some h.«end» })
  | .tag t => ("tag", { name := t.tagObj.name, data := some t.data, «end» := some t.tagObj.«end» })
  | .«end» h => ("end", { name := h.name, data := none, «end» := some h.«end» })

/-- What the round trip compares of a chunk: the kind of the event, the name of
the element and the payload. -/
def essence (c : Chunk) : String × String × Option Bytes := (c.1, c.2.name, c.2.data)

/-- The forest of the leaves with the given names and payloads. -/
def Forest.ofLeaves : List (String × Bytes) → Forest
  | [] => .nil
  | l :: ls => .cons (.leaf l.1 l.2) (Forest.ofLeaves ls)

/-- The name resolves to an ID that is one complete vint and that the schema
gives the type master. -/
def RootOk (schema : Schema) (name : String) : Prop :=
  ∃ id info v, EbmlEncoder.getSchemaInfo schema name = some id ∧
    schema.lookup id = some info ∧ info.type = .master ∧
    Tools.readVint id 0 = .ok (some ⟨v, id.length⟩)

/-- The name of the leaf resolves to an ID that is one complete vint and that
the schema gives a type other than master, and the payload is one that
`readDataFromTag` accepts for that row of the schema. -/
def LeafOk (schema : Schema) (l : String × Bytes) : Prop :=
  ∃ id info v, EbmlEncoder.getSchemaInfo schema l.1 = some id ∧
    schema.lookup id = some info ∧ info.type ≠ .master ∧
    Tools.readVint id 0 = .ok (some ⟨v, id.length⟩) ∧
    ∀ h : TagObj, h.type = info.type → h.name = info.name →
      ∃ t, Tools.readDataFromTag h l.2 = .ok t

/-- An `EBML` element of size 0, the encoding of a master without children. -/
def emptyRootBytes : Bytes := [0x1a, 0x45, 0xdf, 0xa3, 0x80]

/-- The header of the element of `emptyRootBytes`. -/
def emptyRootHeader : TagObj :=
  { tag := 0x0a45dfa3, tagStr := [0x1a, 0x45, 0xdf, 0xa3], type := .master, name := "EBML",
    start := 0, «end» := 5, dataSize := some 0 }

/-- The events of the second pipeline test: a `Cluster` with `end = -1` that is
started and ended. -/
def clusterChunks : List Chunk :=
  [("start", { name := "Cluster", data := none, «end» := some (-1) }),
   ("end", { name := "Cluster", data := none, «end» := some (-1) })]

/-- The encoding of the element of `clusterChunks`, which the test of
`end === -1` expects the decoder to be given. -/
def clusterBytes : Bytes :=
  [0x1f, 0x43, 0xb6, 0x75, 0x01, 0xff, 0xff, 0xff, 0xff, 0xff, 0xff, 0xff]

/-- The leaves of `sampleTree`. -/
def sampleLeaves : List (String × Bytes) := [("EBMLVersion", [0x00])]

/-! ## Reserved patterns of the vint codec -/

namespace Tools

/-- The vint of `L` bytes whose value bits are all 1: the marker bit and the
bits below it in the first byte, then `L - 1` bytes `0xFF`. -/
def allOnes (L : Nat) : Bytes := (2 ^ (9 - L) - 1) :: List.replicate (L - 1) 0xff

end Tools

/-! ## What a throwing call leaves behind -/

namespace EbmlEncoder

/-- A call of a method of the encoder together with what it leaves behind when
it throws: the encoder afterwards, the chunks pushed downstream and the
exception, if one was thrown. -/
structure Outcome where
  encoder : EbmlEncoder
  pushed : List Bytes
  thrown : Option EncodeError
  deriving DecidableEq, Repr

/-- The result of a call, the fields of the encoder at a throw forgotten. -/
def Outcome.result (o : Outcome) : Result :=
  match o.thrown with
  | some e => .error e
  | none => .ok (o.encoder, o.pushed)

/-- The method `writeTag`, statement by statement, with the encoder as it is
when an exception leaves the method. -/
def writeTagOutcome (schema : Schema) (s : EbmlEncoder) (tagName : String)
    (tagData : Option Bytes) : Outcome :=
  match getSchemaInfo schema tagName with
  | none => { encoder := s, pushed := [], thrown := some (.noSchemaEntry tagName) }
  | some tagId =>
    match tagData with
    | none => { encoder := s, pushed := [], thrown := none }
    | some payload =>
      match encodeTag tagId payload none with
      | .error e => { encoder := s, pushed := [], thrown := some e }
      | .ok data =>
        match s.mStack with
        | top :: rest =>
          { encoder := { s with
              mStack := { top with children := top.children ++ [Child.data data] } :: rest }
            pushed := []
            thrown := none }
        | [] =>
          { encoder := (bufferAndFlush s (Buffers.buffer data)).1
            pushed := (bufferAndFlush s (Buffers.buffer data)).2
            thrown := none }

/-- The method `startTag`, statement by statement, with the encoder as it is
when an exception leaves the method. -/
def startTagOutcome (schema : Schema) (s : EbmlEncoder) (tagName : String)
    («end» : Option Int) : Outcome :=
  match getSchemaInfo schema tagName with
  | none => { encoder := s, pushed := [], thrown := some (.noSchemaEntry tagName) }
  | some tagId =>
    let tag : OpenTag :=
      { ref := s.nextRef, id := tagId, name := tagName, «end» := «end», children := [] }
    match s.mStack with
    | top :: rest =>
      { encoder := { s with
          nextRef := s.nextRef + 1
          mStack := tag :: { top with children := top.children ++ [Child.tag tag.ref] } :: rest }
        pushed := []
        thrown := none }
    | [] =>
      { encoder := { s with nextRef := s.nextRef + 1, mStack := [tag] }
        pushed := []
        thrown := none }

/-- The pending buffer after the chunks `outs` were added to it one by one. -/
def pendingAfter (pending : Option Bytes) (outs : List Bytes) : Option Bytes :=
  outs.foldl (fun acc w => some (match acc with
    | some buffer => Tools.concatenate buffer w
    | none => w)) pending

end EbmlEncoder

/-! ## A block without track number -/

/-- A schema with one row: `SimpleBlock`, a binary element. -/
def blockSchema : Schema := [([0xa3], { type := .binary, name := "SimpleBlock" })]

/-- A `SimpleBlock` element of size 1 whose payload is the byte `00`, which
starts no vint. -/
def badBlockBytes : Bytes := [0xa3, 0x81, 0x00]

/-- The decoder on `badBlockBytes` when the payload is about to be read. -/
def beforeBadBlock : EbmlDecoder :=
  { mBuffer := some badBlockBytes
    mTagStack := [{ tag := 0x23, tagStr := [0xa3], type := .binary, name := "SimpleBlock",
                    start := 0, «end» := 3, dataSize := some 1 }]
    mState := .content, mCursor := 2, mTotal := 2 }

/-! ## Invariants of a delivery -/

namespace EbmlDecoder

/-- What the calls of one delivery keep of a number `t0` that `total` had
reached: `total` stays at or above it, and so does `total + dataSize` while a
payload is awaited. -/
def AtLeast (t0 : Int) (d : EbmlDecoder) : Prop :=
  t0 ≤ d.mTotal ∧
  (d.mState = .content → ∀ h rest ds, d.mTagStack = h :: rest → h.dataSize = some ds →
    t0 ≤ d.mTotal + ds)

end EbmlDecoder

/-! ## The nesting of the events -/

namespace EbmlDecoder

/-- The headers that are open after the events `es`, the most recently started
first, when those of `stack` were open before: a `start` event opens its
header, an `end` event closes the header on top, which has to be its own, and
a `tag` event opens and closes nothing.  `none` when an `end` event does not
find its header on top. -/
def openAfter : List Event → List TagObj → Option (List TagObj)
  | [], stack => some stack
  | .start h :: es, stack => openAfter es (h :: stack)
  | .tag _ :: es, stack => openAfter es stack
  | .«end» _ :: _, [] => none
  | .«end» h :: es, top :: rest => if h = top then openAfter es rest else none

/-- The headers of the stack that have gone through `readContent`: all of
them in the Tag phase, all but the top one while the top one is being read. -/
def started (d : EbmlDecoder) : List TagObj :=
  match d.mState with
  | .tag => d.mTagStack
  | _ => d.mTagStack.tail

/-- Whether the event is a `start` event. -/
def isStart : Event → Bool
  | .start _ => true
  | _ => false

/-- Whether the event is an `end` event. -/
def isEnd : Event → Bool
  | .«end» _ => true
  | _ => false

/-- The events and the stack agree: the headers open after the events are
those of the stack that have gone through `readContent`, in the order of the
stack, and all of them are masters. -/
def Nested (d : EbmlDecoder) (events : List Event) : Prop :=
  openAfter events [] = some (started d) ∧ ∀ h ∈ started d, h.type = .master

/-- Every `end` event comes after the `start` event of its header and after a
`tag` event that lies between the two. -/
def ClosedLate (events : List Event) : Prop :=
  ∀ pre g post, events = pre ++ Event.«end» g :: post →
    ∃ a b t, pre = a ++ Event.start g :: b ∧ Event.tag t ∈ b

end EbmlDecoder

/-! ## A leaf after an empty master -/

/-- The stream `emptyMasterBytes` with its last byte, the payload `00` of
`EBMLVersion`. -/
def emptyMasterStream : Bytes := emptyMasterBytes ++ [0x00]

/-- The events of `emptyMasterStream`: the `end` event of the empty `Cluster`
comes after the `tag` event of the `EBMLVersion` that follows it. -/
def emptyMasterEvents : List Event :=
  [Event.start outerHeader, Event.start emptyClusterHeader,
   Event.tag { tagObj := lateVersionHeader, data := [0x00], value := .unsigned 0 },
   Event.«end» emptyClusterHeader, Event.«end» outerHeader]

/-- The decoder after `emptyMasterStream`. -/
def afterLateLeaf : EbmlDecoder :=
  { mBuffer := some [], mTagStack := [], mState := .tag, mCursor := 0, mTotal := 14 }

/-! ## Sample states of the encoder and a leaf of unknown size -/

/-- The encoder after the `start` event of `EBML`: one open tag. -/
def ebmlOpen : EbmlEncoder :=
  { EbmlEncoder.fresh with
    mStack := [{ ref := 0, id := [0x1a, 0x45, 0xdf, 0xa3], name := "EBML", «end» := none,
                 children := [] }]
    nextRef := 1 }

/-- An `EBMLVersion` element, a leaf, whose size field is the vint of the
unknown size. -/
def unknownLeafBytes : Bytes :=
  [0x42, 0x86, 0x01, 0xff, 0xff, 0xff, 0xff, 0xff, 0xff, 0xff]

/-- The decoder on `unknownLeafBytes` after `readTag` and `readSize`: the ten
bytes are read and `total` is 10. -/
def beforeUnknownLeaf : EbmlDecoder :=
  { mBuffer := some unknownLeafBytes
    mTagStack := [{ tag := 0x0286, tagStr := [0x42, 0x86], type := .unsigned,
                    name := "EBMLVersion", start := 0, «end» := -1, dataSize := some (-1) }]
    mState := .content, mCursor := 10, mTotal := 10 }

/-! ## The vint codec -/

namespace Tools

theorem lor_marker (a k : Nat) (h : a < 2 ^ k) : a ||| 1 <<< k = a + 2 ^ k := by
  rw [Nat.one_shiftLeft, Nat.lor_comm, Nat.add_comm]
  have := Nat.mul_add_lt_is_or h 1
  simpa using this.symm

theorem vintLength_marker (k b : Nat) (hk : k ≤ 7) (h : b < 2 ^ k) :
    vintLength (b + 2 ^ k) = 8 - k := by
  have hk8 : k = 0 ∨ k = 1 ∨ k = 2 ∨ k = 3 ∨ k = 4 ∨ k = 5 ∨ k = 6 ∨ k = 7 := by omega
  unfold vintLength
  rcases hk8 with rfl | rfl | rfl | rfl | rfl | rfl | rfl | rfl <;>
    norm_num at h ⊢ <;> (try split_ifs) <;> omega

theorem vintLength_pos (b : Nat) : 1 ≤ vintLength b := by
  unfold vintLength
  split_ifs <;> omega

theorem readVint_cons (b0 : Nat) (rest : Bytes) (L : Nat) (hL : vintLength b0 = L)
    (h8 : L ≤ 8) (hlen : L ≤ rest.length + 1) :
    readVint (b0 :: rest) 0 =
      if L = 8 ∧ 2 ^ 53 < beValue ((b0 % 2 ^ (8 - L)) :: rest.take (L - 1))
      then .ok (some ⟨-1, L⟩)
      else .ok (some ⟨(beValue ((b0 % 2 ^ (8 - L)) :: rest.take (L - 1)) : Int), L⟩) := by
  unfold readVint
  simp only [List.get?_cons_zero, hL, List.length_cons, Nat.zero_add, List.drop_succ_cons,
    List.drop_zero]
  rw [if_neg (by omega), if_neg (by omega)]

theorem toBytesBE_1 (v : Nat) : toBytesBE 1 v = [v % 256] := by
  simp [toBytesBE]

theorem toBytesBE_2 (v : Nat) : toBytesBE 2 v = [v / 256 % 256, v % 256] := by
  simp [toBytesBE]

theorem toBytesBE_3 (v : Nat) :
    toBytesBE 3 v = [v / 65536 % 256, v / 256 % 256, v % 256] := by
  simp [toBytesBE]

theorem toBytesBE_4 (v : Nat) :
    toBytesBE 4 v = [v / 16777216 % 256, v / 65536 % 256, v / 256 % 256, v % 256] := by
  simp [toBytesBE]

theorem toBytesBE_5 (v : Nat) :
    toBytesBE 5 v = [v / 4294967296 % 256, v / 16777216 % 256, v / 65536 % 256,
      v / 256 % 256, v % 256] := by
  simp [toBytesBE]

theorem toBytesBE_6 (v : Nat) :
    toBytesBE 6 v = [v / 1099511627776 % 256, v / 4294967296 % 256, v / 16777216 % 256,
      v / 65536 % 256, v / 256 % 256, v % 256] := by
  simp [toBytesBE]

theorem toBytesBE_7 (v : Nat) :
    toBytesBE 7 v = [v / 281474976710656 % 256, v / 1099511627776 % 256,
      v / 4294967296 % 256, v / 16777216 % 256, v / 65536 % 256, v / 256 % 256,
      v % 256] := by
  simp [toBytesBE]

theorem toBytesBE_8 (v : Nat) :
    toBytesBE 8 v = [v / 72057594037927936 % 256, v / 281474976710656 % 256,
      v / 1099511627776 % 256, v / 4294967296 % 256, v / 16777216 % 256,
      v / 65536 % 256, v / 256 % 256, v % 256] := by
  simp [toBytesBE]

/-- The bytes `writeVint` produces for a value it accepts, and what `readVint`
makes of them. -/
theorem writeVint_readVint (v : Nat) (hv : v ≤ 2 ^ 53) :
    ∃ bs, writeVint v = .ok bs ∧ bs.length = writeLength v ∧
      readVint bs 0 = .ok (some ⟨v, bs.length⟩) := by
  have h0 : ¬ ((v : Int) < 0 ∨ (2 : Int) ^ 53 < v) := by
    push_cast
    omega
  unfold writeVint
  rw [if_neg h0]
  simp only [Int.toNat_ofNat]
  unfold writeLength
  split_ifs with h1 h2 h3 h4 h5 h6 h7
  · rw [toBytesBE_1]
    refine ⟨_, rfl, rfl, ?_⟩
    have hb : v % 256 < 2 ^ 7 := by norm_num; omega
    rw [lor_marker _ 7 hb, readVint_cons _ _ 1 (vintLength_marker 7 _ (by omega) hb)
      (by omega) (by simp)]
    simp [beValue]
    omega
  · rw [toBytesBE_2]
    refine ⟨_, rfl, rfl, ?_⟩
    have hb : v / 256 % 256 < 2 ^ 6 := by norm_num; omega
    rw [lor_marker _ 6 hb, readVint_cons _ _ 2 (vintLength_marker 6 _ (by omega) hb)
      (by omega) (by simp)]
    simp [beValue]
    omega
  · rw [toBytesBE_3]
    refine ⟨_, rfl, rfl, ?_⟩
    have hb : v / 65536 % 256 < 2 ^ 5 := by norm_num; omega
    rw [lor_marker _ 5 hb, readVint_cons _ _ 3 (vintLength_marker 5 _ (by omega) hb)
      (by omega) (by simp)]
    simp [beValue]
    omega
  · rw [toBytesBE_4]
    refine ⟨_, rfl, rfl, ?_⟩
    have hb : v / 16777216 % 256 < 2 ^ 4 := by norm_num; omega
    rw [lor_marker _ 4 hb, readVint_cons _ _ 4 (vintLength_marker 4 _ (by omega) hb)
      (by omega) (by simp)]
    simp [beValue]
    omega
  · rw [toBytesBE_5]
    refine ⟨_, rfl, rfl, ?_⟩
    have hb : v / 4294967296 % 256 < 2 ^ 3 := by norm_num; omega
    rw [lor_marker _ 3 hb, readVint_cons _ _ 5 (vintLength_marker 3 _ (by omega) hb)
      (by omega) (by simp)]
    simp [beValue]
    omega
  · rw [toBytesBE_6]
    refine ⟨_, rfl, rfl, ?_⟩
    have hb : v / 1099511627776 % 256 < 2 ^ 2 := by norm_num; omega
    rw [lor_marker _ 2 hb, readVint_cons _ _ 6 (vintLength_marker 2 _ (by omega) hb)
      (by omega) (by simp)]
    simp [beValue]
    omega
  · rw [toBytesBE_7]
    refine ⟨_, rfl, rfl, ?_⟩
    have hb : v / 281474976710656 % 256 < 2 ^ 1 := by norm_num; omega
    rw [lor_marker _ 1 hb, readVint_cons _ _ 7 (vintLength_marker 1 _ (by omega) hb)
      (by omega) (by simp)]
    simp [beValue]
    omega
  · rw [toBytesBE_8]
    refine ⟨_, rfl, rfl, ?_⟩
    have hb : v / 72057594037927936 % 256 < 2 ^ 0 := by norm_num; omega
    rw [lor_marker _ 0 hb, readVint_cons _ _ 8 (vintLength_marker 0 _ (by omega) hb)
      (by omega) (by simp)]
    have hval : beValue ((v / 72057594037927936 % 256 + 2 ^ 0) % 2 ^ (8 - 8) ::
        List.take (8 - 1) [v / 281474976710656 % 256, v / 1099511627776 % 256,
          v / 4294967296 % 256, v / 16777216 % 256, v / 65536 % 256, v / 256 % 256,
          v % 256]) = v := by
      simp [beValue]
      omega
    rw [hval, if_neg (by omega)]
    rfl

end Tools
/-! ## Claims on single calls and concrete runs -/

/-- C3: for every value `v` that `writeVint` accepts, with `bs` the bytes it
produces, `readVint(bs, 0)` returns the value `v` and as length the number of
bytes of `bs`. -/
theorem vint_round_trip (v : Int) (bs : Bytes) (h : Tools.writeVint v = .ok bs) :
    Tools.readVint bs 0 = .ok (some ⟨v, bs.length⟩) := by
  have hr : 0 ≤ v ∧ v ≤ 2 ^ 53 := by
    by_contra hc
    have : v < 0 ∨ 2 ^ 53 < v := by omega
    unfold Tools.writeVint at h
    rw [if_pos this] at h
    cases h
  obtain ⟨n, rfl⟩ := Int.eq_ofNat_of_zero_le hr.1
  obtain ⟨bs1, h1, _, h3⟩ := Tools.writeVint_readVint n (by exact_mod_cast hr.2)
  rw [h1] at h
  cases h
  exact h3

/-- C3 at the largest accepted value, `2^53`. -/
theorem vint_round_trip_witness :
    Tools.writeVint (2 ^ 53) = .ok [1, 32, 0, 0, 0, 0, 0, 0] ∧
    Tools.readVint [1, 32, 0, 0, 0, 0, 0, 0] 0 = .ok (some ⟨2 ^ 53, 8⟩) :=
  ⟨by rfl, vint_round_trip (2 ^ 53) [1, 32, 0, 0, 0, 0, 0, 0] (by rfl)⟩

/-- C5: on `unknownSizeBytes` the decoder pushes `start` for the element of
unknown size, `tag` for the leaf, and then an `end` event for the header
whose `end` is `-1`, which it also pops: the stack is empty afterwards. -/
theorem unknown_end_closed_after_leaf :
    EbmlDecoder.feed sampleSchema EbmlDecoder.fresh [unknownSizeBytes] =
      .ok ({ mBuffer := some [], mTagStack := [], mState := .tag, mCursor := 0, mTotal := 16 },
        [Event.start unknownSizeHeader,
         Event.tag { tagObj := versionHeader, data := [0], value := .unsigned 0 },
         Event.«end» unknownSizeHeader]) := by
  rfl

/-- C6: `readContent` on `beforeLeaf`, where the header below the leaf has the
unknown `end = -1`: after the `tag` event it pushes an `end` event for that
header and pops it. -/
theorem readContent_closes_unknown_end :
    EbmlDecoder.readContent beforeLeaf =
      .ok (true,
        { mBuffer := some [], mTagStack := [], mState := .tag, mCursor := 0, mTotal := 16 },
        [Event.tag { tagObj := versionHeader, data := [0], value := .unsigned 0 },
         Event.«end» unknownSizeHeader]) := by
  rfl

/-- C7: with a schema that maps `1a45dfa3` to a master and `4286` to an
unsigned integer, the bytes `1A 45 DF A3 84 42 86 81 00` delivered to a fresh
decoder give exactly `start` (start 0, end 9), `tag` (start 5, end 9,
dataSize 1, value 0) and `end`; then `total = 9` and the stack is empty. -/
theorem decode_sample (schema : Schema) (n1 n2 : String)
    (h1 : schema.lookup [0x1a, 0x45, 0xdf, 0xa3] = some { type := .master, name := n1 })
    (h2 : schema.lookup [0x42, 0x86] = some { type := .unsigned, name := n2 })
    (hs : n2 ≠ "SimpleBlock") (hb : n2 ≠ "Block") :
    EbmlDecoder.feed schema EbmlDecoder.fresh [sampleBytes] =
      .ok ({ mBuffer := some [], mTagStack := [], mState := .tag, mCursor := 0, mTotal := 9 },
        [Event.start { tag := 0x0a45dfa3, tagStr := [0x1a, 0x45, 0xdf, 0xa3], type := .master,
                       name := n1, start := 0, «end» := 9, dataSize := some 4 },
         Event.tag { tagObj := { tag := 0x0286, tagStr := [0x42, 0x86], type := .unsigned,
                                 name := n2, start := 5, «end» := 9, dataSize := some 1 },
                     data := [0], value := .unsigned 0 },
         Event.«end» { tag := 0x0a45dfa3, tagStr := [0x1a, 0x45, 0xdf, 0xa3], type := .master,
                       name := n1, start := 0, «end» := 9, dataSize := some 4 }]) := by
  simp [EbmlDecoder.feed, EbmlDecoder._transform, EbmlDecoder.append, EbmlDecoder.pending,
    EbmlDecoder.fresh, sampleBytes, EbmlDecoder.loop, EbmlDecoder.body, EbmlDecoder.guarded,
    EbmlDecoder.readTag, EbmlDecoder.readSize, EbmlDecoder.readContent, Tools.readVint,
    Tools.vintLength, Tools.beValue, Tools.readHexString, EbmlDecoder.getSchemaInfo, h1, h2,
    Tools.readDataFromTag, hs, hb, subarray, clampIndex, EbmlDecoder.closeEnded]

/-- C7 on the sample schema. -/
theorem decode_sample_witness :
    EbmlDecoder.feed sampleSchema EbmlDecoder.fresh [sampleBytes] =
      .ok ({ mBuffer := some [], mTagStack := [], mState := .tag, mCursor := 0, mTotal := 9 },
        [Event.start { tag := 0x0a45dfa3, tagStr := [0x1a, 0x45, 0xdf, 0xa3], type := .master,
                       name := "EBML", start := 0, «end» := 9, dataSize := some 4 },
         Event.tag { tagObj := { tag := 0x0286, tagStr := [0x42, 0x86], type := .unsigned,
                                 name := "EBMLVersion", start := 5, «end» := 9,
                                 dataSize := some 1 },
                     data := [0], value := .unsigned 0 },
         Event.«end» { tag := 0x0a45dfa3, tagStr := [0x1a, 0x45, 0xdf, 0xa3], type := .master,
                       name := "EBML", start := 0, «end» := 9, dataSize := some 4 }]) :=
  decode_sample sampleSchema "EBML" "EBMLVersion" (by rfl) (by rfl) (by decide) (by decide)
/-! ## The vint reader on a growing buffer -/

namespace Tools

theorem vintLength_le (b : Nat) : vintLength b ≤ 9 := by
  unfold vintLength
  split_ifs <;> omega

theorem readVint_bounds {buffer : Bytes} {start : Nat} {v : Vint}
    (h : readVint buffer start = .ok (some v)) :
    1 ≤ v.length ∧ v.length ≤ 8 ∧ start + v.length ≤ buffer.length ∧ -1 ≤ v.value := by
  unfold readVint at h
  split at h
  · cases h
  · rename_i b0 hb
    have hp := vintLength_pos b0
    simp only at h
    by_cases h1 : 8 < vintLength b0
    · rw [if_pos h1] at h
      cases h
    · rw [if_neg h1] at h
      by_cases h2 : buffer.length < start + vintLength b0
      · rw [if_pos h2] at h
        cases h
      · rw [if_neg h2] at h
        split_ifs at h
        · cases h
          dsimp only
          exact ⟨hp, by omega, by omega, by omega⟩
        · cases h
          dsimp only
          refine ⟨hp, by omega, by omega, ?_⟩
          have := Int.ofNat_nonneg (beValue (b0 % 2 ^ (8 - vintLength b0) ::
            List.take (vintLength b0 - 1) (List.drop (start + 1) buffer)))
          simp only [Int.ofNat_eq_coe] at this
          omega

theorem readVint_error {buffer : Bytes} {start : Nat} {e : DecodeError}
    (h : readVint buffer start = .error e) : e = .unrepresentableLength := by
  unfold readVint at h
  split at h
  · cases h
  · simp only at h
    split_ifs at h
    cases h
    rfl

theorem take_drop_append (buffer x : Bytes) (start n : Nat) (h : start + n ≤ buffer.length) :
    ((buffer ++ x).drop start).take n = (buffer.drop start).take n := by
  rw [List.drop_append_of_le_length (by omega), List.take_append_of_le_length]
  rw [List.length_drop]
  omega

theorem readVint_append {buffer : Bytes} {start : Nat} {v : Vint} (x : Bytes)
    (h : readVint buffer start = .ok (some v)) :
    readVint (buffer ++ x) start = .ok (some v) := by
  have hb := readVint_bounds h
  unfold readVint at h ⊢
  have hlt : start < buffer.length := by omega
  have hget : (buffer ++ x).get? start = buffer.get? start := by
    simp [List.getElem?_append_left hlt]
  rw [hget]
  split at h
  · cases h
  · rename_i b0 hb0
    simp only at h ⊢
    have hlen : vintLength b0 = v.length := by
      split_ifs at h <;> cases h <;> rfl
    rw [take_drop_append buffer x (start + 1) (vintLength b0 - 1) (by omega)]
    rw [List.length_append]
    split_ifs at h ⊢ <;> first | exact h | omega

theorem readVint_error_append {buffer : Bytes} {start : Nat} {e : DecodeError} (x : Bytes)
    (h : readVint buffer start = .error e) : readVint (buffer ++ x) start = .error e := by
  unfold readVint at h ⊢
  split at h
  · cases h
  · rename_i b0 hb0
    have hlt : start < buffer.length := by
      by_contra hc
      rw [List.get?_eq_none.mpr (by omega)] at hb0
      cases hb0
    have hget : (buffer ++ x).get? start = some b0 := by
      rw [← hb0]
      simp [List.getElem?_append_left hlt]
    rw [hget]
    simp only at h ⊢
    split_ifs at h ⊢
    exact h

theorem readHexString_append (buffer x : Bytes) (start n : Nat)
    (h : start + n ≤ buffer.length) :
    readHexString (buffer ++ x) start (start + n) = readHexString buffer start (start + n) := by
  unfold readHexString
  rw [Nat.add_sub_cancel_left]
  exact take_drop_append buffer x start n h

theorem readHexString_length (buffer : Bytes) (start n : Nat) (h : start + n ≤ buffer.length) :
    (readHexString buffer start (start + n)).length = n := by
  unfold readHexString
  rw [Nat.add_sub_cancel_left, List.length_take, List.length_drop]
  omega

theorem readDataFromTag_error {tagObj : TagObj} {data : Bytes} {e : DecodeError}
    (h : readDataFromTag tagObj data = .error e) : e ≠ .outOfFuel := by
  unfold readDataFromTag at h
  by_cases hb : tagObj.name = "SimpleBlock" ∨ tagObj.name = "Block"
  · rw [if_pos hb] at h
    split at h
    · rename_i e1 he
      cases h
      rw [readVint_error he]
      decide
    · cases h
      decide
    · cases h
  · rw [if_neg hb] at h
    cases ht : tagObj.type <;> rw [ht] at h <;> simp only at h <;>
      (try split_ifs at h) <;> cases h
    decide

end Tools
/-! ## Single calls of the decoder -/

theorem subarray_of_le (buffer : Bytes) (s e : Int) (hs : 0 ≤ s) (he : 0 ≤ e)
    (hsl : s ≤ buffer.length) (hel : e ≤ buffer.length) :
    subarray buffer s e = (buffer.drop s.toNat).take (e.toNat - s.toNat) := by
  unfold subarray clampIndex
  rw [if_neg (by omega), if_neg (by omega), Nat.min_eq_left (by omega),
    Nat.min_eq_left (by omega)]

theorem subarray_data_append (buffer x : Bytes) (s e : Int) (hs : 0 ≤ s) (he : 0 ≤ e)
    (hsl : s ≤ buffer.length) (hel : e ≤ buffer.length) :
    subarray (buffer ++ x) s e = subarray buffer s e := by
  rw [subarray_of_le buffer s e hs he hsl hel,
    subarray_of_le (buffer ++ x) s e hs he (by rw [List.length_append]; push_cast; omega)
      (by rw [List.length_append]; push_cast; omega)]
  by_cases hse : s ≤ e
  · have h1 : s.toNat + (e.toNat - s.toNat) ≤ buffer.length := by omega
    exact Tools.take_drop_append buffer x s.toNat (e.toNat - s.toNat) h1
  · have h0 : e.toNat - s.toNat = 0 := by omega
    rw [h0, List.take_zero, List.take_zero]

theorem subarray_rest (buffer : Bytes) (s : Int) (hs : 0 ≤ s) (hsl : s ≤ buffer.length) :
    subarray buffer s buffer.length = buffer.drop s.toNat := by
  rw [subarray_of_le buffer s buffer.length hs (by omega) hsl (by omega)]
  rw [List.take_of_length_le]
  rw [List.length_drop]
  omega

theorem subarray_rest_append (buffer x : Bytes) (s : Int) (hs : 0 ≤ s)
    (hsl : s ≤ buffer.length) :
    subarray (buffer ++ x) s (buffer ++ x).length = subarray buffer s buffer.length ++ x := by
  rw [subarray_rest buffer s hs hsl,
    subarray_rest (buffer ++ x) s hs (by rw [List.length_append]; push_cast; omega)]
  exact List.drop_append_of_le_length (by omega)

theorem subarray_length_le (buffer : Bytes) (s e : Int) :
    (subarray buffer s e).length ≤ buffer.length := by
  unfold subarray
  rw [List.length_take, List.length_drop]
  omega

namespace EbmlDecoder

theorem pending_extend (d : EbmlDecoder) (x : Bytes) (h : d.mBuffer ≠ none) :
    pending (extend d x) = pending d + x.length := by
  unfold pending extend
  cases hb : d.mBuffer with
  | none => exact absurd hb h
  | some b => simp [Tools.concatenate]

/-- The three outcomes of `readTag`. -/
theorem readTag_cases (schema : Schema) (d : EbmlDecoder) :
    (∃ e, readTag schema d = .error e ∧ e ≠ .outOfFuel ∧
      ∀ x, readTag schema (extend d x) = .error e) ∨
    (readTag schema d = .ok (false, d, [])) ∨
    (∃ buffer tag h, d.mBuffer = some buffer ∧
      Tools.readVint buffer d.mCursor = .ok (some tag) ∧
      h = ({ tag := tag.value
             tagStr := Tools.readHexString buffer d.mCursor (d.mCursor + tag.length)
             type := (getSchemaInfo schema
               (Tools.readHexString buffer d.mCursor (d.mCursor + tag.length))).type
             name := (getSchemaInfo schema
               (Tools.readHexString buffer d.mCursor (d.mCursor + tag.length))).name
             start := d.mTotal
             «end» := d.mTotal + tag.length
             dataSize := none } : TagObj) ∧
      readTag schema d = .ok (true,
        { d with
          mCursor := d.mCursor + tag.length
          mTotal := d.mTotal + tag.length
          mState := .size
          mTagStack := h :: d.mTagStack }, []) ∧
      ∀ x, readTag schema (extend d x) = .ok (true,
        { (extend d x) with
          mCursor := d.mCursor + tag.length
          mTotal := d.mTotal + tag.length
          mState := .size
          mTagStack := h :: d.mTagStack }, [])) := by
  unfold readTag
  cases hb : d.mBuffer with
  | none =>
    left
    refine ⟨.typeError, rfl, by decide, ?_⟩
    intro x
    simp [extend, hb]
  | some buffer =>
    simp only
    by_cases hc : buffer.length ≤ d.mCursor
    · right; left
      rw [if_pos hc]
    · rw [if_neg hc]
      cases hv : Tools.readVint buffer d.mCursor with
      | error e =>
        left
        refine ⟨e, rfl, ?_, ?_⟩
        · rw [Tools.readVint_error hv]
          decide
        · intro x
          simp only [extend, hb, Option.map_some', Tools.concatenate, List.length_append]
          rw [if_neg (by omega), Tools.readVint_error_append x hv]
      | ok o =>
        cases o with
        | none => right; left; rfl
        | some tag =>
          right; right
          refine ⟨buffer, tag, _, rfl, hv, rfl, ?_, ?_⟩
          · simp only [hv]
          intro x
          have hbd := Tools.readVint_bounds hv
          simp only [extend, hb, Option.map_some', Tools.concatenate, List.length_append]
          rw [if_neg (by omega), Tools.readVint_append x hv]
          simp only
          rw [Tools.readHexString_append buffer x d.mCursor tag.length hbd.2.2.1]

end EbmlDecoder
namespace EbmlDecoder

/-- The header `readSize` leaves on the stack for the vint `size`. -/
theorem readSize_cases (d : EbmlDecoder) :
    (∃ e, readSize d = .error e ∧ e ≠ .outOfFuel ∧ ∀ x, readSize (extend d x) = .error e) ∨
    (readSize d = .ok (false, d, [])) ∨
    (∃ buffer size h rest, d.mBuffer = some buffer ∧ d.mTagStack = h :: rest ∧
      Tools.readVint buffer d.mCursor = .ok (some size) ∧
      readSize d = .ok (true,
        { d with
          mCursor := d.mCursor + size.length
          mTotal := d.mTotal + size.length
          mState := .content
          mTagStack := { h with
            dataSize := some size.value
            «end» := if size.value = -1 then -1
                     else h.«end» + (size.value + size.length) } :: rest }, []) ∧
      ∀ x, readSize (extend d x) = .ok (true,
        { (extend d x) with
          mCursor := d.mCursor + size.length
          mTotal := d.mTotal + size.length
          mState := .content
          mTagStack := { h with
            dataSize := some size.value
            «end» := if size.value = -1 then -1
                     else h.«end» + (size.value + size.length) } :: rest }, [])) := by
  unfold readSize
  cases hs : d.mTagStack with
  | nil =>
    left
    refine ⟨.typeError, rfl, by decide, ?_⟩
    intro x
    simp [extend, hs]
  | cons h rest =>
    cases hb : d.mBuffer with
    | none =>
      left
      refine ⟨.typeError, rfl, by decide, ?_⟩
      intro x
      simp [extend, hb, hs]
    | some buffer =>
      simp only
      by_cases hc : buffer.length ≤ d.mCursor
      · right; left
        rw [if_pos hc]
      · rw [if_neg hc]
        cases hv : Tools.readVint buffer d.mCursor with
        | error e =>
          left
          refine ⟨e, rfl, ?_, ?_⟩
          · rw [Tools.readVint_error hv]
            decide
          · intro x
            simp only [extend, hb, hs, Option.map_some', Tools.concatenate, List.length_append]
            rw [if_neg (by omega), Tools.readVint_error_append x hv]
        | ok o =>
          cases o with
          | none => right; left; rfl
          | some size =>
            right; right
            refine ⟨buffer, size, h, rest, rfl, rfl, hv, ?_, ?_⟩
            · simp only [hv]
            · intro x
              simp only [extend, hb, hs, Option.map_some', Tools.concatenate,
                List.length_append]
              rw [if_neg (by omega), Tools.readVint_append x hv]

/-- The outcomes of `readContent`. -/
theorem readContent_cases (d : EbmlDecoder) :
    (∃ e, readContent d = .error e ∧ e ≠ .outOfFuel ∧
      (Inv d → d.mState = .content → ∀ x, readContent (extend d x) = .error e)) ∨
    (readContent d = .ok (false, d, []) ∧ d.mTagStack ≠ [] ∧
      ∃ h rest ds, d.mTagStack = h :: rest ∧ h.dataSize = some ds ∧
        (pending d : Int) < d.mCursor + ds) ∨
    (∃ h rest, d.mTagStack = h :: rest ∧ h.type = .master ∧
      readContent d = .ok (true, { d with mState := .tag }, [Event.start h]) ∧
      ∀ x, readContent (extend d x) =
        .ok (true, { (extend d x) with mState := .tag }, [Event.start h])) ∨
    (∃ h rest buffer ds t, d.mTagStack = h :: rest ∧ h.type ≠ .master ∧
      d.mBuffer = some buffer ∧ h.dataSize = some ds ∧
      ¬ ((buffer.length : Int) < d.mCursor + ds) ∧
      Tools.readDataFromTag h (subarray buffer d.mCursor (d.mCursor + ds)) = .ok t ∧
      readContent d = .ok (true,
        { mBuffer := some (subarray buffer (d.mCursor + ds) buffer.length)
          mCursor := 0
          mTotal := d.mTotal + ds
          mState := .tag
          mTagStack := (closeEnded (d.mTotal + ds) rest).2 },
        Event.tag t :: (closeEnded (d.mTotal + ds) rest).1) ∧
      (Inv d → d.mState = .content → ∀ x, readContent (extend d x) = .ok (true,
        { mBuffer := some (subarray buffer (d.mCursor + ds) buffer.length ++ x)
          mCursor := 0
          mTotal := d.mTotal + ds
          mState := .tag
          mTagStack := (closeEnded (d.mTotal + ds) rest).2 },
        Event.tag t :: (closeEnded (d.mTotal + ds) rest).1))) := by
  unfold readContent
  cases hs : d.mTagStack with
  | nil =>
    left
    refine ⟨.typeError, rfl, by decide, ?_⟩
    intro _ _ x
    simp [extend, hs]
  | cons h rest =>
    simp only
    by_cases hm : h.type = .master
    · right; right; left
      refine ⟨h, rest, rfl, hm, ?_, ?_⟩
      · rw [if_pos hm]
      · intro x
        simp only [extend, hs]
        rw [if_pos hm]
    · rw [if_neg hm]
      cases hb : d.mBuffer with
      | none =>
        left
        refine ⟨.typeError, rfl, by decide, ?_⟩
        intro _ _ x
        simp only [extend, hb, hs, Option.map_none']
        rw [if_neg hm]
      | some buffer =>
        cases hd : h.dataSize with
        | none =>
          left
          refine ⟨.notANumber, rfl, by decide, ?_⟩
          intro _ _ x
          simp only [extend, hb, hs, Option.map_some']
          rw [if_neg hm]
          simp only [hd]
        | some ds =>
          simp only
          by_cases hw : (buffer.length : Int) < d.mCursor + ds
          · right; left
            rw [if_pos hw]
            refine ⟨rfl, by simp, h, rest, ds, rfl, hd, ?_⟩
            simpa [pending, hb] using hw
          · rw [if_neg hw]
            have hext : Inv d → d.mState = .content → ∀ x : Bytes,
                subarray (buffer ++ x) d.mCursor (d.mCursor + ds) =
                  subarray buffer d.mCursor (d.mCursor + ds) ∧
                subarray (buffer ++ x) (d.mCursor + ds) (buffer ++ x).length =
                  subarray buffer (d.mCursor + ds) buffer.length ++ x ∧
                ¬ (((buffer ++ x).length : Int) < d.mCursor + ds) := by
              intro hi hst x
              have h0 : 0 ≤ (d.mCursor : Int) + ds := hi.2.2 hst h rest ds hs hd
              have hcl : d.mCursor ≤ buffer.length := by
                have := hi.1
                simpa [pending, hb] using this
              refine ⟨?_, ?_, ?_⟩
              · exact subarray_data_append buffer x _ _ (by omega) h0 (by omega) (by omega)
              · exact subarray_rest_append buffer x _ h0 (by omega)
              · rw [List.length_append]
                push_cast
                omega
            cases ht : Tools.readDataFromTag h (subarray buffer d.mCursor (d.mCursor + ds)) with
            | error e =>
              left
              refine ⟨e, rfl, Tools.readDataFromTag_error ht, ?_⟩
              intro hi hst x
              obtain ⟨h1, _, h3⟩ := hext hi hst x
              simp only [extend, hb, hs, Option.map_some', Tools.concatenate]
              rw [if_neg hm]
              simp only [hd]
              rw [if_neg h3, h1, ht]
            | ok t =>
              right; right; right
              refine ⟨h, rest, buffer, ds, t, rfl, hm, rfl, hd, hw, ht, rfl, ?_⟩
              intro hi hst x
              obtain ⟨h1, h2, h3⟩ := hext hi hst x
              simp only [extend, hb, hs, Option.map_some', Tools.concatenate]
              rw [if_neg hm]
              simp only [hd]
              rw [if_neg h3, h1, ht, h2]

end EbmlDecoder
namespace EbmlDecoder

theorem readTag_false {schema : Schema} {d d1 : EbmlDecoder} {e1 : List Event}
    (h : readTag schema d = .ok (false, d1, e1)) : d1 = d ∧ e1 = [] := by
  rcases readTag_cases schema d with ⟨e, he, _⟩ | hf | ⟨_, _, _, _, _, _, ht, _⟩
  · rw [he] at h; cases h
  · rw [hf] at h; cases h; exact ⟨rfl, rfl⟩
  · rw [ht] at h; cases h

theorem readSize_false {d d1 : EbmlDecoder} {e1 : List Event}
    (h : readSize d = .ok (false, d1, e1)) : d1 = d ∧ e1 = [] := by
  rcases readSize_cases d with ⟨e, he, _⟩ | hf | ⟨_, _, _, _, _, _, _, ht, _⟩
  · rw [he] at h; cases h
  · rw [hf] at h; cases h; exact ⟨rfl, rfl⟩
  · rw [ht] at h; cases h

theorem readContent_false {d d1 : EbmlDecoder} {e1 : List Event}
    (h : readContent d = .ok (false, d1, e1)) : d1 = d ∧ e1 = [] := by
  rcases readContent_cases d with ⟨e, he, _⟩ | ⟨hf, _⟩ | ⟨_, _, _, _, ht, _⟩ |
    ⟨_, _, _, _, _, _, _, _, _, _, _, ht, _⟩
  · rw [he] at h; cases h
  · rw [hf] at h; cases h; exact ⟨rfl, rfl⟩
  · rw [ht] at h; cases h
  · rw [ht] at h; cases h

/-- A call that returns `false` changed nothing and pushed nothing. -/
theorem step_false {schema : Schema} {d d1 : EbmlDecoder} {e1 : List Event}
    (h : step schema d = .ok (false, d1, e1)) : d1 = d ∧ e1 = [] := by
  unfold step at h
  cases hs : d.mState <;> rw [hs] at h
  · exact readTag_false h
  · exact readSize_false h
  · exact readContent_false h

theorem step_error_ne_fuel {schema : Schema} {d : EbmlDecoder} {e : DecodeError}
    (h : step schema d = .error e) : e ≠ .outOfFuel := by
  unfold step at h
  cases hs : d.mState <;> rw [hs] at h
  · rcases readTag_cases schema d with ⟨e1, he, hn, _⟩ | hf | ⟨_, _, _, _, _, _, ht, _⟩
    · rw [he] at h; cases h; exact hn
    · rw [hf] at h; cases h
    · rw [ht] at h; cases h
  · rcases readSize_cases d with ⟨e1, he, hn, _⟩ | hf | ⟨_, _, _, _, _, _, _, ht, _⟩
    · rw [he] at h; cases h; exact hn
    · rw [hf] at h; cases h
    · rw [ht] at h; cases h
  · rcases readContent_cases d with ⟨e1, he, hn, _⟩ | ⟨hf, _⟩ | ⟨_, _, _, _, ht, _⟩ |
      ⟨_, _, _, _, _, _, _, _, _, _, _, ht, _⟩
    · rw [he] at h; cases h; exact hn
    · rw [hf] at h; cases h
    · rw [ht] at h; cases h
    · rw [ht] at h; cases h

theorem extend_state (d : EbmlDecoder) (x : Bytes) : (extend d x).mState = d.mState := rfl

/-- A call that throws still throws when more bytes are pending. -/
theorem step_error_extend {schema : Schema} {d : EbmlDecoder} {e : DecodeError}
    (hi : Inv d) (h : step schema d = .error e) (x : Bytes) :
    step schema (extend d x) = .error e := by
  unfold step at h ⊢
  rw [extend_state]
  cases hs : d.mState <;> rw [hs] at h <;> simp only
  · rcases readTag_cases schema d with ⟨e1, he, _, hx⟩ | hf | ⟨_, _, _, _, _, _, ht, _⟩
    · rw [he] at h; cases h; exact hx x
    · rw [hf] at h; cases h
    · rw [ht] at h; cases h
  · rcases readSize_cases d with ⟨e1, he, _, hx⟩ | hf | ⟨_, _, _, _, _, _, _, ht, _⟩
    · rw [he] at h; cases h; exact hx x
    · rw [hf] at h; cases h
    · rw [ht] at h; cases h
  · rcases readContent_cases d with ⟨e1, he, _, hx⟩ | ⟨hf, _⟩ | ⟨_, _, _, _, ht, _⟩ |
      ⟨_, _, _, _, _, _, _, _, _, _, _, ht, _⟩
    · rw [he] at h; cases h; exact hx hi hs x
    · rw [hf] at h; cases h
    · rw [ht] at h; cases h
    · rw [ht] at h; cases h

/-- A call that returns `true` does the same when more bytes are pending, and
keeps the invariant. -/
theorem step_true_extend {schema : Schema} {d d1 : EbmlDecoder} {e1 : List Event}
    (hi : Inv d) (h : step schema d = .ok (true, d1, e1)) :
    Inv d1 ∧ ∀ x, step schema (extend d x) = .ok (true, extend d1 x, e1) := by
  unfold step at h
  have hst : ∀ x, step schema (extend d x) =
      match d.mState with
      | .tag => readTag schema (extend d x)
      | .size => readSize (extend d x)
      | .content => readContent (extend d x) := fun x => rfl
  cases hs : d.mState <;> rw [hs] at h <;> simp only [hs] at hst
  · rcases readTag_cases schema d with ⟨e, he, _⟩ | hf | ⟨buffer, tag, hd, hb, hv, _, ht, hx⟩
    · rw [he] at h; cases h
    · rw [hf] at h; cases h
    · rw [ht] at h
      cases h
      have hbd := Tools.readVint_bounds hv
      refine ⟨⟨?_, ?_, ?_⟩, ?_⟩
      · simp only [pending, hb]
        omega
      · intro _
        simp
      · intro hc
        cases hc
      · intro x
        rw [hst x, hx x]
        rfl
  · rcases readSize_cases d with ⟨e, he, _⟩ | hf | ⟨buffer, size, hd, rest, hb, hstk, hv, ht, hx⟩
    · rw [he] at h; cases h
    · rw [hf] at h; cases h
    · rw [ht] at h
      cases h
      have hbd := Tools.readVint_bounds hv
      refine ⟨⟨?_, ?_, ?_⟩, ?_⟩
      · simp only [pending, hb]
        omega
      · intro _
        simp
      · intro _ h' rest' ds hcons hds
        simp only [List.cons.injEq] at hcons
        obtain ⟨rfl, _⟩ := hcons
        simp only [Option.some.injEq] at hds
        subst hds
        push_cast
        omega
      · intro x
        rw [hst x, hx x]
        rfl
  · rcases readContent_cases d with ⟨e, he, _⟩ | ⟨hf, _⟩ | ⟨hd, rest, hstk, hm, ht, hx⟩ |
      ⟨hd, rest, buffer, ds, t, hstk, hm, hb, hds, hw, hrd, ht, hx⟩
    · rw [he] at h; cases h
    · rw [hf] at h; cases h
    · rw [ht] at h
      cases h
      refine ⟨⟨hi.1, ?_, ?_⟩, ?_⟩
      · intro hc
        exact absurd rfl hc
      · intro hc
        cases hc
      · intro x
        rw [hst x, hx x]
        rfl
    · rw [ht] at h
      cases h
      refine ⟨⟨?_, ?_, ?_⟩, ?_⟩
      · simp
      · intro hc
        exact absurd rfl hc
      · intro hc
        cases hc
      · intro x
        rw [hst x, hx hi hs x]
        rfl

end EbmlDecoder
namespace EbmlDecoder

theorem prepend_nil (r : Except DecodeError (EbmlDecoder × List Event)) : prepend [] r = r := by
  cases r with
  | error e => rfl
  | ok p => rfl

theorem prepend_append (a b : List Event) (r : Except DecodeError (EbmlDecoder × List Event)) :
    prepend a (prepend b r) = prepend (a ++ b) r := by
  cases r with
  | error e => rfl
  | ok p => simp [prepend, List.append_assoc]

/-- The calls from a state have one result. -/
theorem Runs.unique {schema : Schema} {d : EbmlDecoder}
    {r1 r2 : Except DecodeError (EbmlDecoder × List Event)}
    (h1 : Runs schema d r1) (h2 : Runs schema d r2) : r1 = r2 := by
  induction h1 generalizing r2 with
  | throws hs =>
    cases h2 with
    | throws hs2 => rw [hs] at hs2; cases hs2; rfl
    | waits hs2 => rw [hs] at hs2; cases hs2
    | more hs2 _ => rw [hs] at hs2; cases hs2
  | waits hs =>
    cases h2 with
    | throws hs2 => rw [hs] at hs2; cases hs2
    | waits hs2 => rw [hs] at hs2; cases hs2; rfl
    | more hs2 _ => rw [hs] at hs2; cases hs2
  | more hs _ ih =>
    cases h2 with
    | throws hs2 => rw [hs] at hs2; cases hs2
    | waits hs2 => rw [hs] at hs2; cases hs2
    | more hs2 hr2 =>
      rw [hs] at hs2
      cases hs2
      rw [ih hr2]

/-- Where the calls stop, the invariant holds and the next call waits. -/
theorem Runs.stops_resting {schema : Schema} {d : EbmlDecoder}
    {r : Except DecodeError (EbmlDecoder × List Event)} (h : Runs schema d r) (hi : Inv d) :
    ∀ d1 e1, r = .ok (d1, e1) → Inv d1 ∧ step schema d1 = .ok (false, d1, []) := by
  induction h with
  | throws hs => intro d1 e1 hr; cases hr
  | waits hs =>
    intro d1 e1 hr
    cases hr
    obtain ⟨rfl, rfl⟩ := step_false hs
    exact ⟨hi, hs⟩
  | @more d d2 e2 r hs _ ih =>
    intro d1 e1 hr
    cases r with
    | error e => cases hr
    | ok p =>
      obtain ⟨d3, e3⟩ := p
      simp only [prepend, Except.ok.injEq, Prod.mk.injEq] at hr
      obtain ⟨rfl, _⟩ := hr
      exact ih (step_true_extend hi hs).1 d3 e3 rfl

/-- More pending bytes do not change the calls made so far: what the calls
do on the longer buffer is what they did, followed by what they do from
where they stopped. -/
theorem Runs.extend_ok {schema : Schema} {d : EbmlDecoder}
    {r : Except DecodeError (EbmlDecoder × List Event)} (h : Runs schema d r) (hi : Inv d)
    (x : Bytes) :
    ∀ d1 e1, r = .ok (d1, e1) →
      ∀ r2, Runs schema (extend d1 x) r2 → Runs schema (extend d x) (prepend e1 r2) := by
  induction h with
  | throws hs => intro d1 e1 hr; cases hr
  | waits hs =>
    intro d1 e1 hr r2 h2
    cases hr
    obtain ⟨rfl, rfl⟩ := step_false hs
    rw [prepend_nil]
    exact h2
  | @more d d2 e2 r hs _ ih =>
    intro d1 e1 hr r2 h2
    cases r with
    | error e => cases hr
    | ok p =>
      obtain ⟨d3, e3⟩ := p
      simp only [prepend, Except.ok.injEq, Prod.mk.injEq] at hr
      obtain ⟨rfl, rfl⟩ := hr
      obtain ⟨hi2, hx⟩ := step_true_extend hi hs
      have := ih hi2 d3 e3 rfl r2 h2
      rw [← prepend_append]
      exact Runs.more (hx x) this

/-- Calls that end in an exception end in it on a longer buffer too. -/
theorem Runs.extend_error {schema : Schema} {d : EbmlDecoder}
    {r : Except DecodeError (EbmlDecoder × List Event)} (h : Runs schema d r) (hi : Inv d)
    (x : Bytes) :
    ∀ e, r = .error e → Runs schema (extend d x) (.error e) := by
  induction h with
  | throws hs =>
    intro e hr
    cases hr
    exact Runs.throws (step_error_extend hi hs x)
  | waits hs => intro e hr; cases hr
  | @more d d2 e2 r hs _ ih =>
    intro e hr
    cases r with
    | ok p => cases hr
    | error e3 =>
      simp only [prepend, Except.error.injEq] at hr
      subst hr
      obtain ⟨hi2, hx⟩ := step_true_extend hi hs
      have := Runs.more (hx x) (ih hi2 e3 rfl)
      simpa [prepend] using this

end EbmlDecoder
namespace EbmlDecoder

theorem Steps.runs {schema : Schema} {d d1 : EbmlDecoder} {es : List Event}
    (h : Steps schema d d1 es) {r : Except DecodeError (EbmlDecoder × List Event)}
    (hr : Runs schema d1 r) : Runs schema d (prepend es r) := by
  induction h with
  | done d => rw [prepend_nil]; exact hr
  | next hs _ ih =>
    rw [← prepend_append]
    exact Runs.more hs (ih hr)

theorem Steps.one {schema : Schema} {d d1 : EbmlDecoder} {e1 : List Event}
    (h : step schema d = .ok (true, d1, e1)) : Steps schema d d1 e1 := by
  have := Steps.next h (Steps.done d1)
  simpa using this

theorem Steps.snoc {schema : Schema} {d d1 d2 : EbmlDecoder} {e1 e2 : List Event}
    (h : Steps schema d d1 e1) (hs : step schema d1 = .ok (true, d2, e2)) :
    Steps schema d d2 (e1 ++ e2) := by
  induction h with
  | done d => simpa using Steps.one hs
  | next hs1 _ ih =>
    rw [List.append_assoc]
    exact Steps.next hs1 (ih hs)

theorem readTag_progress {schema : Schema} {d d1 : EbmlDecoder} {e1 : List Event}
    (h : readTag schema d = .ok (true, d1, e1)) :
    d1.mState = .size ∧ pending d1 = pending d ∧ d.mCursor + 1 ≤ d1.mCursor ∧
      d1.mCursor ≤ pending d := by
  rcases readTag_cases schema d with ⟨e, he, _⟩ | hf | ⟨buffer, tag, hd, hb, hv, _, ht, _⟩
  · rw [he] at h; cases h
  · rw [hf] at h; cases h
  · rw [ht] at h
    cases h
    have hbd := Tools.readVint_bounds hv
    refine ⟨rfl, rfl, ?_, ?_⟩
    · simp only
      omega
    · simp only [pending, hb]
      omega

theorem readSize_progress {d d1 : EbmlDecoder} {e1 : List Event}
    (h : readSize d = .ok (true, d1, e1)) :
    d1.mState = .content ∧ pending d1 = pending d ∧ d.mCursor + 1 ≤ d1.mCursor ∧
      d1.mCursor ≤ pending d ∧
      ∃ hd rest ds, d1.mTagStack = hd :: rest ∧ hd.dataSize = some ds ∧ -1 ≤ ds := by
  rcases readSize_cases d with ⟨e, he, _⟩ | hf | ⟨buffer, size, hd, rest, hb, hstk, hv, ht, _⟩
  · rw [he] at h; cases h
  · rw [hf] at h; cases h
  · rw [ht] at h
    cases h
    have hbd := Tools.readVint_bounds hv
    refine ⟨rfl, rfl, ?_, ?_, _, _, _, rfl, rfl, hbd.2.2.2⟩
    · simp only
      omega
    · simp only [pending, hb]
      omega

theorem readContent_progress {d d1 : EbmlDecoder} {e1 : List Event}
    (h : readContent d = .ok (true, d1, e1)) :
    d1.mState = .tag ∧ pending d1 ≤ pending d ∧
      ∀ hd rest ds, d.mTagStack = hd :: rest → hd.dataSize = some ds → -1 ≤ ds →
        1 ≤ d.mCursor → remaining d1 ≤ remaining d + 1 := by
  rcases readContent_cases d with ⟨e, he, _⟩ | ⟨hf, _⟩ | ⟨hd, rest, hstk, hm, ht, hx⟩ |
    ⟨hd, rest, buffer, ds, t, hstk, hm, hb, hds, hw, hrd, ht, hx⟩
  · rw [he] at h; cases h
  · rw [hf] at h; cases h
  · rw [ht] at h
    cases h
    refine ⟨rfl, le_refl _, ?_⟩
    intro _ _ _ _ _ _ _
    simp only [remaining, pending]
    omega
  · rw [ht] at h
    cases h
    refine ⟨rfl, ?_, ?_⟩
    · simp only [pending, hb]
      exact subarray_length_le _ _ _
    · intro hd' rest' ds' hcons hds' hge hc
      rw [hstk] at hcons
      simp only [List.cons.injEq] at hcons
      obtain ⟨rfl, _⟩ := hcons
      rw [hds] at hds'
      cases hds'
      simp only [remaining, pending, hb]
      rw [subarray_rest buffer _ (by omega) (by omega), List.length_drop]
      push_cast
      omega

end EbmlDecoder
namespace EbmlDecoder

theorem body_content {schema : Schema} {s : EbmlDecoder} (hs : s.mState = .content) :
    body schema s = readContent s := by
  unfold body guarded
  simp only [hs, reduceCtorEq, if_true, if_false, List.nil_append]
  cases hr : readContent s with
  | error e => rfl
  | ok p =>
    obtain ⟨b, d3, e3⟩ := p
    rfl

theorem body_size {schema : Schema} {s : EbmlDecoder} (hs : s.mState = .size) :
    body schema s =
      match readSize s with
      | .error e => .error e
      | .ok (false, d2, e2) => .ok (false, d2, e2)
      | .ok (true, d2, e2) =>
        match readContent d2 with
        | .error e => .error e
        | .ok (b, d3, e3) => .ok (b, d3, e2 ++ e3) := by
  unfold body guarded
  simp only [hs, reduceCtorEq, if_true, if_false, List.nil_append]
  cases hr : readSize s with
  | error e => rfl
  | ok p =>
    obtain ⟨b, d2, e2⟩ := p
    cases b with
    | false => rfl
    | true =>
      have h2 := (readSize_progress hr).1
      simp only [h2, if_true]

theorem body_tag {schema : Schema} {s : EbmlDecoder} (hs : s.mState = .tag) :
    body schema s =
      match readTag schema s with
      | .error e => .error e
      | .ok (false, d1, e1) => .ok (false, d1, e1)
      | .ok (true, d1, e1) =>
        match readSize d1 with
        | .error e => .error e
        | .ok (false, d2, e2) => .ok (false, d2, e1 ++ e2)
        | .ok (true, d2, e2) =>
          match readContent d2 with
          | .error e => .error e
          | .ok (b, d3, e3) => .ok (b, d3, e1 ++ e2 ++ e3) := by
  unfold body guarded
  simp only [hs, if_true]
  cases hr : readTag schema s with
  | error e => rfl
  | ok p =>
    obtain ⟨b, d1, e1⟩ := p
    cases b with
    | false => rfl
    | true =>
      have h1 := (readTag_progress hr).1
      simp only [h1, if_true]
      cases hr2 : readSize d1 with
      | error e => rfl
      | ok p2 =>
        obtain ⟨b2, d2, e2⟩ := p2
        cases b2 with
        | false => rfl
        | true =>
          have h2 := (readSize_progress hr2).1
          simp only [h2, if_true]

end EbmlDecoder
namespace EbmlDecoder

theorem step_of_tag {schema : Schema} {s : EbmlDecoder} (hs : s.mState = .tag) :
    step schema s = readTag schema s := by
  unfold step; rw [hs]

theorem step_of_size {schema : Schema} {s : EbmlDecoder} (hs : s.mState = .size) :
    step schema s = readSize s := by
  unfold step; rw [hs]

theorem step_of_content {schema : Schema} {s : EbmlDecoder} (hs : s.mState = .content) :
    step schema s = readContent s := by
  unfold step; rw [hs]

/-- What one pass of the loop body amounts to in calls of `step`. -/
theorem body_sound (schema : Schema) (s : EbmlDecoder) :
    (∀ e, body schema s = .error e →
      e ≠ .outOfFuel ∧ ∃ d es, Steps schema s d es ∧ step schema d = .error e) ∧
    (∀ d1 e1, body schema s = .ok (false, d1, e1) →
      Steps schema s d1 e1 ∧ step schema d1 = .ok (false, d1, [])) ∧
    (∀ d1 e1, body schema s = .ok (true, d1, e1) →
      Steps schema s d1 e1 ∧ d1.mState = .tag ∧ pending d1 ≤ pending s ∧
        (s.mState = .tag → remaining d1 < remaining s)) := by
  have hcontent : ∀ (s0 s : EbmlDecoder) (es : List Event), Steps schema s0 s es →
      s.mState = .content →
      (∀ e, readContent s = .error e →
        e ≠ .outOfFuel ∧ ∃ d es, Steps schema s0 d es ∧ step schema d = .error e) ∧
      (∀ d1 e1, readContent s = .ok (false, d1, e1) →
        Steps schema s0 d1 (es ++ e1) ∧ step schema d1 = .ok (false, d1, [])) ∧
      (∀ d1 e1, readContent s = .ok (true, d1, e1) →
        Steps schema s0 d1 (es ++ e1) ∧ d1.mState = .tag) := by
    intro s0 s es h0 hs
    rw [← @step_of_content schema _ hs]
    refine ⟨?_, ?_, ?_⟩
    · intro e he
      exact ⟨step_error_ne_fuel he, s, es, h0, he⟩
    · intro d1 e1 he
      obtain ⟨rfl, rfl⟩ := step_false he
      rw [List.append_nil]
      exact ⟨h0, he⟩
    · intro d1 e1 he
      refine ⟨h0.snoc he, ?_⟩
      rw [step_of_content hs] at he
      exact (readContent_progress he).1
  have hsize : ∀ (s0 s : EbmlDecoder) (es : List Event), Steps schema s0 s es →
      s.mState = .size →
      ∀ r, r = (match readSize s with
        | .error e => .error e
        | .ok (false, d2, e2) => .ok (false, d2, es ++ e2)
        | .ok (true, d2, e2) =>
          match readContent d2 with
          | .error e => .error e
          | .ok (b, d3, e3) => .ok (b, d3, es ++ e2 ++ e3) : Step) →
      (∀ e, r = .error e →
        e ≠ .outOfFuel ∧ ∃ d es, Steps schema s0 d es ∧ step schema d = .error e) ∧
      (∀ d1 e1, r = .ok (false, d1, e1) →
        Steps schema s0 d1 e1 ∧ step schema d1 = .ok (false, d1, [])) ∧
      (∀ d1 e1, r = .ok (true, d1, e1) → Steps schema s0 d1 e1 ∧ d1.mState = .tag ∧
        pending d1 ≤ pending s ∧ remaining d1 ≤ remaining s) := by
    intro s0 s es h0 hs r hr
    cases hrs : readSize s with
    | error e =>
      rw [hrs] at hr
      simp only at hr
      subst hr
      rw [← @step_of_size schema _ hs] at hrs
      refine ⟨?_, ?_, ?_⟩
      · intro e' he'
        cases he'
        exact ⟨step_error_ne_fuel hrs, s, es, h0, hrs⟩
      · intro _ _ hc; cases hc
      · intro _ _ hc; cases hc
    | ok p =>
      obtain ⟨b, d2, e2⟩ := p
      cases b with
      | false =>
        rw [hrs] at hr
        simp only at hr
        subst hr
        rw [← @step_of_size schema _ hs] at hrs
        obtain ⟨rfl, rfl⟩ := step_false hrs
        refine ⟨?_, ?_, ?_⟩
        · intro _ hc; cases hc
        · intro d1 e1 hc
          cases hc
          rw [List.append_nil]
          exact ⟨h0, hrs⟩
        · intro _ _ hc; cases hc
      | true =>
        rw [hrs] at hr
        simp only at hr
        have hp := readSize_progress hrs
        rw [← @step_of_size schema _ hs] at hrs
        have h2 := h0.snoc hrs
        obtain ⟨hc1, hc2, hc3⟩ := hcontent s0 d2 (es ++ e2) h2 hp.1
        cases hrc : readContent d2 with
        | error e =>
          rw [hrc] at hr
          simp only at hr
          subst hr
          refine ⟨?_, ?_, ?_⟩
          · intro e' he'
            cases he'
            exact hc1 e hrc
          · intro _ _ hc; cases hc
          · intro _ _ hc; cases hc
        | ok p3 =>
          obtain ⟨b3, d3, e3⟩ := p3
          rw [hrc] at hr
          simp only at hr
          subst hr
          refine ⟨?_, ?_, ?_⟩
          · intro _ hc; cases hc
          · intro d1 e1 hc
            cases hc
            exact hc2 d3 e3 hrc
          · intro d1 e1 hc
            cases hc
            obtain ⟨hq1, hq2, hq3⟩ := readContent_progress hrc
            obtain ⟨hd, rest, ds, hk1, hk2, hk3⟩ := hp.2.2.2.2
            have := hq3 hd rest ds hk1 hk2 hk3 (by omega)
            refine ⟨(hc3 d3 e3 hrc).1, hq1, by omega, ?_⟩
            simp only [remaining] at this ⊢
            omega
  cases hs : s.mState with
  | content =>
    rw [body_content hs]
    obtain ⟨hc1, hc2, hc3⟩ := hcontent s s [] (Steps.done s) hs
    refine ⟨hc1, ?_, ?_⟩
    · intro d1 e1 h
      simpa using hc2 d1 e1 h
    · intro d1 e1 h
      obtain ⟨hq1, hq2, _⟩ := readContent_progress h
      refine ⟨by simpa using (hc3 d1 e1 h).1, hq1, hq2, ?_⟩
      intro hc
      cases hc
  | size =>
    obtain ⟨hc1, hc2, hc3⟩ := hsize s s [] (Steps.done s) hs (body schema s)
      (by rw [body_size hs]; simp only [List.nil_append])
    refine ⟨hc1, hc2, ?_⟩
    intro d1 e1 h
    obtain ⟨hq1, hq2, hq3, _⟩ := hc3 d1 e1 h
    refine ⟨hq1, hq2, hq3, ?_⟩
    intro hc
    cases hc
  | tag =>
    rw [body_tag hs]
    cases hrt : readTag schema s with
    | error e =>
      simp only
      rw [← @step_of_tag schema _ hs] at hrt
      refine ⟨?_, ?_, ?_⟩
      · intro e' he'
        cases he'
        exact ⟨step_error_ne_fuel hrt, s, [], Steps.done s, hrt⟩
      · intro _ _ hc; cases hc
      · intro _ _ hc; cases hc
    | ok p =>
      obtain ⟨b, d1, e1⟩ := p
      cases b with
      | false =>
        simp only
        rw [← @step_of_tag schema _ hs] at hrt
        obtain ⟨rfl, rfl⟩ := step_false hrt
        refine ⟨?_, ?_, ?_⟩
        · intro _ hc; cases hc
        · intro d1 e1 hc
          cases hc
          exact ⟨Steps.done _, hrt⟩
        · intro _ _ hc; cases hc
      | true =>
        simp only
        have hp := readTag_progress hrt
        rw [← @step_of_tag schema _ hs] at hrt
        obtain ⟨hc1, hc2, hc3⟩ := hsize s d1 e1 (Steps.one hrt) hp.1 _ rfl
        refine ⟨hc1, hc2, ?_⟩
        intro d3 e3 h
        obtain ⟨hq1, hq2, hq3, hq4⟩ := hc3 d3 e3 h
        refine ⟨hq1, hq2, by omega, ?_⟩
        intro _
        simp only [remaining] at hq4 ⊢
        omega

end EbmlDecoder
namespace EbmlDecoder

/-- The loop never runs out of its budget of passes. -/
theorem loop_fuel (schema : Schema) :
    ∀ (fuel : Nat) (s : EbmlDecoder), 1 ≤ fuel → passBound s < fuel →
      loop schema fuel s ≠ .error .outOfFuel := by
  intro fuel
  induction fuel with
  | zero => intro s h; omega
  | succ n ih =>
    intro s _ hm
    unfold loop
    cases hb : s.mBuffer with
    | none => simp
    | some buffer =>
      simp only
      by_cases hc : s.mCursor < buffer.length
      · rw [if_pos hc]
        obtain ⟨h1, _, h3⟩ := body_sound schema s
        have hpend : pending s = buffer.length := by simp [pending, hb]
        cases hbd : body schema s with
        | error e =>
          simp only
          intro hcon
          cases hcon
          exact (h1 _ hbd).1 rfl
        | ok p =>
          obtain ⟨b, d1, e1⟩ := p
          cases b with
          | false => simp
          | true =>
            simp only
            obtain ⟨_, hq2, hq3, hq4⟩ := h3 d1 e1 hbd
            have hrec : loop schema n d1 ≠ .error .outOfFuel := by
              apply ih
              · unfold passBound at hm
                split_ifs at hm with hst
                · simp only [remaining] at hm
                  omega
                · omega
              · unfold passBound at hm ⊢
                rw [if_pos hq2]
                split_ifs at hm with hst
                · have := hq4 hst
                  omega
                · simp only [remaining]
                  omega
            cases hl : loop schema n d1 with
            | error e =>
              simp only
              intro hcon
              cases hcon
              exact hrec hl
            | ok p2 => simp
      · rw [if_neg hc]
        simp

theorem passBound_lt (d : EbmlDecoder) : passBound d < ((pending d + 2 : Nat) : Int) := by
  unfold passBound remaining
  split_ifs <;> push_cast <;> omega

/-- The method `_transform` never runs out of its budget of passes. -/
theorem transform_fuel (schema : Schema) (d : EbmlDecoder) (chunk : Bytes) :
    _transform schema d chunk ≠ .error .outOfFuel :=
  loop_fuel schema _ _ (by omega) (passBound_lt _)

theorem step_false_buffer {schema : Schema} {d d1 : EbmlDecoder} {e1 : List Event}
    (h : step schema d = .ok (false, d1, e1)) : d.mBuffer ≠ none := by
  intro hb
  unfold step at h
  cases hs : d.mState <;> rw [hs] at h
  · simp [readTag, hb] at h
  · unfold readSize at h
    cases hk : d.mTagStack <;> simp [hk, hb] at h
  · unfold readContent at h
    cases hk : d.mTagStack with
    | nil => simp [hk] at h
    | cons hd rest =>
      simp only [hk, hb] at h
      split_ifs at h
      simp at h

/-- With a header on the stack in the size phase, and in the content phase a
call that waits once the cursor is at the end of the buffer, the loop does the
calls of `step` one after the other. -/
theorem loop_runs (schema : Schema) :
    ∀ (fuel : Nat) (s : EbmlDecoder),
      (s.mState = .size → s.mTagStack ≠ []) →
      (s.mState = .content → pending s ≤ s.mCursor → step schema s = .ok (false, s, [])) →
      loop schema fuel s ≠ .error .outOfFuel → Runs schema s (loop schema fuel s) := by
  intro fuel
  induction fuel with
  | zero =>
    intro s _ _ h
    exact absurd rfl h
  | succ n ih =>
    intro s hsz hct hne
    unfold loop at hne ⊢
    cases hb : s.mBuffer with
    | none =>
      simp only
      apply Runs.throws
      cases hs : s.mState with
      | tag => rw [step_of_tag hs]; simp [readTag, hb]
      | size =>
        rw [step_of_size hs]
        unfold readSize
        cases hk : s.mTagStack <;> simp [hb]
      | content =>
        have := hct hs (by simp [pending, hb])
        exact absurd hb (step_false_buffer this)
    | some buffer =>
      rw [hb] at hne
      simp only at hne ⊢
      by_cases hc : s.mCursor < buffer.length
      · rw [if_pos hc] at hne ⊢
        obtain ⟨h1, h2, h3⟩ := body_sound schema s
        cases hbd : body schema s with
        | error e =>
          simp only
          obtain ⟨_, d, es, hst, herr⟩ := h1 e hbd
          have := hst.runs (Runs.throws herr)
          simpa [prepend] using this
        | ok p =>
          obtain ⟨b, d1, e1⟩ := p
          cases b with
          | false =>
            simp only
            obtain ⟨hst, hw⟩ := h2 d1 e1 hbd
            have := hst.runs (Runs.waits hw)
            simpa [prepend] using this
          | true =>
            simp only
            rw [hbd] at hne
            simp only at hne
            obtain ⟨hst, hq2, _, _⟩ := h3 d1 e1 hbd
            have hrec : loop schema n d1 ≠ .error .outOfFuel := by
              intro hcon
              rw [hcon] at hne
              exact hne rfl
            have hr := ih d1 (by intro hx; rw [hq2] at hx; cases hx)
              (by intro hx; rw [hq2] at hx; cases hx) hrec
            have := hst.runs hr
            cases hl : loop schema n d1 with
            | error e =>
              rw [hl] at this
              simpa [prepend] using this
            | ok p2 =>
              rw [hl] at this
              simpa [prepend] using this
      · rw [if_neg hc]
        apply Runs.waits
        cases hs : s.mState with
        | tag =>
          rw [step_of_tag hs]
          simp only [readTag, hb]
          rw [if_pos (by omega)]
        | size =>
          rw [step_of_size hs]
          unfold readSize
          cases hk : s.mTagStack with
          | nil => exact absurd hk (hsz hs)
          | cons hd rest =>
            simp only [hb]
            rw [if_pos (by omega)]
        | content =>
          exact hct hs (by simp only [pending, hb]; omega)

end EbmlDecoder
namespace EbmlDecoder

theorem append_of_some {d : EbmlDecoder} {buffer : Bytes} (hb : d.mBuffer = some buffer)
    (chunk : Bytes) : append d chunk = extend d chunk := by
  simp [append, extend, hb]

theorem extend_nil {d : EbmlDecoder} (hb : d.mBuffer ≠ none) : extend d [] = d := by
  cases d with
  | mk b k s c t =>
    cases b with
    | none => exact absurd rfl hb
    | some buf => simp [extend, Tools.concatenate]

theorem extend_extend {d : EbmlDecoder} (x y : Bytes) :
    extend (extend d x) y = extend d (x ++ y) := by
  cases d with
  | mk b k s c t =>
    cases b with
    | none => rfl
    | some buf => simp [extend, Tools.concatenate]

theorem append_append_none {d : EbmlDecoder} (hb : d.mBuffer = none) (x y : Bytes) :
    extend (append d x) y = append d (x ++ y) := by
  simp [append, extend, hb, Tools.concatenate]

theorem fresh_resting (schema : Schema) : Resting schema fresh := by
  refine ⟨⟨?_, ?_, ?_⟩, Or.inl ⟨rfl, rfl⟩⟩
  · simp [fresh, pending]
  · intro h; exact absurd rfl h
  · intro h; cases h

theorem append_inv {schema : Schema} {d : EbmlDecoder} (hr : Resting schema d) (chunk : Bytes) :
    Inv (append d chunk) := by
  obtain ⟨⟨h1, h2, h3⟩, _⟩ := hr
  refine ⟨?_, h2, h3⟩
  cases hb : d.mBuffer with
  | none =>
    simp only [pending, hb] at h1
    simp only [append, pending, hb]
    omega
  | some buffer =>
    simp only [pending, hb] at h1
    simp only [append, pending, hb, Tools.concatenate, List.length_append]
    omega

/-- On a decoder between two chunks `_transform` is the calls of `step` on the
buffer with the chunk appended. -/
theorem transform_runs {schema : Schema} {d : EbmlDecoder} (hr : Resting schema d)
    (chunk : Bytes) : Runs schema (append d chunk) (_transform schema d chunk) := by
  apply loop_runs
  · intro hs
    exact hr.1.2.1 (by show d.mState ≠ .tag; rw [show d.mState = .size from hs]; decide)
  · intro hs hp
    rcases hr.2 with ⟨_, ht⟩ | hw
    · rw [show d.mState = .content from hs] at ht
      cases ht
    · have hbn := step_false_buffer hw
      cases hb : d.mBuffer with
      | none => exact absurd hb hbn
      | some buffer =>
        have hi := hr.1.1
        simp only [pending, hb] at hi
        have hlen : chunk.length = 0 := by
          simp only [append, pending, hb, Tools.concatenate, List.length_append] at hp
          omega
        have hnil : chunk = [] := List.length_eq_zero.mp hlen
        subst hnil
        rw [append_of_some hb, extend_nil hbn]
        exact hw
  · exact transform_fuel schema d chunk

/-- After `_transform` the decoder is again between two chunks. -/
theorem transform_resting {schema : Schema} {d d1 : EbmlDecoder} {e1 : List Event}
    (hr : Resting schema d) {chunk : Bytes} (h : _transform schema d chunk = .ok (d1, e1)) :
    Resting schema d1 := by
  have hrun := transform_runs hr chunk
  rw [h] at hrun
  obtain ⟨hi, hw⟩ := hrun.stops_resting (append_inv hr chunk) d1 e1 rfl
  exact ⟨hi, Or.inr hw⟩

/-- Delivering `x ++ y` in one chunk is delivering `x` and then `y`. -/
theorem transform_append {schema : Schema} {d : EbmlDecoder} (hr : Resting schema d)
    (x y : Bytes) :
    _transform schema d (x ++ y) =
      match _transform schema d x with
      | .error e => .error e
      | .ok (d1, e1) => prepend e1 (_transform schema d1 y) := by
  have hx := transform_runs hr x
  have hxy := transform_runs hr (x ++ y)
  have hi := append_inv hr x
  have hext : extend (append d x) y = append d (x ++ y) := by
    cases hb : d.mBuffer with
    | none => exact append_append_none hb x y
    | some buffer => rw [append_of_some hb, append_of_some hb, extend_extend]
  cases h1 : _transform schema d x with
  | error e =>
    rw [h1] at hx
    have := hx.extend_error hi y e rfl
    rw [hext] at this
    exact hxy.unique this
  | ok p =>
    obtain ⟨d1, e1⟩ := p
    rw [h1] at hx
    simp only
    have hr1 := transform_resting hr h1
    have hy := transform_runs hr1 y
    obtain ⟨_, hw⟩ := hx.stops_resting hi d1 e1 rfl
    have hbn := step_false_buffer hw
    cases hb1 : d1.mBuffer with
    | none => exact absurd hb1 hbn
    | some b1 =>
      rw [append_of_some hb1] at hy
      have := hx.extend_ok hi y d1 e1 rfl _ hy
      rw [hext] at this
      exact hxy.unique this

theorem view_prepend (es : List Event) (r : Except DecodeError (EbmlDecoder × List Event)) :
    (prepend es r).map view =
      (r.map view).map (fun v => (es ++ v.1, v.2)) := by
  cases r with
  | error e => rfl
  | ok p => rfl

theorem feed_single (schema : Schema) (d : EbmlDecoder) (chunk : Bytes) :
    feed schema d [chunk] = _transform schema d chunk := by
  simp only [feed]
  cases h : _transform schema d chunk with
  | error e => rfl
  | ok p => simp

theorem transform_nil_view {schema : Schema} {d : EbmlDecoder} (hr : Resting schema d) :
    (_transform schema d []).map view = .ok (view (d, [])) := by
  have hrun := transform_runs hr []
  rcases hr.2 with ⟨hb, hs⟩ | hw
  · have hstep : step schema (append d []) = .ok (false, append d [], []) := by
      rw [step_of_tag (by exact hs)]
      simp [readTag, append, hb]
    rw [hrun.unique (Runs.waits hstep)]
    rfl
  · have hbn := step_false_buffer hw
    cases hb : d.mBuffer with
    | none => exact absurd hb hbn
    | some buffer =>
      rw [append_of_some hb, extend_nil hbn] at hrun
      rw [hrun.unique (Runs.waits hw)]
      rfl

theorem feed_join (schema : Schema) (chunks : List Bytes) :
    ∀ d, Resting schema d →
      (feed schema d chunks).map view = (_transform schema d chunks.flatten).map view := by
  induction chunks with
  | nil =>
    intro d hr
    rw [List.flatten_nil, transform_nil_view hr]
    rfl
  | cons c cs ih =>
    intro d hr
    rw [List.flatten_cons, transform_append hr]
    simp only [feed]
    cases h1 : _transform schema d c with
    | error e => rfl
    | ok p =>
      obtain ⟨d1, e1⟩ := p
      simp only
      have hr1 := transform_resting hr h1
      rw [view_prepend, ← ih d1 hr1]
      cases h2 : feed schema d1 cs with
      | error e => rfl
      | ok p2 => rfl

end EbmlDecoder

namespace EbmlDecoder

theorem feed_fuel (schema : Schema) (chunks : List Bytes) :
    ∀ d, feed schema d chunks ≠ .error .outOfFuel := by
  induction chunks with
  | nil => intro d h; cases h
  | cons c cs ih =>
    intro d
    simp only [feed]
    cases h1 : _transform schema d c with
    | error e =>
      simp only
      intro hcon
      cases hcon
      exact transform_fuel schema d c h1
    | ok p =>
      obtain ⟨d1, e1⟩ := p
      simp only
      cases h2 : feed schema d1 cs with
      | error e =>
        simp only
        intro hcon
        cases hcon
        exact ih d1 h2
      | ok p2 => simp

end EbmlDecoder

/-- C1: delivering the chunks `c1, ..., cn` in order to a fresh decoder and
delivering their concatenation as a single chunk give the same result: the
same exception, or the same list of events and the same `total`, phase and tag
stack at the end.  Neither delivery exhausts the loop budget of the
embedding. -/
theorem fragmentation_transparent (schema : Schema) (chunks : List Bytes) :
    (EbmlDecoder.feed schema EbmlDecoder.fresh chunks).map EbmlDecoder.view =
      (EbmlDecoder.feed schema EbmlDecoder.fresh [chunks.flatten]).map EbmlDecoder.view ∧
    EbmlDecoder.feed schema EbmlDecoder.fresh chunks ≠ .error .outOfFuel ∧
    EbmlDecoder.feed schema EbmlDecoder.fresh [chunks.flatten] ≠ .error .outOfFuel := by
  refine ⟨?_, EbmlDecoder.feed_fuel schema _ _, EbmlDecoder.feed_fuel schema _ _⟩
  rw [EbmlDecoder.feed_single]
  exact EbmlDecoder.feed_join schema chunks _ (EbmlDecoder.fresh_resting schema)
/-! ## Reachable states -/

namespace EbmlDecoder

/-- Reachable states are between two chunks. -/
theorem Reach.between_chunks {schema : Schema} {stream : Bytes} {d : EbmlDecoder} {events : List Event}
    (h : Reach schema stream d events) : Resting schema d := by
  induction h with
  | fresh => exact fresh_resting schema
  | deliver _ ht ih => exact transform_resting ih ht

theorem Runs.preserve {schema : Schema} (P : EbmlDecoder → List Event → Prop)
    (hstep : ∀ d events d1 e1, Inv d → P d events →
      step schema d = .ok (true, d1, e1) → P d1 (events ++ e1))
    {s : EbmlDecoder} {r : Except DecodeError (EbmlDecoder × List Event)}
    (hrun : Runs schema s r) :
    ∀ events, Inv s → P s events → ∀ d1 e1, r = .ok (d1, e1) → P d1 (events ++ e1) := by
  induction hrun with
  | throws hs => intro _ _ _ _ _ hres; cases hres
  | waits hs =>
    intro events _ h0 d1 e1 hres
    cases hres
    obtain ⟨rfl, rfl⟩ := step_false hs
    rw [List.append_nil]
    exact h0
  | @more s s2 e2 r2 hs _ ih2 =>
    intro events hi h0 d1 e1 hres
    cases r2 with
    | error e => cases hres
    | ok p =>
      obtain ⟨d3, e3⟩ := p
      simp only [prepend, Except.ok.injEq, Prod.mk.injEq] at hres
      obtain ⟨rfl, rfl⟩ := hres
      have h2 := hstep s events s2 e2 hi h0 hs
      have := ih2 (events ++ e2) (step_true_extend hi hs).1 h2 d3 e3 rfl
      rw [List.append_assoc] at this
      exact this

/-- Induction over the reachable states: a property that holds of the fresh
decoder, that survives the arrival of a chunk and every call of `step` that
returns `true`, holds of every reachable state. -/
theorem Reach.induction {schema : Schema}
    (P : Bytes → EbmlDecoder → List Event → Prop)
    (hfresh : P [] EbmlDecoder.fresh [])
    (hchunk : ∀ stream d events chunk, Resting schema d → P stream d events →
      P (stream ++ chunk) (append d chunk) events)
    (hstep : ∀ stream d events d1 e1, Inv d → P stream d events →
      step schema d = .ok (true, d1, e1) → P stream d1 (events ++ e1))
    {stream : Bytes} {d : EbmlDecoder} {events : List Event}
    (h : Reach schema stream d events) : P stream d events := by
  induction h with
  | fresh => exact hfresh
  | @deliver stream d events chunk d1 e1 hr ht ih =>
    have hrest := hr.between_chunks
    have hrun := transform_runs hrest chunk
    rw [ht] at hrun
    exact hrun.preserve (P (stream ++ chunk)) (hstep (stream ++ chunk)) events
      (append_inv hrest chunk) (hchunk stream d events chunk hrest ih) d1 e1 rfl

end EbmlDecoder
/-! ## Headers and stream offsets -/

namespace Tools

theorem readVint_drop (stream : Bytes) (k c : Nat) (hk : k ≤ stream.length) :
    readVint (stream.drop k) c = readVint stream (k + c) := by
  unfold readVint
  have hget : (stream.drop k).get? c = stream.get? (k + c) := by
    simp [List.getElem?_drop]
  rw [hget]
  cases stream.get? (k + c) with
  | none => rfl
  | some b0 =>
    simp only [List.length_drop, List.drop_drop]
    have h1 : stream.length - k < c + vintLength b0 ↔ stream.length < k + c + vintLength b0 := by
      omega
    have h2 : k + (c + 1) = k + c + 1 := by omega
    simp only [h1, h2]

theorem readHexString_drop (stream : Bytes) (k c n : Nat) :
    readHexString (stream.drop k) c (c + n) = readHexString stream (k + c) (k + c + n) := by
  unfold readHexString
  rw [List.drop_drop, Nat.add_sub_cancel_left, Nat.add_sub_cancel_left]

theorem readDataFromTag_fields {tagObj : TagObj} {data : Bytes} {t : TagData}
    (h : readDataFromTag tagObj data = .ok t) : t.tagObj = tagObj ∧ t.data = data := by
  unfold readDataFromTag at h
  by_cases hb : tagObj.name = "SimpleBlock" ∨ tagObj.name = "Block"
  · rw [if_pos hb] at h
    split at h
    · cases h
    · cases h
    · cases h
      exact ⟨rfl, rfl⟩
  · rw [if_neg hb] at h
    cases ht : tagObj.type <;> rw [ht] at h <;> simp only at h <;>
      (try split_ifs at h) <;> cases h <;> exact ⟨rfl, rfl⟩

end Tools

namespace EbmlDecoder

theorem closeEnded_spec (total : Int) (stack : List TagObj) :
    (closeEnded total stack).1.map header ++ (closeEnded total stack).2 = stack ∧
    (∀ ev ∈ (closeEnded total stack).1, ∃ h, ev = Event.«end» h ∧ ¬ total < h.«end») ∧
    (∀ h rest, (closeEnded total stack).2 = h :: rest → total < h.«end») := by
  induction stack with
  | nil => simp [closeEnded]
  | cons top rest ih =>
    unfold closeEnded
    by_cases hlt : total < top.«end»
    · rw [if_pos hlt]
      refine ⟨by simp, by simp, ?_⟩
      intro h r heq
      simp only [List.cons.injEq] at heq
      rw [← heq.1]
      exact hlt
    · rw [if_neg hlt]
      obtain ⟨h1, h2, h3⟩ := ih
      refine ⟨?_, ?_, h3⟩
      · simp only [List.map_cons, header, List.cons_append, h1]
      · intro ev hev
        simp only [List.mem_cons] at hev
        rcases hev with rfl | hev
        · exact ⟨top, rfl, hlt⟩
        · exact h2 ev hev

theorem closeEnded_mem (total : Int) (stack : List TagObj) :
    (∀ ev ∈ (closeEnded total stack).1, header ev ∈ stack) ∧
    (∀ h ∈ (closeEnded total stack).2, h ∈ stack) := by
  have h := (closeEnded_spec total stack).1
  constructor
  · intro ev hev
    rw [← h]
    exact List.mem_append_left _ (List.mem_map_of_mem header hev)
  · intro x hx
    rw [← h]
    exact List.mem_append_right _ hx

theorem headerAt_append {stream : Bytes} {h : TagObj} (hh : HeaderAt stream h) (x : Bytes) :
    HeaderAt (stream ++ x) h := by
  obtain ⟨h0, li, ls, ds, h1, h2, h3, h4, h5, h6⟩ := hh
  have hb := Tools.readVint_bounds h1
  refine ⟨h0, li, ls, ds, Tools.readVint_append x h1, ?_, h3, Tools.readVint_append x h4, h5, h6⟩
  rw [h2, Tools.readHexString_append stream x _ li hb.2.2.1]

theorem idAt_append {stream : Bytes} {h : TagObj} (hh : IdAt stream h) (x : Bytes) :
    IdAt (stream ++ x) h := by
  obtain ⟨h0, li, h1, h2, h3, h4, h5⟩ := hh
  have hb := Tools.readVint_bounds h1
  refine ⟨h0, li, Tools.readVint_append x h1, ?_, h3, h4, h5⟩
  rw [h2, Tools.readHexString_append stream x _ li hb.2.2.1]

end EbmlDecoder
namespace EbmlDecoder

theorem described_fresh : Described [] fresh [] := by
  refine ⟨⟨by simp [fresh], by simp [fresh], Or.inl ⟨rfl, rfl⟩⟩, ?_, ?_, ?_⟩
  · intro h hh
    simp [sized, fresh] at hh
  · intro hs
    cases hs
  · intro ev hev
    cases hev

theorem described_chunk {schema : Schema} (stream : Bytes) (d : EbmlDecoder)
    (events : List Event) (chunk : Bytes) (_hr : Resting schema d)
    (h : Described stream d events) : Described (stream ++ chunk) (append d chunk) events := by
  obtain ⟨⟨ha1, ha2, ha3⟩, hs, hz, he⟩ := h
  refine ⟨⟨ha1, ?_, ?_⟩, ?_, ?_, ?_⟩
  · show d.mTotal - d.mCursor ≤ ((stream ++ chunk).length : Int)
    rw [List.length_append]
    push_cast
    omega
  · right
    rcases ha3 with ⟨hb, rfl⟩ | hb
    · have h0 : d.mTotal - (d.mCursor : Int) = 0 := by
        simp only [List.length_nil] at ha2
        push_cast at ha2
        omega
      simp only [append, hb]
      rw [h0]
      simp
    · simp only [append, hb, Tools.concatenate]
      rw [List.drop_append_of_le_length (by omega)]
  · intro h hh
    exact headerAt_append (hs h hh) chunk
  · intro hst h rest hk
    obtain ⟨h1, h2⟩ := hz hst h rest hk
    exact ⟨idAt_append h1 chunk, h2⟩
  · intro ev hev
    exact headerAt_append (he ev hev) chunk

theorem described_step {schema : Schema} (stream : Bytes) (d : EbmlDecoder)
    (events : List Event) (d1 : EbmlDecoder) (e1 : List Event) (hi : Inv d)
    (h : Described stream d events) (hstep : step schema d = .ok (true, d1, e1)) :
    Described stream d1 (events ++ e1) := by
  obtain ⟨⟨ha1, ha2, ha3⟩, hs, hz, he⟩ := h
  have hbuf : ∀ buffer, d.mBuffer = some buffer →
      buffer = stream.drop (d.mTotal - d.mCursor).toNat := by
    intro buffer hb
    rcases ha3 with ⟨hn, _⟩ | hb2
    · rw [hn] at hb; cases hb
    · rw [hb2] at hb; cases hb; rfl
  have hk : ((d.mTotal - d.mCursor).toNat) + d.mCursor = d.mTotal.toNat := by omega
  cases hst : d.mState with
  | tag =>
    rw [step_of_tag hst] at hstep
    rcases readTag_cases schema d with ⟨e, he', _⟩ | hf | ⟨buffer, tag, hd, hb, hv, hdef, ht, _⟩
    · rw [he'] at hstep; cases hstep
    · rw [hf] at hstep; cases hstep
    · rw [ht] at hstep
      cases hstep
      have hbd := Tools.readVint_bounds hv
      have hbe := hbuf buffer hb
      rw [hbe, Tools.readVint_drop _ _ _ (by omega), hk] at hv
      refine ⟨⟨?_, ?_, ?_⟩, ?_, ?_, ?_⟩
      · simp only; push_cast; omega
      · simp only; push_cast; omega
      · right
        simp only [hb, hbe]
        congr 2
        push_cast
        omega
      · intro h hh
        simp only [sized, List.tail_cons] at hh
        apply hs
        simp only [sized, hst]
        exact hh
      · intro _ h rest hcons
        simp only [List.cons.injEq] at hcons
        obtain ⟨rfl, _⟩ := hcons
        have hlen : (Tools.readHexString buffer d.mCursor (d.mCursor + tag.length)).length =
            tag.length := Tools.readHexString_length _ _ _ hbd.2.2.1
        refine ⟨⟨?_, tag.length, ?_, ?_, ?_, ?_, ?_⟩, ?_⟩
        · rw [hdef]; simp only; omega
        · rw [hdef]; exact hv
        · rw [hdef]
          simp only
          rw [hbe, Tools.readHexString_drop, hk]
        · rw [hdef]; exact hlen
        · rw [hdef]
        · rw [hdef]
        · rw [hdef]
          simp only
          rw [hlen]
      · simpa using he
  | size =>
    rw [step_of_size hst] at hstep
    rcases readSize_cases d with ⟨e, he', _⟩ | hf |
      ⟨buffer, size, hd, rest, hb, hstk, hv, ht, _⟩
    · rw [he'] at hstep; cases hstep
    · rw [hf] at hstep; cases hstep
    · rw [ht] at hstep
      cases hstep
      have hbd := Tools.readVint_bounds hv
      have hbe := hbuf buffer hb
      rw [hbe, Tools.readVint_drop _ _ _ (by omega), hk] at hv
      obtain ⟨⟨hi0, li, hi1, hi2, hi3, hi4, hi5⟩, htot⟩ := hz hst hd rest hstk
      refine ⟨⟨?_, ?_, ?_⟩, ?_, ?_, ?_⟩
      · simp only; push_cast; omega
      · simp only; push_cast; omega
      · right
        simp only [hb, hbe]
        congr 2
        push_cast
        omega
      · intro h hh
        simp only [sized, List.mem_cons] at hh
        rcases hh with rfl | hh
        · refine ⟨hi0, li, size.length, size.value, hi1, hi2, hi3, ?_, rfl, ?_⟩
          · have : hd.start.toNat + li = d.mTotal.toNat := by omega
            rw [this]
            exact hv
          · simp only
            split_ifs
            · rfl
            · rw [hi5]; omega
        · apply hs
          simp only [sized, hst, hstk, List.tail_cons]
          exact hh
      · intro hc
        cases hc
      · simpa using he
  | content =>
    rw [step_of_content hst] at hstep
    rcases readContent_cases d with ⟨e, he', _⟩ | ⟨hf, _⟩ | ⟨hd, rest, hstk, hm, ht, _⟩ |
      ⟨hd, rest, buffer, ds, t, hstk, hm, hb, hds, hw, hrd, ht, _⟩
    · rw [he'] at hstep; cases hstep
    · rw [hf] at hstep; cases hstep
    · rw [ht] at hstep
      cases hstep
      have hsz : sized d = d.mTagStack := by simp [sized, hst]
      refine ⟨⟨ha1, ha2, ha3⟩, ?_, ?_, ?_⟩
      · intro h hh
        apply hs
        rw [hsz]
        simpa [sized] using hh
      · intro hc
        cases hc
      · intro ev hev
        simp only [List.mem_append, List.mem_singleton] at hev
        rcases hev with hev | rfl
        · exact he ev hev
        · apply hs
          rw [hsz, hstk]
          simp [header]
    · rw [ht] at hstep
      cases hstep
      have hsz : sized d = d.mTagStack := by simp [sized, hst]
      have hbe := hbuf buffer hb
      have h0 : 0 ≤ (d.mCursor : Int) + ds := hi.2.2 hst hd rest ds hstk hds
      have hcl : d.mCursor ≤ buffer.length := by
        have := hi.1
        simpa [pending, hb] using this
      have hlen : buffer.length = stream.length - (d.mTotal - d.mCursor).toNat := by
        rw [hbe, List.length_drop]
      obtain ⟨hm1, hm2⟩ := closeEnded_mem (d.mTotal + ds) rest
      refine ⟨⟨?_, ?_, ?_⟩, ?_, ?_, ?_⟩
      · simp only; push_cast; omega
      · simp only; push_cast; omega
      · right
        simp only
        rw [subarray_rest buffer _ h0 (by omega), hbe, List.drop_drop]
        congr 2
        push_cast
        omega
      · intro h hh
        simp only [sized] at hh
        apply hs
        rw [hsz, hstk]
        exact List.mem_cons_of_mem _ (hm2 h hh)
      · intro hc
        cases hc
      · intro ev hev
        simp only [List.mem_append, List.mem_cons] at hev
        rcases hev with hev | rfl | hev
        · exact he ev hev
        · simp only [header]
          rw [(Tools.readDataFromTag_fields hrd).1]
          apply hs
          rw [hsz, hstk]
          exact List.mem_cons_self _ _
        · apply hs
          rw [hsz, hstk]
          exact List.mem_cons_of_mem _ (hm1 ev hev)

end EbmlDecoder

/-- C8: in every state a fresh decoder reaches, every header whose size field
has been read, whether on the tag stack or carried by an event, describes the
element at the stream offset `start`: the ID vint read there has the length
`li`, the size vint after it has the value `dataSize` and the length `ls`, and
for a known size `end = start + li + ls + dataSize`. -/
theorem header_offsets (schema : Schema) (stream : Bytes) (d : EbmlDecoder)
    (events : List Event) (h : EbmlDecoder.Reach schema stream d events) :
    (∀ hd ∈ EbmlDecoder.sized d, EbmlDecoder.HeaderAt stream hd) ∧
    (∀ ev ∈ events, EbmlDecoder.HeaderAt stream (EbmlDecoder.header ev)) := by
  have := @EbmlDecoder.Reach.induction schema EbmlDecoder.Described
    EbmlDecoder.described_fresh EbmlDecoder.described_chunk EbmlDecoder.described_step _ _ _ h
  exact ⟨this.2.1, this.2.2.2⟩
/-- C8 on the first eight bytes of `sampleBytes`: the decoder has pushed the
`start` event of `EBML` and waits for the payload of `EBMLVersion`. -/
theorem header_offsets_witness :
    EbmlDecoder.Reach sampleSchema partialBytes waitingForPayload [Event.start ebmlHeader] ∧
    (∀ hd ∈ EbmlDecoder.sized waitingForPayload, EbmlDecoder.HeaderAt partialBytes hd) ∧
    (∀ ev ∈ [Event.start ebmlHeader],
      EbmlDecoder.HeaderAt partialBytes (EbmlDecoder.header ev)) :=
  have hr : EbmlDecoder.Reach sampleSchema partialBytes waitingForPayload
      [Event.start ebmlHeader] :=
    @EbmlDecoder.Reach.deliver _ _ _ _ partialBytes _ _ EbmlDecoder.Reach.fresh (by rfl)
  ⟨hr, header_offsets sampleSchema partialBytes waitingForPayload [Event.start ebmlHeader] hr⟩

/-- C9 fails: after `emptyMasterBytes`, a well-formed stream cut before its
last byte, the header of `EBMLVersion` lies on the stack directly above that of
the empty `Cluster`, both ends are known, and the upper end 14 exceeds the
lower end 10. -/
theorem nesting_of_ends_fails :
    EbmlDecoder.Reach sampleSchema emptyMasterBytes afterEmptyMaster
      [Event.start outerHeader, Event.start emptyClusterHeader] ∧
    afterEmptyMaster.mTagStack = [lateVersionHeader, emptyClusterHeader, outerHeader] ∧
    lateVersionHeader.«end» ≠ -1 ∧ emptyClusterHeader.«end» ≠ -1 ∧
    ¬ lateVersionHeader.«end» ≤ emptyClusterHeader.«end» :=
  ⟨@EbmlDecoder.Reach.deliver _ _ _ _ emptyMasterBytes _ _ EbmlDecoder.Reach.fresh (by rfl),
    rfl, by decide, by decide, by decide⟩
namespace EbmlDecoder

theorem closeEnded_sublist (total : Int) (stack : List TagObj) :
    List.Sublist (closeEnded total stack).2 stack := by
  have h := (closeEnded_spec total stack).1
  conv => rhs; rw [← h]
  exact List.sublist_append_right _ _

theorem opened_step {schema : Schema} (d d1 : EbmlDecoder) (e1 : List Event)
    (h : Opened d) (hstep : step schema d = .ok (true, d1, e1)) : Opened d1 := by
  obtain ⟨hp, hph⟩ := h
  cases hst : d.mState with
  | tag =>
    rw [hst] at hph
    simp only at hph
    rw [step_of_tag hst] at hstep
    rcases readTag_cases schema d with ⟨e, he', _⟩ | hf | ⟨buffer, tag, hd, hb, hv, hdef, ht, _⟩
    · rw [he'] at hstep; cases hstep
    · rw [hf] at hstep; cases hstep
    · rw [ht] at hstep
      cases hstep
      have hbd := Tools.readVint_bounds hv
      have hlen : hd.tagStr.length = tag.length := by
        rw [hdef]
        exact Tools.readHexString_length _ _ _ hbd.2.2.1
      have hstart : hd.start = d.mTotal := by rw [hdef]
      refine ⟨?_, ?_⟩
      · apply List.Pairwise.cons _ hp
        intro a ha
        unfold StartsAfter
        rw [hstart]
        exact hph a ha
      · simp only
        intro t rest hcons
        simp only [List.cons.injEq] at hcons
        obtain ⟨rfl, rfl⟩ := hcons
        refine ⟨by rw [hstart, hlen], by omega, ?_⟩
        rw [hstart]
        exact hph
  | size =>
    rw [hst] at hph
    simp only at hph
    rw [step_of_size hst] at hstep
    rcases readSize_cases d with ⟨e, he', _⟩ | hf |
      ⟨buffer, size, hd, rest, hb, hstk, hv, ht, _⟩
    · rw [he'] at hstep; cases hstep
    · rw [hf] at hstep; cases hstep
    · rw [ht] at hstep
      cases hstep
      have hbd := Tools.readVint_bounds hv
      obtain ⟨hq1, hq2, hq3⟩ := hph hd rest hstk
      rw [hstk] at hp
      refine ⟨?_, ?_⟩
      · simp only
        rw [List.pairwise_cons] at hp ⊢
        exact ⟨fun a ha => hp.1 a ha, hp.2⟩
      · simp only
        intro t rest' hcons
        simp only [List.cons.injEq] at hcons
        obtain ⟨rfl, rfl⟩ := hcons
        refine ⟨by simp only; omega, hq2, ?_, hq3⟩
        intro ds hds
        simp only [Option.some.injEq] at hds
        omega
  | content =>
    rw [hst] at hph
    simp only at hph
    rw [step_of_content hst] at hstep
    rcases readContent_cases d with ⟨e, he', _⟩ | ⟨hf, _⟩ | ⟨hd, rest, hstk, hm, ht, _⟩ |
      ⟨hd, rest, buffer, ds, t, hstk, hm, hb, hds, hw, hrd, ht, _⟩
    · rw [he'] at hstep; cases hstep
    · rw [hf] at hstep; cases hstep
    · rw [ht] at hstep
      cases hstep
      obtain ⟨hq1, hq2, _, hq4⟩ := hph hd rest hstk
      refine ⟨hp, ?_⟩
      simp only
      rw [hstk]
      intro a ha
      simp only [List.mem_cons] at ha
      rcases ha with rfl | ha
      · exact hq1
      · have := hq4 a ha
        omega
    · rw [ht] at hstep
      cases hstep
      obtain ⟨hq1, hq2, hq3, hq4⟩ := hph hd rest hstk
      have hsub := closeEnded_sublist (d.mTotal + ds) rest
      rw [hstk] at hp
      refine ⟨(List.pairwise_cons.mp hp).2.sublist hsub, ?_⟩
      simp only
      intro a ha
      have := hq4 a (hsub.subset ha)
      have := hq3 ds hds
      omega

theorem opened_reach {schema : Schema} {stream : Bytes} {d : EbmlDecoder} {events : List Event}
    (h : Reach schema stream d events) : Opened d := by
  refine @Reach.induction schema (fun _ d _ => Opened d) ?_ ?_ ?_ _ _ _ h
  · refine ⟨List.Pairwise.nil, ?_⟩
    intro a ha
    cases ha
  · intro _ d _ chunk _ ho
    exact ho
  · intro _ d _ d1 e1 _ ho hs
    exact opened_step d d1 e1 ho hs

end EbmlDecoder

/-- C9, amended: in every state a fresh decoder reaches by any chunks, of any
two headers on the tag stack the upper one starts after the ID of the lower
one, `parent.start + (length of the parent's ID) < child.start`. -/
theorem starts_nested (schema : Schema) (stream : Bytes) (d : EbmlDecoder)
    (events : List Event) (h : EbmlDecoder.Reach schema stream d events) :
    d.mTagStack.Pairwise EbmlDecoder.StartsAfter :=
  (EbmlDecoder.opened_reach h).1

/-- C9, amended, on `emptyMasterBytes`: the three headers on the stack start
at 10, 5 and 0. -/
theorem starts_nested_witness :
    EbmlDecoder.Reach sampleSchema emptyMasterBytes afterEmptyMaster
      [Event.start outerHeader, Event.start emptyClusterHeader] ∧
    [lateVersionHeader, emptyClusterHeader, outerHeader].Pairwise EbmlDecoder.StartsAfter :=
  have hr : EbmlDecoder.Reach sampleSchema emptyMasterBytes afterEmptyMaster
      [Event.start outerHeader, Event.start emptyClusterHeader] :=
    @EbmlDecoder.Reach.deliver _ _ _ _ emptyMasterBytes _ _ EbmlDecoder.Reach.fresh (by rfl)
  ⟨hr, starts_nested sampleSchema emptyMasterBytes afterEmptyMaster _ hr⟩
/-! ## The encoder on trees -/

namespace EbmlEncoder

theorem transformAll_append (schema : Schema) (a b : List Chunk) :
    ∀ s, transformAll schema s (a ++ b) =
      match transformAll schema s a with
      | .error e => .error e
      | .ok (s1, out1) =>
        match transformAll schema s1 b with
        | .error e => .error e
        | .ok (s2, out2) => .ok (s2, out1 ++ out2) := by
  induction a with
  | nil =>
    intro s
    simp only [List.nil_append, transformAll]
    cases transformAll schema s b with
    | error e => rfl
    | ok p => simp
  | cons c cs ih =>
    intro s
    simp only [List.cons_append, transformAll, List.append_eq]
    cases _transform schema s c with
    | error e => rfl
    | ok p =>
      obtain ⟨s1, out1⟩ := p
      simp only
      rw [ih s1]
      cases transformAll schema s1 cs with
      | error e => rfl
      | ok p2 =>
        obtain ⟨s2, out2⟩ := p2
        simp only
        cases transformAll schema s2 b with
        | error e => rfl
        | ok p3 => simp [List.append_assoc]

theorem childrenData_append (closed : List (Nat × Bytes)) (cs : List Child) (c : Child)
    (body bs : Bytes) (h1 : childrenData closed cs = .ok body)
    (h2 : childData closed c = some bs) :
    childrenData closed (cs ++ [c]) = .ok (body ++ bs) := by
  induction cs generalizing body with
  | nil =>
    simp only [childrenData] at h1
    cases h1
    simp [childrenData, h2]
  | cons x xs ih =>
    simp only [childrenData, List.cons_append, List.append_eq] at h1 ⊢
    cases hx : childData closed x with
    | none => rw [hx] at h1; cases h1
    | some b =>
      rw [hx] at h1
      simp only at h1 ⊢
      cases hxs : childrenData closed xs with
      | error e => rw [hxs] at h1; cases h1
      | ok tail =>
        rw [hxs] at h1
        simp only at h1
        cases h1
        rw [ih tail hxs]
        simp [List.append_assoc]

theorem childrenData_congr (closed closed1 : List (Nat × Bytes)) (cs : List Child)
    (h : ∀ c ∈ cs, childData closed1 c = childData closed c) :
    childrenData closed1 cs = childrenData closed cs := by
  induction cs with
  | nil => rfl
  | cons x xs ih =>
    simp only [childrenData]
    rw [h x (List.mem_cons_self _ _), ih (fun c hc => h c (List.mem_cons_of_mem _ hc))]

theorem encodeTag_sizeHeader (id body : Bytes) (e : Option Int) (size : Bytes)
    (h : sizeHeader e body = .ok size) : encodeTag id body e = .ok (id ++ size ++ body) := by
  unfold sizeHeader at h
  unfold encodeTag
  by_cases he : e = some (-1)
  · rw [if_pos he] at h ⊢
    cases h
    rfl
  · rw [if_neg he] at h ⊢
    rw [h]

end EbmlEncoder
namespace EbmlEncoder

theorem transform_start (schema : Schema) (s : EbmlEncoder) (info : TagInfo) :
    _transform schema s ("start", info) = startTag schema s info.name info.«end» := by
  simp [_transform]

theorem transform_tag (schema : Schema) (s : EbmlEncoder) (info : TagInfo) :
    _transform schema s ("tag", info) = writeTag schema s info.name info.data := by
  simp [_transform]

theorem transform_end (schema : Schema) (s : EbmlEncoder) (info : TagInfo) :
    _transform schema s ("end", info) = endTag s := by
  simp [_transform]

theorem transformAll_single (schema : Schema) (s : EbmlEncoder) (c : Chunk) :
    transformAll schema s [c] = _transform schema s c := by
  simp only [transformAll]
  cases _transform schema s c with
  | error e => rfl
  | ok p => simp

mutual
/-- The events of a tree, given to an encoder with an open tag, add the
encoding of the tree to the children of that tag and deliver nothing. -/
theorem tree_appended (schema : Schema) :
    ∀ (t : Tree) (s : EbmlEncoder) (top : OpenTag) (rest : List OpenTag) (body0 bs : Bytes),
      s.mStack = top :: rest → childrenData s.closed top.children = .ok body0 →
      (∀ ref, Child.tag ref ∈ top.children → ref < s.nextRef) →
      t.enc schema = .ok bs →
      ∃ s1, transformAll schema s t.chunks = .ok (s1, []) ∧ Appended s s1 top rest body0 bs
  | .leaf name payload, s, top, rest, body0, bs, hstk, hbody, hrefs, henc => by
    simp only [Tree.enc] at henc
    cases hid : getSchemaInfo schema name with
    | none => rw [hid] at henc; cases henc
    | some id =>
      rw [hid] at henc
      simp only at henc
      cases hw : Tools.writeVint payload.length with
      | error e => rw [hw] at henc; cases henc
      | ok size =>
        rw [hw] at henc
        simp only at henc
        cases henc
        refine ⟨{ s with mStack :=
          { top with children := top.children ++ [Child.data (id ++ size ++ payload)] } :: rest },
          ?_, ?_⟩
        · simp only [Tree.chunks, transformAll_single, transform_tag, writeTag, hid, encodeTag,
            hw, hstk]
          simp
        · refine ⟨_, rfl, rfl, rfl, rfl, rfl, ?_, ?_, le_refl _, fun _ _ => rfl, rfl, rfl⟩
          · exact childrenData_append _ _ _ _ _ hbody rfl
          · intro ref href
            simp only [List.mem_append, List.mem_singleton, reduceCtorEq, or_false] at href
            exact hrefs ref href
  | .master name e children, s, top, rest, body0, bs, hstk, hbody, hrefs, henc => by
    simp only [Tree.enc] at henc
    cases hid : getSchemaInfo schema name with
    | none => rw [hid] at henc; cases henc
    | some id =>
      rw [hid] at henc
      simp only at henc
      cases hcs : children.enc schema with
      | error e => rw [hcs] at henc; cases henc
      | ok body =>
        rw [hcs] at henc
        simp only at henc
        cases hsz : sizeHeader e body with
        | error err => rw [hsz] at henc; cases henc
        | ok size =>
          rw [hsz] at henc
          simp only at henc
          cases henc
          -- the `start` event
          let tag : OpenTag :=
            { ref := s.nextRef, id := id, name := name, «end» := e, children := [] }
          let top1 : OpenTag := { top with children := top.children ++ [Child.tag s.nextRef] }
          let s1 : EbmlEncoder :=
            { s with nextRef := s.nextRef + 1, mStack := tag :: top1 :: rest }
          have hstart : _transform schema s ("start", { name := name, data := none, «end» := e })
              = .ok (s1, []) := by
            simp only [transform_start, startTag, hid, hstk]
          -- the events of the children
          obtain ⟨s2, hrun, tag2, hk2, hr2, hi2, _, he2, hb2, _, hn2, hl2, hbuf2, hck2⟩ :=
            forest_appended schema children s1 tag (top1 :: rest) [] body rfl rfl
              (by intro ref href; cases href) hcs
          -- the `end` event
          have hdata := encodeTag_sizeHeader id body e size hsz
          let s3 : EbmlEncoder :=
            { s2 with mStack := top1 :: rest, closed := (s.nextRef, id ++ size ++ body) :: s2.closed,
                      ended := true }
          have hend : _transform schema s2 ("end", { name := name, data := none, «end» := e })
              = .ok (s3, []) := by
            simp only [transform_end, endTag, hk2]
            rw [List.nil_append] at hb2
            rw [hb2]
            simp only
            rw [hi2, he2, hdata]
            simp only [hr2, s3, tag]
          refine ⟨s3, ?_, top1, rfl, rfl, rfl, rfl, rfl, ?_, ?_, ?_, ?_, hbuf2, hck2⟩
          · simp only [Tree.chunks, transformAll, hstart]
            rw [transformAll_append, hrun]
            simp only [transformAll_single, hend, List.append_nil]
          · apply childrenData_append
            · rw [← hbody]
              apply childrenData_congr
              intro c hc
              cases c with
              | data b => rfl
              | tag r =>
                have hr := hrefs r hc
                simp only [childData, s3, List.lookup]
                have hne : (r == s.nextRef) = false := by
                  simp only [beq_eq_false_iff_ne, ne_eq]
                  omega
                rw [hne]
                exact hl2 r (by simp only [s1]; omega)
            · simp [childData, s3, List.lookup]
          · intro ref href
            simp only [top1, List.mem_append, List.mem_singleton, Child.tag.injEq] at href
            have : s.nextRef + 1 ≤ s2.nextRef := hn2
            simp only [s3]
            rcases href with href | rfl
            · have := hrefs ref href
              omega
            · omega
          · have : s.nextRef + 1 ≤ s2.nextRef := hn2
            simp only [s3]
            omega
          · intro ref href
            simp only [s3, List.lookup]
            have hne : (ref == s.nextRef) = false := by
              simp only [beq_eq_false_iff_ne, ne_eq]
              omega
            rw [hne]
            exact hl2 ref (by simp only [s1]; omega)
/-- The events of a forest, given to an encoder with an open tag, add the
encodings of its trees to the children of that tag and deliver nothing. -/
theorem forest_appended (schema : Schema) :
    ∀ (ts : Forest) (s : EbmlEncoder) (top : OpenTag) (rest : List OpenTag) (body0 bs : Bytes),
      s.mStack = top :: rest → childrenData s.closed top.children = .ok body0 →
      (∀ ref, Child.tag ref ∈ top.children → ref < s.nextRef) →
      ts.enc schema = .ok bs →
      ∃ s1, transformAll schema s ts.chunks = .ok (s1, []) ∧ Appended s s1 top rest body0 bs
  | .nil, s, top, rest, body0, bs, hstk, hbody, hrefs, henc => by
    simp only [Forest.enc] at henc
    cases henc
    refine ⟨s, rfl, top, hstk, rfl, rfl, rfl, rfl, ?_, hrefs, le_refl _, fun _ _ => rfl,
      rfl, rfl⟩
    rw [List.append_nil]
    exact hbody
  | .cons t ts, s, top, rest, body0, bs, hstk, hbody, hrefs, henc => by
    simp only [Forest.enc] at henc
    cases ht : t.enc schema with
    | error e => rw [ht] at henc; cases henc
    | ok b1 =>
      rw [ht] at henc
      simp only at henc
      cases hts : ts.enc schema with
      | error e => rw [hts] at henc; cases henc
      | ok b2 =>
        rw [hts] at henc
        simp only at henc
        cases henc
        obtain ⟨s1, hrun1, top1, hk1, hr1, hi1, hn1, he1, hb1, hf1, hx1, hl1, hbuf1, hck1⟩ :=
          tree_appended schema t s top rest body0 b1 hstk hbody hrefs ht
        obtain ⟨s2, hrun2, top2, hk2, hr2, hi2, hn2, he2, hb2, hf2, hx2, hl2, hbuf2, hck2⟩ :=
          forest_appended schema ts s1 top1 rest (body0 ++ b1) b2 hk1 hb1 hf1 hts
        refine ⟨s2, ?_, top2, hk2, hr2.trans hr1, hi2.trans hi1, hn2.trans hn1, he2.trans he1,
          ?_, hf2, le_trans hx1 hx2, ?_, hbuf2.trans hbuf1, hck2.trans hck1⟩
        · simp only [Forest.chunks]
          rw [transformAll_append, hrun1]
          simp only
          rw [hrun2]
          rfl
        · rw [hb2, List.append_assoc]
        · intro ref href
          rw [hl2 ref (by omega), hl1 ref href]
end

end EbmlEncoder
namespace EbmlDecoder

theorem readVint_at {B : Bytes} {c : Nat} {x rest : Bytes} {v : Vint} (hc : c ≤ B.length)
    (hd : B.drop c = x ++ rest) (hv : Tools.readVint x 0 = .ok (some v)) :
    Tools.readVint B c = .ok (some v) := by
  have h1 := Tools.readVint_drop B c 0 hc
  rw [Nat.add_zero] at h1
  rw [← h1, hd]
  exact Tools.readVint_append rest hv

theorem readHexString_at {B : Bytes} {c : Nat} {x rest : Bytes} (hd : B.drop c = x ++ rest) :
    Tools.readHexString B c (c + x.length) = x := by
  unfold Tools.readHexString
  rw [Nat.add_sub_cancel_left, hd, List.take_left']
  rfl

theorem getSchemaInfo_of_lookup {schema : Schema} {id : Bytes} {info : SchemaInfo}
    (h : schema.lookup id = some info) : getSchemaInfo schema id = info := by
  simp [getSchemaInfo, h]

theorem drop_add_of_append {B : Bytes} {c : Nat} {x rest : Bytes} (hd : B.drop c = x ++ rest) :
    B.drop (c + x.length) = rest := by
  rw [← List.drop_drop, hd, List.drop_left']
  rfl

theorem length_of_drop {B : Bytes} {c : Nat} {x : Bytes} (hc : c ≤ B.length)
    (hd : B.drop c = x) : B.length = c + x.length := by
  rw [← hd, List.length_drop]
  omega

/-- The three calls that read a leaf element: its ID, its size and its
payload. -/
theorem leaf_steps (schema : Schema) (s : EbmlDecoder) (B tail id size p : Bytes)
    (info : SchemaInfo) (v : Int)
    (hst : s.mState = .tag) (hb : s.mBuffer = some B) (hc : s.mCursor ≤ B.length)
    (hd : B.drop s.mCursor = id ++ (size ++ (p ++ tail)))
    (hid : Tools.readVint id 0 = .ok (some ⟨v, id.length⟩))
    (hlk : schema.lookup id = some info) (hty : info.type ≠ .master)
    (hsz : Tools.writeVint p.length = .ok size)
    (hval : ∀ h : TagObj, h.type = info.type → h.name = info.name →
      ∃ t, Tools.readDataFromTag h p = .ok t) :
    ∃ t, t.data = p ∧ t.tagObj.name = info.name ∧
      Steps schema s
        { mBuffer := some tail, mCursor := 0,
          mTotal := s.mTotal + (id.length + size.length + p.length : Nat), mState := .tag,
          mTagStack :=
            (closeEnded (s.mTotal + (id.length + size.length + p.length : Nat)) s.mTagStack).2 }
        (Event.tag t ::
          (closeEnded (s.mTotal + (id.length + size.length + p.length : Nat)) s.mTagStack).1) := by
  -- the ID
  have hlenB := length_of_drop hc hd
  simp only [List.length_append] at hlenB
  have hv1 := readVint_at hc hd hid
  have hx1 := readHexString_at hd
  have hinfo := getSchemaInfo_of_lookup hlk
  let h1 : TagObj :=
    { tag := v, tagStr := id, type := info.type, name := info.name, start := s.mTotal,
      «end» := s.mTotal + id.length, dataSize := none }
  let s1 : EbmlDecoder :=
    { mBuffer := some B, mCursor := s.mCursor + id.length, mTotal := s.mTotal + id.length,
      mState := .size, mTagStack := h1 :: s.mTagStack }
  have hid1 : 1 ≤ id.length := (Tools.readVint_bounds hid).1
  have step1 : step schema s = .ok (true, s1, []) := by
    rw [step_of_tag hst]
    unfold readTag
    simp only [hb]
    rw [if_neg (by omega), hv1]
    simp only [hx1, hinfo]
  -- the size
  have hd2 : B.drop s1.mCursor = size ++ (p ++ tail) := drop_add_of_append hd
  obtain ⟨size', hw1, _, hr1⟩ := Tools.writeVint_readVint p.length (by
    by_contra hcon
    unfold Tools.writeVint at hsz
    rw [if_pos (Or.inr (by push_cast; omega))] at hsz
    cases hsz)
  rw [hsz] at hw1
  cases hw1
  have hsz1 : 1 ≤ size.length := (Tools.readVint_bounds hr1).1
  have hv2 := readVint_at (c := s1.mCursor) (by simp only [s1]; omega) hd2 hr1
  let h2 : TagObj :=
    { h1 with dataSize := some (p.length : Int),
              «end» := h1.«end» + ((p.length : Int) + size.length) }
  let s2 : EbmlDecoder :=
    { mBuffer := some B, mCursor := s1.mCursor + size.length,
      mTotal := s1.mTotal + size.length, mState := .content, mTagStack := h2 :: s.mTagStack }
  have step2 : step schema s1 = .ok (true, s2, []) := by
    rw [step_of_size rfl]
    unfold readSize
    simp only [s1, hb]
    rw [if_neg (by omega)]
    simp only [s1] at hv2
    rw [hv2]
    simp only
    rw [if_neg (by omega)]
  -- the payload
  have hd3 : B.drop s2.mCursor = p ++ tail := drop_add_of_append hd2
  have hd4 : B.drop (s2.mCursor + p.length) = tail := drop_add_of_append hd3
  obtain ⟨t, ht⟩ := hval h2 rfl rfl
  have hdata : subarray B s2.mCursor ((s2.mCursor : Int) + (p.length : Int)) = p := by
    rw [subarray_of_le B _ _ (by omega) (by omega) (by simp only [s2, s1]; push_cast; omega)
      (by simp only [s2, s1]; push_cast; omega)]
    have e1 : ((s2.mCursor : Int)).toNat = s2.mCursor := by omega
    have e2 : ((s2.mCursor : Int) + (p.length : Int)).toNat - s2.mCursor = p.length := by omega
    rw [e1, e2, hd3, List.take_left']
    rfl
  have hrest : subarray B ((s2.mCursor : Int) + (p.length : Int)) B.length = tail := by
    rw [subarray_rest B _ (by omega) (by simp only [s2, s1]; push_cast; omega)]
    have e1 : ((s2.mCursor : Int) + (p.length : Int)).toNat = s2.mCursor + p.length := by omega
    rw [e1, hd4]
  have htot : s2.mTotal + (p.length : Int) =
      s.mTotal + (id.length + size.length + p.length : Nat) := by
    simp only [s2, s1]
    push_cast
    omega
  refine ⟨t, (Tools.readDataFromTag_fields ht).2, ?_, ?_⟩
  · rw [(Tools.readDataFromTag_fields ht).1]
  · have step3 : step schema s2 = .ok (true,
        { mBuffer := some tail, mCursor := 0,
          mTotal := s.mTotal + (id.length + size.length + p.length : Nat), mState := .tag,
          mTagStack :=
            (closeEnded (s.mTotal + (id.length + size.length + p.length : Nat)) s.mTagStack).2 },
        Event.tag t ::
          (closeEnded (s.mTotal + (id.length + size.length + p.length : Nat)) s.mTagStack).1) := by
      rw [step_of_content rfl]
      unfold readContent
      simp only [s2]
      rw [if_neg hty]
      simp only [s1, hb, h2]
      rw [if_neg (by push_cast; omega)]
      simp only [s2, s1] at hdata hrest htot
      rw [hdata, hrest, htot]
      simp only [h2, h1] at ht
      rw [ht]
    have := Steps.next step1 (Steps.next step2 (Steps.one step3))
    simpa using this

end EbmlDecoder
namespace EbmlEncoder

/-- The ID `getSchemaInfo` finds for a name is a key of the schema whose row
has that name. -/
theorem getSchemaInfo_lookup {schema : Schema} {name : String} {id : Bytes}
    (h : getSchemaInfo schema name = some id) :
    ∃ info, schema.lookup id = some info ∧ info.name = name := by
  unfold getSchemaInfo at h
  split at h
  · cases h
  · rename_i tagId hfind
    split_ifs at h
    cases h
    have := List.find?_some hfind
    simp only [decide_eq_true_eq] at this
    cases hl : schema.lookup id with
    | none => rw [hl] at this; cases this
    | some info =>
      rw [hl] at this
      simp only [Option.map_some', Option.some.injEq] at this
      exact ⟨info, rfl, this⟩

end EbmlEncoder

namespace EbmlDecoder

theorem Steps.trans {schema : Schema} {a b c : EbmlDecoder} {e1 e2 : List Event}
    (h1 : Steps schema a b e1) (h2 : Steps schema b c e2) : Steps schema a c (e1 ++ e2) := by
  induction h1 with
  | done d => simpa using h2
  | next hs _ ih =>
    rw [List.append_assoc]
    exact Steps.next hs (ih h2)

theorem ofLeaves_enc_cons {schema : Schema} {l : String × Bytes} {ls : List (String × Bytes)}
    {body : Bytes} (h : (Forest.ofLeaves (l :: ls)).enc schema = .ok body) :
    ∃ id size rest, EbmlEncoder.getSchemaInfo schema l.1 = some id ∧
      Tools.writeVint l.2.length = .ok size ∧ (Forest.ofLeaves ls).enc schema = .ok rest ∧
      body = id ++ (size ++ (l.2 ++ rest)) := by
  simp only [Forest.ofLeaves, Forest.enc, Tree.enc] at h
  cases hid : EbmlEncoder.getSchemaInfo schema l.1 with
  | none => rw [hid] at h; cases h
  | some id =>
    rw [hid] at h
    simp only at h
    cases hw : Tools.writeVint l.2.length with
    | error e => rw [hw] at h; cases h
    | ok size =>
      rw [hw] at h
      simp only at h
      cases hr : (Forest.ofLeaves ls).enc schema with
      | error e => rw [hr] at h; cases h
      | ok rest =>
        rw [hr] at h
        simp only at h
        cases h
        exact ⟨id, size, rest, rfl, rfl, rfl, by simp [List.append_assoc]⟩

/-- The calls that read the leaves of a master whose header is alone on the
stack: a `tag` event for each leaf, and the `end` event of the master after
the last one. -/
theorem leaves_steps (schema : Schema) :
    ∀ (leaves : List (String × Bytes)), leaves ≠ [] →
      ∀ (s : EbmlDecoder) (B tail body : Bytes) (h0 : TagObj),
        s.mState = .tag → s.mBuffer = some B → s.mCursor ≤ B.length →
        B.drop s.mCursor = body ++ tail → s.mTagStack = [h0] →
        h0.«end» = s.mTotal + body.length →
        (∀ l ∈ leaves, LeafOk schema l) →
        (Forest.ofLeaves leaves).enc schema = .ok body →
        ∃ tags : List TagData,
          tags.map (fun t => (t.tagObj.name, t.data)) = leaves ∧
          Steps schema s
            { mBuffer := some tail, mCursor := 0, mTotal := h0.«end», mState := .tag,
              mTagStack := [] }
            (tags.map Event.tag ++ [Event.«end» h0]) := by
  intro leaves
  induction leaves with
  | nil => intro h; exact absurd rfl h
  | cons l ls ih =>
    intro _ s B tail body h0 hst hb hc hd hstk hend hok henc
    obtain ⟨id, size, rest, hid, hw, hrest, hbody⟩ := ofLeaves_enc_cons henc
    obtain ⟨id', info, v, hid', hlk, hty, hrv, hval⟩ := hok l (List.mem_cons_self _ _)
    rw [hid] at hid'
    cases hid'
    obtain ⟨info', hlk', hname⟩ := EbmlEncoder.getSchemaInfo_lookup hid
    rw [hlk] at hlk'
    cases hlk'
    have hd' : B.drop s.mCursor = id ++ (size ++ (l.2 ++ (rest ++ tail))) := by
      rw [hd, hbody]
      simp [List.append_assoc]
    obtain ⟨t, ht1, ht2, hsteps⟩ :=
      leaf_steps schema s B (rest ++ tail) id size l.2 info v hst hb hc hd' hrv hlk hty hw hval
    have hblen : body.length = id.length + size.length + l.2.length + rest.length := by
      rw [hbody]
      simp only [List.length_append]
      omega
    rw [hstk] at hsteps
    cases ls with
    | nil =>
      simp only [Forest.ofLeaves, Forest.enc] at hrest
      cases hrest
      have hclose : closeEnded (s.mTotal + (id.length + size.length + l.2.length : Nat)) [h0] =
          ([Event.«end» h0], []) := by
        simp only [closeEnded]
        rw [if_neg (by rw [hend, hblen]; simp only [List.length_nil]; push_cast; omega)]
      rw [hclose] at hsteps
      refine ⟨[t], ?_, ?_⟩
      · simp only [List.map_cons, List.map_nil, ht1, ht2, hname]
      · have htot : s.mTotal + (id.length + size.length + l.2.length : Nat) = h0.«end» := by
          rw [hend, hblen]
          simp only [List.length_nil]
          push_cast
          omega
        rw [htot] at hsteps
        simpa using hsteps
    | cons l2 ls2 =>
      have hrest1 : 1 ≤ rest.length := by
        obtain ⟨id2, size2, rest2, hid2, _, _, hb2⟩ := ofLeaves_enc_cons hrest
        obtain ⟨id2', _, v2, hid2', _, _, hrv2, _⟩ :=
          hok l2 (List.mem_cons_of_mem _ (List.mem_cons_self _ _))
        rw [hid2] at hid2'
        cases hid2'
        have := (Tools.readVint_bounds hrv2).1
        rw [hb2]
        simp only [List.length_append]
        simp only at this
        omega
      have hclose : closeEnded (s.mTotal + (id.length + size.length + l.2.length : Nat)) [h0] =
          ([], [h0]) := by
        simp only [closeEnded]
        rw [if_pos (by rw [hend, hblen]; push_cast; omega)]
      rw [hclose] at hsteps
      obtain ⟨tags, htags, hsteps2⟩ := ih (by simp)
        { mBuffer := some (rest ++ tail), mCursor := 0,
          mTotal := s.mTotal + (id.length + size.length + l.2.length : Nat), mState := .tag,
          mTagStack := [h0] }
        (rest ++ tail) tail rest h0 rfl rfl (by simp) (by simp) rfl
        (by rw [hend, hblen]; push_cast; omega)
        (fun x hx => hok x (List.mem_cons_of_mem _ hx)) hrest
      refine ⟨t :: tags, ?_, ?_⟩
      · simp only [List.map_cons, ht1, ht2, hname, htags]
      · have := hsteps.trans hsteps2
        simpa using this

end EbmlDecoder
namespace EbmlDecoder

/-- Decoding the encoding of a master of known size that holds leaves: a
`start` event, a `tag` event for each leaf, and the `end` event. -/
theorem decode_flat (schema : Schema) (rname : String) (e : Option Int)
    (leaves : List (String × Bytes)) (bs : Bytes) (he : e ≠ some (-1)) (hne : leaves ≠ [])
    (hroot : RootOk schema rname) (hok : ∀ l ∈ leaves, LeafOk schema l)
    (henc : (Tree.master rname e (Forest.ofLeaves leaves)).enc schema = .ok bs) :
    ∃ (h0 : TagObj) (tags : List TagData) (d : EbmlDecoder),
      h0.name = rname ∧ h0.«end» ≠ -1 ∧
      tags.map (fun t => (t.tagObj.name, t.data)) = leaves ∧
      feed schema fresh [bs] =
        .ok (d, Event.start h0 :: (tags.map Event.tag ++ [Event.«end» h0])) ∧
      d.mTagStack = [] ∧ d.mTotal = bs.length := by
  obtain ⟨rid, info, v, hid, hlk, hty, hrv⟩ := hroot
  obtain ⟨info', hlk', hname⟩ := EbmlEncoder.getSchemaInfo_lookup hid
  rw [hlk] at hlk'
  cases hlk'
  simp only [Tree.enc, hid] at henc
  cases hbody : (Forest.ofLeaves leaves).enc schema with
  | error err => rw [hbody] at henc; cases henc
  | ok body =>
    rw [hbody] at henc
    simp only [sizeHeader] at henc
    rw [if_neg he] at henc
    cases hw : Tools.writeVint body.length with
    | error err => rw [hw] at henc; cases henc
    | ok size =>
      rw [hw] at henc
      simp only at henc
      cases henc
      -- the decoder with the chunk in its buffer
      let B : Bytes := rid ++ size ++ body
      let s0 : EbmlDecoder := append fresh B
      have hs0 : s0 =
          { mBuffer := some B, mTagStack := [], mState := .tag, mCursor := 0, mTotal := 0 } :=
        rfl
      have hrid1 : 1 ≤ rid.length := (Tools.readVint_bounds hrv).1
      have hd0 : B.drop 0 = rid ++ (size ++ body) := by
        simp [B, List.append_assoc]
      -- the ID of the master
      have hv1 : Tools.readVint B 0 = .ok (some ⟨v, rid.length⟩) :=
        readVint_at (Nat.zero_le _) hd0 hrv
      have hx1 : Tools.readHexString B 0 (0 + rid.length) = rid := readHexString_at hd0
      have hinfo := getSchemaInfo_of_lookup hlk
      let h1 : TagObj :=
        { tag := v, tagStr := rid, type := info.type, name := info.name, start := 0,
          «end» := 0 + rid.length, dataSize := none }
      let s1 : EbmlDecoder :=
        { mBuffer := some B, mCursor := 0 + rid.length, mTotal := 0 + rid.length,
          mState := .size, mTagStack := [h1] }
      have hBlen : B.length = rid.length + size.length + body.length := by
        simp only [B, List.length_append]
      have step1 : step schema s0 = .ok (true, s1, []) := by
        rw [step_of_tag rfl]
        unfold readTag
        simp only [hs0]
        rw [if_neg (by omega), hv1]
        simp only [hx1, hinfo]
      -- its size
      have hd1 : B.drop s1.mCursor = size ++ body := by
        have := drop_add_of_append hd0
        simpa [s1] using this
      obtain ⟨size', hw1, _, hr1⟩ := Tools.writeVint_readVint body.length (by
        by_contra hcon
        unfold Tools.writeVint at hw
        rw [if_pos (Or.inr (by push_cast; omega))] at hw
        cases hw)
      rw [hw] at hw1
      cases hw1
      have hsz1 : 1 ≤ size.length := (Tools.readVint_bounds hr1).1
      have hv2 := readVint_at (c := s1.mCursor) (by simp only [s1]; omega) hd1 hr1
      let h2 : TagObj :=
        { h1 with dataSize := some (body.length : Int),
                  «end» := h1.«end» + ((body.length : Int) + size.length) }
      let s2 : EbmlDecoder :=
        { mBuffer := some B, mCursor := s1.mCursor + size.length,
          mTotal := s1.mTotal + size.length, mState := .content, mTagStack := [h2] }
      have hblen1 : 1 ≤ body.length := by
        cases leaves with
        | nil => exact absurd rfl hne
        | cons l ls =>
          obtain ⟨id2, size2, rest2, hid2, _, _, hb2⟩ := ofLeaves_enc_cons hbody
          obtain ⟨id2', _, v2, hid2', _, _, hrv2, _⟩ := hok l (List.mem_cons_self _ _)
          rw [hid2] at hid2'
          cases hid2'
          have := (Tools.readVint_bounds hrv2).1
          rw [hb2]
          simp only [List.length_append]
          simp only at this
          omega
      have step2 : step schema s1 = .ok (true, s2, []) := by
        rw [step_of_size rfl]
        unfold readSize
        simp only [s1]
        rw [if_neg (by omega)]
        simp only [s1] at hv2
        rw [hv2]
        simp only
        rw [if_neg (by omega)]
      -- the `start` event
      let s3 : EbmlDecoder := { s2 with mState := .tag }
      have step3 : step schema s2 = .ok (true, s3, [Event.start h2]) := by
        rw [step_of_content rfl]
        unfold readContent
        simp only [s2]
        rw [if_pos hty]
      -- the leaves
      have hd3 : B.drop s3.mCursor = body ++ [] := by
        have := drop_add_of_append hd1
        simpa [s3, s2] using this
      obtain ⟨tags, htags, hsteps⟩ := leaves_steps schema leaves hne s3 B [] body h2 rfl rfl
        (by simp only [s3, s2, s1]; omega) hd3 rfl
        (by simp only [h2, h1, s3, s2, s1]; omega) hok hbody
      -- the end of the loop
      let s4 : EbmlDecoder :=
        { mBuffer := some [], mCursor := 0, mTotal := h2.«end», mState := .tag, mTagStack := [] }
      have hwait : step schema s4 = .ok (false, s4, []) := by
        rw [step_of_tag rfl]
        simp [readTag, s4]
      have hall := (Steps.next step1 (Steps.next step2 (Steps.next step3 hsteps))).runs
        (Runs.waits hwait)
      have hrun := transform_runs (fresh_resting schema) B
      have heq := hrun.unique hall
      refine ⟨h2, tags, s4, hname, ?_, htags, ?_, rfl, ?_⟩
      · simp only [h2, h1]
        omega
      · rw [feed_single, heq]
        simp [prepend]
      · simp only [s4, h2, h1, hBlen]
        push_cast
        omega

end EbmlDecoder
namespace EbmlEncoder

theorem feed_append (schema : Schema) (a b : List Chunk) :
    ∀ s, feed schema s (a ++ b) =
      match feed schema s a with
      | .error e => .error e
      | .ok (s1, out1) =>
        match feed schema s1 b with
        | .error e => .error e
        | .ok (s2, out2) => .ok (s2, out1 ++ out2) := by
  induction a with
  | nil =>
    intro s
    simp only [List.nil_append, feed]
    cases feed schema s b with
    | error e => rfl
    | ok p => simp
  | cons c cs ih =>
    intro s
    simp only [List.cons_append, feed, List.append_eq]
    cases write schema s c with
    | error e => rfl
    | ok p =>
      obtain ⟨s1, out1⟩ := p
      simp only
      rw [ih s1]
      cases feed schema s1 cs with
      | error e => rfl
      | ok p2 =>
        obtain ⟨s2, out2⟩ := p2
        simp only
        cases feed schema s2 b with
        | error e => rfl
        | ok p3 => simp [List.append_assoc]

end EbmlEncoder
theorem enc_known_end (schema : Schema) (name : String) (e e1 : Option Int) (f : Forest)
    (he : e ≠ some (-1)) (he1 : e1 ≠ some (-1)) :
    (Tree.master name e f).enc schema = (Tree.master name e1 f).enc schema := by
  simp only [Tree.enc, sizeHeader, if_neg he, if_neg he1]

theorem ofLeaves_chunks (leaves : List (String × Bytes)) :
    (Forest.ofLeaves leaves).chunks =
      leaves.map (fun l => ("tag", { name := l.1, data := some l.2, «end» := none })) := by
  induction leaves with
  | nil => rfl
  | cons l ls ih => simp [Forest.ofLeaves, Forest.chunks, Tree.chunks, ih]

theorem sample_root_ok : RootOk sampleSchema "EBML" :=
  ⟨[0x1a, 0x45, 0xdf, 0xa3], { type := .master, name := "EBML" }, 0x0a45dfa3,
    by rfl, by rfl, by rfl, by rfl⟩

theorem sample_leaves_ok : ∀ l ∈ sampleLeaves, LeafOk sampleSchema l := by
  intro l hl
  simp only [sampleLeaves, List.mem_singleton] at hl
  subst hl
  refine ⟨[0x42, 0x86], { type := .unsigned, name := "EBMLVersion" }, 0x0286,
    by rfl, by rfl, by decide, by rfl, ?_⟩
  intro h ht hn
  simp only at ht hn
  simp [Tools.readDataFromTag, ht, hn]

/-! ## Claims on the vint codec -/

namespace Tools

theorem vintLength_range (L b0 : Nat) (h1 : 1 ≤ L) (h8 : L ≤ 8) (hlo : 2 ^ (8 - L) ≤ b0)
    (hhi : b0 < 2 ^ (9 - L)) : vintLength b0 = L ∧ b0 % 2 ^ (8 - L) = b0 - 2 ^ (8 - L) := by
  have hL : L = 1 ∨ L = 2 ∨ L = 3 ∨ L = 4 ∨ L = 5 ∨ L = 6 ∨ L = 7 ∨ L = 8 := by omega
  unfold vintLength
  rcases hL with rfl | rfl | rfl | rfl | rfl | rfl | rfl | rfl <;>
    norm_num at hlo hhi ⊢ <;> refine ⟨?_, ?_⟩ <;> (try split_ifs) <;> omega

end Tools

/-- C16: a buffer that holds, from the offset `o`, a first byte `b0` with
`L - 1` leading zero bits and the marker bit, and `L - 1` further bytes, the
number they encode being at most `2^53`: `readVint(buffer, o)` returns the
length `L` and the big-endian number made of the bits of `b0` after the marker
and of the further bytes, whatever the bytes before `o` and after the vint. -/
theorem readVint_value (pre rest post : Bytes) (b0 L : Nat) (h1 : 1 ≤ L) (h8 : L ≤ 8)
    (hlen : rest.length = L - 1) (hlo : 2 ^ (8 - L) ≤ b0) (hhi : b0 < 2 ^ (9 - L))
    (hmag : Tools.beValue ((b0 - 2 ^ (8 - L)) :: rest) ≤ 2 ^ 53) :
    Tools.readVint (pre ++ (b0 :: rest) ++ post) pre.length =
      .ok (some ⟨(Tools.beValue ((b0 - 2 ^ (8 - L)) :: rest) : Nat), L⟩) := by
  obtain ⟨hvl, hmod⟩ := Tools.vintLength_range L b0 h1 h8 hlo hhi
  have hcons := Tools.readVint_cons b0 rest L hvl h8 (by omega)
  rw [hmod, ← hlen, List.take_length, if_neg (by omega)] at hcons
  have hd : (pre ++ (b0 :: rest) ++ post).drop pre.length = (b0 :: rest) ++ post := by
    rw [List.append_assoc, List.drop_left']
    rfl
  exact EbmlDecoder.readVint_at (by simp) hd hcons

/-- C16 on the test with a non-zero start: `00 81` read from the offset 1. -/
theorem readVint_value_witness :
    Tools.readVint ([0x00] ++ [0x81] ++ []) 1 = .ok (some ⟨1, 1⟩) :=
  readVint_value [0x00] [] [] 0x81 1 (by decide) (by decide) (by rfl) (by decide) (by decide)
    (by decide)
namespace Tools

/-- The bytes `writeVint` produces for a value up to `2^53`, by length class. -/
theorem writeVint_shape (v : Nat) (hv : v ≤ 2 ^ 53) :
    ∃ b0 rest, writeVint v = .ok (b0 :: rest) ∧ rest.length + 1 = writeLength v ∧
      2 ^ (8 - writeLength v) ≤ b0 ∧ b0 < 2 ^ (9 - writeLength v) ∧
      beValue ((b0 - 2 ^ (8 - writeLength v)) :: rest) = v ∧ ∀ b ∈ rest, b < 256 := by
  have h0 : ¬ ((v : Int) < 0 ∨ (2 : Int) ^ 53 < v) := by
    push_cast
    omega
  unfold writeVint
  rw [if_neg h0]
  simp only [Int.toNat_ofNat]
  unfold writeLength
  split_ifs with h1 h2 h3 h4 h5 h6 h7
  · rw [toBytesBE_1]
    have hb : v % 256 < 2 ^ 7 := by norm_num; omega
    refine ⟨_, _, rfl, rfl, ?_, ?_, ?_, ?_⟩
    · rw [lor_marker _ 7 hb]; omega
    · rw [lor_marker _ 7 hb]; norm_num at hb ⊢; omega
    · rw [lor_marker _ 7 hb]; simp [beValue]; omega
    · simp
  · rw [toBytesBE_2]
    have hb : v / 256 % 256 < 2 ^ 6 := by norm_num; omega
    refine ⟨_, _, rfl, rfl, ?_, ?_, ?_, ?_⟩
    · rw [lor_marker _ 6 hb]; omega
    · rw [lor_marker _ 6 hb]; norm_num at hb ⊢; omega
    · rw [lor_marker _ 6 hb]; simp [beValue]; omega
    · simp; omega
  · rw [toBytesBE_3]
    have hb : v / 65536 % 256 < 2 ^ 5 := by norm_num; omega
    refine ⟨_, _, rfl, rfl, ?_, ?_, ?_, ?_⟩
    · rw [lor_marker _ 5 hb]; omega
    · rw [lor_marker _ 5 hb]; norm_num at hb ⊢; omega
    · rw [lor_marker _ 5 hb]; simp [beValue]; omega
    · simp; omega
  · rw [toBytesBE_4]
    have hb : v / 16777216 % 256 < 2 ^ 4 := by norm_num; omega
    refine ⟨_, _, rfl, rfl, ?_, ?_, ?_, ?_⟩
    · rw [lor_marker _ 4 hb]; omega
    · rw [lor_marker _ 4 hb]; norm_num at hb ⊢; omega
    · rw [lor_marker _ 4 hb]; simp [beValue]; omega
    · simp; omega
  · rw [toBytesBE_5]
    have hb : v / 4294967296 % 256 < 2 ^ 3 := by norm_num; omega
    refine ⟨_, _, rfl, rfl, ?_, ?_, ?_, ?_⟩
    · rw [lor_marker _ 3 hb]; omega
    · rw [lor_marker _ 3 hb]; norm_num at hb ⊢; omega
    · rw [lor_marker _ 3 hb]; simp [beValue]; omega
    · simp; omega
  · rw [toBytesBE_6]
    have hb : v / 1099511627776 % 256 < 2 ^ 2 := by norm_num; omega
    refine ⟨_, _, rfl, rfl, ?_, ?_, ?_, ?_⟩
    · rw [lor_marker _ 2 hb]; omega
    · rw [lor_marker _ 2 hb]; norm_num at hb ⊢; omega
    · rw [lor_marker _ 2 hb]; simp [beValue]; omega
    · simp; omega
  · rw [toBytesBE_7]
    have hb : v / 281474976710656 % 256 < 2 ^ 1 := by norm_num; omega
    refine ⟨_, _, rfl, rfl, ?_, ?_, ?_, ?_⟩
    · rw [lor_marker _ 1 hb]; omega
    · rw [lor_marker _ 1 hb]; norm_num at hb ⊢; omega
    · rw [lor_marker _ 1 hb]; simp [beValue]; omega
    · simp; omega
  · rw [toBytesBE_8]
    have hb : v / 72057594037927936 % 256 < 2 ^ 0 := by norm_num; omega
    refine ⟨_, _, rfl, rfl, ?_, ?_, ?_, ?_⟩
    · rw [lor_marker _ 0 hb]; omega
    · rw [lor_marker _ 0 hb]; norm_num at hb ⊢; omega
    · rw [lor_marker _ 0 hb]; simp [beValue]; omega
    · simp; omega

/-- The length class of `writeVint` is the least `L` from 1 to 8 with
`v < 2^(7L) - 1`. -/
theorem writeLength_least (v : Nat) (hv : v ≤ 2 ^ 53) :
    1 ≤ writeLength v ∧ writeLength v ≤ 8 ∧ v < 2 ^ (7 * writeLength v) - 1 ∧
      ∀ L, 1 ≤ L → L < writeLength v → ¬ v < 2 ^ (7 * L) - 1 := by
  unfold writeLength
  split_ifs with h1 h2 h3 h4 h5 h6 h7
  all_goals refine ⟨by omega, by omega, ?_, ?_⟩
  all_goals first
    | (norm_num at *; omega)
    | (intro L hL1 hL2
       have hL : L = 1 ∨ L = 2 ∨ L = 3 ∨ L = 4 ∨ L = 5 ∨ L = 6 ∨ L = 7 := by omega
       rcases hL with rfl | rfl | rfl | rfl | rfl | rfl | rfl <;> norm_num at * <;> omega)

end Tools

/-- C17: for every `v` from 0 to `2^53`, `writeVint(v)` has the length `L`
that is the least one from 1 to 8 with `v < 2^(7L) - 1`; its first byte has
the marker bit `1 << (8 - L)` set and every higher bit clear, and the bits
after the marker followed by the other bytes are `v`, most significant byte
first. -/
theorem writeVint_minimal (v : Nat) (hv : v ≤ 2 ^ 53) :
    ∃ L b0 rest, Tools.writeVint v = .ok (b0 :: rest) ∧ rest.length + 1 = L ∧
      1 ≤ L ∧ L ≤ 8 ∧ v < 2 ^ (7 * L) - 1 ∧ (∀ K, 1 ≤ K → K < L → ¬ v < 2 ^ (7 * K) - 1) ∧
      2 ^ (8 - L) ≤ b0 ∧ b0 < 2 ^ (9 - L) ∧
      Tools.beValue ((b0 - 2 ^ (8 - L)) :: rest) = v ∧ ∀ b ∈ rest, b < 256 := by
  obtain ⟨b0, rest, hw, hlen, hlo, hhi, hval, hb⟩ := Tools.writeVint_shape v hv
  obtain ⟨h1, h8, hfit, hleast⟩ := Tools.writeLength_least v hv
  exact ⟨Tools.writeLength v, b0, rest, hw, hlen, h1, h8, hfit, hleast, hlo, hhi, hval, hb⟩

/-- C17 on a value of the tests: `2^14 - 1` takes three bytes. -/
theorem writeVint_minimal_witness :
    (2 ^ 14 - 1 ≤ 2 ^ 53) ∧
    ∃ L b0 rest, Tools.writeVint ((2 ^ 14 - 1 : Nat) : Int) = .ok (b0 :: rest) ∧
      rest.length + 1 = L ∧ 1 ≤ L ∧ L ≤ 8 ∧ 2 ^ 14 - 1 < 2 ^ (7 * L) - 1 ∧
      (∀ K, 1 ≤ K → K < L → ¬ 2 ^ 14 - 1 < 2 ^ (7 * K) - 1) ∧
      2 ^ (8 - L) ≤ b0 ∧ b0 < 2 ^ (9 - L) ∧
      Tools.beValue ((b0 - 2 ^ (8 - L)) :: rest) = 2 ^ 14 - 1 ∧ ∀ b ∈ rest, b < 256 :=
  ⟨by norm_num, writeVint_minimal (2 ^ 14 - 1) (by norm_num)⟩

/-- C18 fails: the one-byte vint whose value bits are all 1, `FF`, is read as
the number 127, which is what the test on all one-byte ints asserts; so are
the all-ones vints of two and of seven bytes read as numbers. -/
theorem readVint_all_ones_finite :
    Tools.readVint [0xff] 0 = .ok (some ⟨127, 1⟩) ∧
    Tools.readVint [0x7f, 0xff] 0 = .ok (some ⟨16383, 2⟩) ∧
    Tools.readVint [0x03, 0xff, 0xff, 0xff, 0xff, 0xff, 0xff] 0 =
      .ok (some ⟨2 ^ 49 - 1, 7⟩) ∧
    ¬ ∀ L, 1 ≤ L → L ≤ 8 → Tools.readVint (Tools.allOnes L) 0 = .ok (some ⟨-1, L⟩) := by
  refine ⟨by rfl, by rfl, by rfl, ?_⟩
  intro h
  have h1 := h 1 (by decide) (by decide)
  have h2 : Tools.readVint (Tools.allOnes 1) 0 = .ok (some ⟨127, 1⟩) := by rfl
  rw [h2] at h1
  cases h1

/-- C18 as the code has it: for every length `L` from 1 to 8, the `L`-byte
vint whose value bits are all 1 is read with the length `L`; its value is the
number `2^(7L) - 1` for `L` up to 7 and the sentinel `-1` for `L = 8`. -/
theorem readVint_all_ones (L : Nat) (h1 : 1 ≤ L) (h8 : L ≤ 8) :
    Tools.readVint (Tools.allOnes L) 0 =
      .ok (some ⟨if L = 8 then -1 else 2 ^ (7 * L) - 1, L⟩) := by
  have hL : L = 1 ∨ L = 2 ∨ L = 3 ∨ L = 4 ∨ L = 5 ∨ L = 6 ∨ L = 7 ∨ L = 8 := by omega
  rcases hL with rfl | rfl | rfl | rfl | rfl | rfl | rfl | rfl <;> rfl

/-- C18 on the eight-byte pattern `01 FF FF FF FF FF FF FF`. -/
theorem readVint_all_ones_witness :
    Tools.allOnes 8 = [0x01, 0xff, 0xff, 0xff, 0xff, 0xff, 0xff, 0xff] ∧
    Tools.readVint (Tools.allOnes 8) 0 = .ok (some ⟨if 8 = 8 then -1 else 2 ^ (7 * 8) - 1, 8⟩) :=
  ⟨by rfl, readVint_all_ones 8 (by decide) (by decide)⟩

/-- C19 fails: `2^53 + 2` is not negative and is below `2^56 - 1`, the
largest number eight vint bytes hold, and `writeVint` refuses it. -/
theorem writeVint_above_safe_fails :
    (0 : Int) ≤ 2 ^ 53 + 2 ∧ (2 ^ 53 + 2 : Int) < 2 ^ 56 - 1 ∧
    Tools.writeVint (2 ^ 53 + 2) = .error .unrepresentableValue := by
  refine ⟨by norm_num, by norm_num, by rfl⟩

/-- C19 as the code has it: `writeVint(v)` fails with `Unrepresentable value`
exactly when `v` is negative or above `2^53`, and returns bytes exactly when
`0 ≤ v ≤ 2^53`. -/
theorem writeVint_rejects (v : Int) :
    (Tools.writeVint v = .error .unrepresentableValue ↔ v < 0 ∨ 2 ^ 53 < v) ∧
    ((∃ bs, Tools.writeVint v = .ok bs) ↔ 0 ≤ v ∧ v ≤ 2 ^ 53) := by
  by_cases h : v < 0 ∨ 2 ^ 53 < v
  · have he : Tools.writeVint v = .error .unrepresentableValue := by
      unfold Tools.writeVint
      rw [if_pos h]
    refine ⟨⟨fun _ => h, fun _ => he⟩, ⟨?_, ?_⟩⟩
    · rintro ⟨bs, hbs⟩
      rw [he] at hbs
      cases hbs
    · intro hv
      omega
  · have hv : 0 ≤ v ∧ v ≤ 2 ^ 53 := by omega
    obtain ⟨n, rfl⟩ := Int.eq_ofNat_of_zero_le hv.1
    obtain ⟨bs, hbs, -⟩ := Tools.writeVint_readVint n (by exact_mod_cast hv.2)
    refine ⟨⟨?_, fun h2 => absurd h2 h⟩, ⟨fun _ => hv, fun _ => ⟨bs, hbs⟩⟩⟩
    intro he
    rw [hbs] at he
    cases he

/-- C19 on the values of the tests: `-1` and `2^56 + 1` fail, 0 and `2^53`
are written. -/
theorem writeVint_rejects_witness :
    Tools.writeVint (-1) = .error .unrepresentableValue ∧
    Tools.writeVint (2 ^ 56 + 1) = .error .unrepresentableValue ∧
    (∃ bs, Tools.writeVint 0 = .ok bs) ∧ (∃ bs, Tools.writeVint (2 ^ 53) = .ok bs) :=
  ⟨(writeVint_rejects (-1)).1.2 (by decide), (writeVint_rejects (2 ^ 56 + 1)).1.2 (by decide),
    (writeVint_rejects 0).2.2 (by decide), (writeVint_rejects (2 ^ 53)).2.2 (by decide)⟩

/-- C20: when the byte at the offset `o` is `00`, `readVint(buffer, o)` fails
with `Unrepresentable length`, whatever the other bytes and however many there
are; when the byte at `o` is not zero, or there is none, it raises no error. -/
theorem readVint_no_marker (buffer : Bytes) (o : Nat) :
    (buffer.get? o = some 0 → Tools.readVint buffer o = .error .unrepresentableLength) ∧
    (∀ b, buffer.get? o = some b → b ≠ 0 → ∀ e, Tools.readVint buffer o ≠ .error e) ∧
    (buffer.get? o = none → Tools.readVint buffer o = .ok none) := by
  refine ⟨?_, ?_, ?_⟩
  · intro h
    unfold Tools.readVint
    rw [h]
    rfl
  · intro b h hb e
    have h8 : Tools.vintLength b ≤ 8 := by
      unfold Tools.vintLength
      split_ifs <;> omega
    unfold Tools.readVint
    rw [h]
    simp only
    rw [if_neg (by omega)]
    split_ifs <;> simp
  · intro h
    unfold Tools.readVint
    rw [h]

/-- C20 on the buffer of the test, `00 80 00 00 00 00 00 FF FF`. -/
theorem readVint_no_marker_witness :
    Tools.readVint [0x00, 0x80, 0x00, 0x00, 0x00, 0x00, 0x00, 0xff, 0xff] 0 =
      .error .unrepresentableLength ∧
    Tools.readVint [0x00] 0 = .error .unrepresentableLength ∧
    ∀ e, Tools.readVint [0x01] 0 ≠ .error e :=
  ⟨(readVint_no_marker [0x00, 0x80, 0x00, 0x00, 0x00, 0x00, 0x00, 0xff, 0xff] 0).1 (by rfl),
    (readVint_no_marker [0x00] 0).1 (by rfl),
    (readVint_no_marker [0x01] 0).2.1 1 (by rfl) (by decide)⟩
/-! ## Claims on the encoder -/

namespace EbmlEncoder

theorem writeTag_outcome (schema : Schema) (s : EbmlEncoder) (tagName : String)
    (tagData : Option Bytes) :
    writeTag schema s tagName tagData = (writeTagOutcome schema s tagName tagData).result := by
  unfold writeTag writeTagOutcome
  cases getSchemaInfo schema tagName with
  | none => rfl
  | some tagId =>
    cases tagData with
    | none => rfl
    | some payload =>
      simp only
      cases encodeTag tagId payload none with
      | error e => rfl
      | ok data =>
        cases s.mStack with
        | nil => rfl
        | cons top rest => rfl

theorem startTag_outcome (schema : Schema) (s : EbmlEncoder) (tagName : String)
    (e : Option Int) :
    startTag schema s tagName e = (startTagOutcome schema s tagName e).result := by
  unfold startTag startTagOutcome
  cases getSchemaInfo schema tagName with
  | none => rfl
  | some tagId =>
    simp only
    cases s.mStack with
    | nil => rfl
    | cons top rest => rfl

theorem lookup_mem {schema : Schema} {key : Bytes} {info : SchemaInfo}
    (h : schema.lookup key = some info) : (key, info) ∈ schema := by
  induction schema with
  | nil => cases h
  | cons x xs ih =>
    obtain ⟨k, v⟩ := x
    rw [List.lookup_cons] at h
    cases hk : key == k with
    | true =>
      rw [hk] at h
      cases h
      have : key = k := by simpa using hk
      rw [this]
      exact List.mem_cons_self _ _
    | false =>
      rw [hk] at h
      exact List.mem_cons_of_mem _ (ih h)

theorem getSchemaInfo_absent {schema : Schema} {name : String}
    (h : ∀ row ∈ schema, row.2.name ≠ name) : getSchemaInfo schema name = none := by
  unfold getSchemaInfo
  have : (schema.map Prod.fst).find?
      (fun key => (schema.lookup key).map SchemaInfo.name = some name) = none := by
    rw [List.find?_eq_none]
    intro key _
    simp only [decide_eq_true_eq]
    intro hk
    cases hl : schema.lookup key with
    | none => rw [hl] at hk; cases hk
    | some info =>
      rw [hl] at hk
      simp only [Option.map_some', Option.some.injEq] at hk
      exact h (key, info) (lookup_mem hl) hk
  rw [this]

end EbmlEncoder

namespace Tools

theorem writeVint_error {v : Int} {e : EncodeError} (h : writeVint v = .error e) :
    e = .unrepresentableValue := by
  by_cases hc : v < 0 ∨ 2 ^ 53 < v
  · unfold writeVint at h
    rw [if_pos hc] at h
    cases h
    rfl
  · have hv : 0 ≤ v ∧ v ≤ 2 ^ 53 := by omega
    obtain ⟨n, rfl⟩ := Int.eq_ofNat_of_zero_le hv.1
    obtain ⟨bs, hbs, -⟩ := writeVint_readVint n (by exact_mod_cast hv.2)
    rw [hbs] at h
    cases h

end Tools
/-! ## What the encoder delivers -/

/-- C10 on `sampleTree`, the tree of the pipeline test: its tree encoding is
`sampleBytes`; its events written to a fresh encoder deliver nothing before the
`end` event of the root and one chunk at it, and this chunk is empty.  The
encoding is kept as the `data` of the tag object, and `endTag` hands
`tag.data.buffer`, which is `undefined`, to `bufferAndFlush`. -/
theorem tree_encoding_not_delivered :
    sampleTree.enc sampleSchema = .ok sampleBytes ∧
    (EbmlEncoder.feed sampleSchema EbmlEncoder.fresh sampleTree.chunks.dropLast).map Prod.snd =
      .ok [] ∧
    ∃ s, EbmlEncoder.feed sampleSchema EbmlEncoder.fresh sampleTree.chunks = .ok (s, [[]]) ∧
      s.closed = [(0, sampleBytes)] ∧ ([[]] : List Bytes) ≠ [sampleBytes] :=
  ⟨by rfl, by rfl, _, by rfl, by rfl, by decide⟩

/-- C2 on the bytes of the pipeline test: the decoder turns `sampleBytes` into
three events, and the encoder, given these events, delivers one empty chunk
and not `sampleBytes`. -/
theorem pipeline_output_empty :
    ∃ d events, EbmlDecoder.feed sampleSchema EbmlDecoder.fresh [sampleBytes] = .ok (d, events) ∧
      events.length = 3 ∧
      (EbmlEncoder.feed sampleSchema EbmlEncoder.fresh (events.map toChunk)).map Prod.snd =
        .ok [[]] ∧
      ([[]] : List Bytes) ≠ [sampleBytes] :=
  ⟨_, _, by rfl, by rfl, by rfl, by decide⟩

/-- C4 on the events of the second pipeline test: the encoder, given
`clusterChunks`, delivers one empty chunk, and the decoder, given this chunk,
pushes no event: the `start` event with `end = -1` does not come back. -/
theorem round_trip_output_empty :
    (EbmlEncoder.feed sampleSchema EbmlEncoder.fresh clusterChunks).map Prod.snd = .ok [[]] ∧
    (EbmlDecoder.feed sampleSchema EbmlDecoder.fresh [[]]).map Prod.snd = .ok [] ∧
    (([] : List Event).map toChunk).map essence ≠ clusterChunks.map essence :=
  ⟨by rfl, by rfl, by decide⟩

/-- C11 on the `start` and `end` events of a `Cluster` with `end = -1`:
`encodeTag` builds `1F 43 B6 75 01 FF FF FF FF FF FF FF`, which is kept as the
`data` of the tag object, and the encoder delivers one empty chunk. -/
theorem unbounded_marker_not_delivered :
    encodeTag [0x1f, 0x43, 0xb6, 0x75] [] (some (-1)) = .ok clusterBytes ∧
    ∃ s, EbmlEncoder.feed sampleSchema EbmlEncoder.fresh clusterChunks = .ok (s, [[]]) ∧
      s.closed = [(0, clusterBytes)] ∧ ([[]] : List Bytes) ≠ [clusterBytes] :=
  ⟨by rfl, _, by rfl, by rfl, by decide⟩

/-- C13 on a fresh encoder, whose stack is empty: `writeTag` for `EBMLVersion`
with the payload `00` builds `42 86 81 00` and delivers one empty chunk, since
it hands `data.buffer`, which is `undefined`, to `bufferAndFlush`. -/
theorem root_leaf_not_delivered :
    encodeTag [0x42, 0x86] [0x00] none = .ok [0x42, 0x86, 0x81, 0x00] ∧
    EbmlEncoder.writeTag sampleSchema EbmlEncoder.fresh "EBMLVersion" (some [0x00]) =
      .ok (EbmlEncoder.fresh, [[]]) ∧
    ([[]] : List Bytes) ≠ [[0x42, 0x86, 0x81, 0x00]] :=
  ⟨by rfl, by rfl, by decide⟩

/-- C12 fails: with `EBML` open, a `tag` event for `EBMLVersion` that carries
`end = -1` and the payload `00` adds the child `42 86 81 00`, with the size
`81`, the vint of the length of the payload, and not the child
`42 86 01 FF FF FF FF FF FF FF 00`. -/
theorem tag_marker_fails :
    EbmlEncoder._transform sampleSchema ebmlOpen
      ("tag", { name := "EBMLVersion", data := some [0x00], «end» := some (-1) }) =
        .ok ({ ebmlOpen with
          mStack := [{ ref := 0, id := [0x1a, 0x45, 0xdf, 0xa3], name := "EBML", «end» := none,
                       children := [Child.data [0x42, 0x86, 0x81, 0x00]] }] }, []) ∧
    [0x42, 0x86, 0x81, 0x00] ≠ [0x42, 0x86] ++ unknownSize ++ [0x00] := by
  refine ⟨by rfl, by decide⟩

/-- C12 as the code has it: `_transform` hands `writeTag` the name and the
payload of a `tag` event and not its `end`, so the event is treated as the one
without `end`: for a name of the schema and a payload `p`, the element built
is `id ++ writeVint(|p|) ++ p` whatever `end` the event carries, and with an
open tag this element becomes its last child. -/
theorem tag_marker_ignored (schema : Schema) (s : EbmlEncoder) (info : TagInfo)
    (id p size : Bytes) (hid : EbmlEncoder.getSchemaInfo schema info.name = some id)
    (hp : info.data = some p) (hsize : Tools.writeVint p.length = .ok size) :
    EbmlEncoder._transform schema s ("tag", info) =
      EbmlEncoder._transform schema s ("tag", { info with «end» := none }) ∧
    encodeTag id p none = .ok (id ++ size ++ p) ∧
    (∀ top rest, s.mStack = top :: rest →
      EbmlEncoder._transform schema s ("tag", info) =
        .ok ({ s with
          mStack := { top with children := top.children ++ [Child.data (id ++ size ++ p)] } ::
            rest }, [])) := by
  have henc : encodeTag id p none = .ok (id ++ size ++ p) := by
    simp [encodeTag, hsize]
  refine ⟨by simp only [EbmlEncoder.transform_tag], henc, ?_⟩
  intro top rest hstk
  simp only [EbmlEncoder.transform_tag, EbmlEncoder.writeTag, hid, hp, henc, hstk]

/-- C12 on the event of the counterexample. -/
theorem tag_marker_ignored_witness :
    EbmlEncoder._transform sampleSchema ebmlOpen
      ("tag", { name := "EBMLVersion", data := some [0x00], «end» := some (-1) }) =
        .ok ({ ebmlOpen with
          mStack := [{ ref := 0, id := [0x1a, 0x45, 0xdf, 0xa3], name := "EBML", «end» := none,
                       children := [] ++ [Child.data ([0x42, 0x86] ++ [0x81] ++ [0x00])] }] },
          []) :=
  (tag_marker_ignored sampleSchema ebmlOpen
    { name := "EBMLVersion", data := some [0x00], «end» := some (-1) } [0x42, 0x86] [0x00]
    [0x81] (by rfl) (by rfl) (by rfl)).2.2 _ _ (by rfl)

/-- C14: when the schema has no row with the name of a `start` or `tag` event,
and whenever the lookup of the name gives `null`, the call throws
`No schema entry found`, and the encoder at the throw is the encoder before
the call, stack, children, pending buffer and corked flag included, and
nothing was pushed; when the lookup gives an ID, no such error is thrown. -/
theorem unknown_name_rejected (schema : Schema) (s : EbmlEncoder) (name : String)
    (data : Option Bytes) (e : Option Int) :
    ((∀ row ∈ schema, row.2.name ≠ name) → EbmlEncoder.getSchemaInfo schema name = none) ∧
    (EbmlEncoder.getSchemaInfo schema name = none →
      EbmlEncoder.startTagOutcome schema s name e =
        { encoder := s, pushed := [], thrown := some (.noSchemaEntry name) } ∧
      EbmlEncoder.writeTagOutcome schema s name data =
        { encoder := s, pushed := [], thrown := some (.noSchemaEntry name) } ∧
      EbmlEncoder._transform schema s ("start", { name := name, data := data, «end» := e }) =
        .error (.noSchemaEntry name) ∧
      EbmlEncoder._transform schema s ("tag", { name := name, data := data, «end» := e }) =
        .error (.noSchemaEntry name)) ∧
    (∀ id, EbmlEncoder.getSchemaInfo schema name = some id → ∀ n,
      (EbmlEncoder.startTagOutcome schema s name e).thrown = none ∧
      (EbmlEncoder.writeTagOutcome schema s name data).thrown ≠ some (.noSchemaEntry n) ∧
      EbmlEncoder._transform schema s ("start", { name := name, data := data, «end» := e }) ≠
        .error (.noSchemaEntry n) ∧
      EbmlEncoder._transform schema s ("tag", { name := name, data := data, «end» := e }) ≠
        .error (.noSchemaEntry n)) := by
  refine ⟨EbmlEncoder.getSchemaInfo_absent, ?_, ?_⟩
  · intro h
    have h1 : EbmlEncoder.startTagOutcome schema s name e =
        { encoder := s, pushed := [], thrown := some (.noSchemaEntry name) } := by
      simp only [EbmlEncoder.startTagOutcome, h]
    have h2 : EbmlEncoder.writeTagOutcome schema s name data =
        { encoder := s, pushed := [], thrown := some (.noSchemaEntry name) } := by
      simp only [EbmlEncoder.writeTagOutcome, h]
    refine ⟨h1, h2, ?_, ?_⟩
    · rw [EbmlEncoder.transform_start, EbmlEncoder.startTag_outcome, h1]
      rfl
    · rw [EbmlEncoder.transform_tag, EbmlEncoder.writeTag_outcome, h2]
      rfl
  · intro id h n
    have h1 : (EbmlEncoder.startTagOutcome schema s name e).thrown = none := by
      simp only [EbmlEncoder.startTagOutcome, h]
      cases s.mStack <;> rfl
    have h2 : (EbmlEncoder.writeTagOutcome schema s name data).thrown ≠
        some (.noSchemaEntry n) := by
      simp only [EbmlEncoder.writeTagOutcome, h]
      cases data with
      | none => simp
      | some payload =>
        simp only
        cases henc : encodeTag id payload none with
        | error err =>
          simp only
          unfold encodeTag at henc
          rw [if_neg (by simp)] at henc
          cases hw : Tools.writeVint payload.length with
          | ok size => rw [hw] at henc; cases henc
          | error e2 =>
            rw [hw] at henc
            simp only [Except.error.injEq] at henc
            subst henc
            rw [Tools.writeVint_error hw]
            simp
        | ok w =>
          cases s.mStack <;> simp
    refine ⟨h1, h2, ?_, ?_⟩
    · rw [EbmlEncoder.transform_start, EbmlEncoder.startTag_outcome]
      unfold EbmlEncoder.Outcome.result
      rw [h1]
      simp
    · rw [EbmlEncoder.transform_tag, EbmlEncoder.writeTag_outcome]
      unfold EbmlEncoder.Outcome.result
      intro hc
      split at hc
      · rename_i err herr
        cases hc
        exact h2 herr
      · cases hc

/-- C14 on the sample schema, which has no row named `Segment` and has one
named `Cluster`, for an encoder with an open tag. -/
theorem unknown_name_rejected_witness :
    EbmlEncoder.startTagOutcome sampleSchema
        { EbmlEncoder.fresh with
          mStack := [{ ref := 0, id := [0x1a, 0x45, 0xdf, 0xa3], name := "EBML", «end» := none,
                       children := [] }]
          nextRef := 1 } "Segment" none =
      { encoder := { EbmlEncoder.fresh with
          mStack := [{ ref := 0, id := [0x1a, 0x45, 0xdf, 0xa3], name := "EBML", «end» := none,
                       children := [] }]
          nextRef := 1 }
        pushed := []
        thrown := some (.noSchemaEntry "Segment") } ∧
    EbmlEncoder._transform sampleSchema EbmlEncoder.fresh
        ("start", { name := "Cluster", data := none, «end» := none }) ≠
      .error (.noSchemaEntry "Cluster") :=
  ⟨((unknown_name_rejected sampleSchema _ "Segment" none none).2.1
      ((unknown_name_rejected sampleSchema EbmlEncoder.fresh "Segment" none none).1
        (by decide))).1,
    ((unknown_name_rejected sampleSchema EbmlEncoder.fresh "Cluster" none none).2.2
      [0x1f, 0x43, 0xb6, 0x75] (by rfl) "Cluster").2.2.1⟩
namespace EbmlEncoder

theorem pendingAfter_append (pending : Option Bytes) (a b : List Bytes) :
    pendingAfter pending (a ++ b) = pendingAfter (pendingAfter pending a) b := by
  unfold pendingAfter
  rw [List.foldl_append]

theorem pendingAfter_some (buffer : Bytes) (outs : List Bytes) :
    pendingAfter (some buffer) outs = some (buffer ++ outs.flatten) := by
  induction outs generalizing buffer with
  | nil => simp [pendingAfter]
  | cons w ws ih =>
    have : pendingAfter (some buffer) (w :: ws) = pendingAfter (some (buffer ++ w)) ws := rfl
    rw [this, ih, List.flatten_cons, List.append_assoc]

theorem pendingAfter_none (outs : List Bytes) :
    pendingAfter none outs = if outs = [] then none else some outs.flatten := by
  cases outs with
  | nil => rfl
  | cons w ws =>
    have : pendingAfter none (w :: ws) = pendingAfter (some w) ws := rfl
    rw [this, pendingAfter_some, if_neg (by simp), List.flatten_cons]

/-- One event on a corked encoder and on the same encoder not corked and
without pending buffer: the same exception, or the same encoder but for the
chunk, which is pending and not delivered. -/
theorem transform_corked (schema : Schema) (s : EbmlEncoder) (pending : Option Bytes)
    (chunk : Chunk) (hb : s.mBuffer = none) (hc : s.mCorked = false) :
    (∀ e, _transform schema s chunk = .error e →
      _transform schema { s with mCorked := true, mBuffer := pending } chunk = .error e) ∧
    (∀ s1 out, _transform schema s chunk = .ok (s1, out) →
      _transform schema { s with mCorked := true, mBuffer := pending } chunk =
        .ok ({ s1 with mCorked := true, mBuffer := pendingAfter pending out }, []) ∧
      s1.mBuffer = none ∧ s1.mCorked = false) := by
  obtain ⟨b, ck, stk, cl, nr, en⟩ := s
  simp only at hb hc
  subst hb hc
  unfold _transform
  by_cases h1 : chunk.1 = "start"
  · simp only [h1, if_true]
    unfold startTag
    cases getSchemaInfo schema chunk.2.name with
    | none => simp
    | some id =>
      cases stk with
      | nil =>
        refine ⟨fun e h => (by cases h), fun s1 out h => ?_⟩
        simp only [Except.ok.injEq, Prod.mk.injEq] at h
        obtain ⟨rfl, rfl⟩ := h
        exact ⟨rfl, rfl, rfl⟩
      | cons top rest =>
        refine ⟨fun e h => (by cases h), fun s1 out h => ?_⟩
        simp only [Except.ok.injEq, Prod.mk.injEq] at h
        obtain ⟨rfl, rfl⟩ := h
        exact ⟨rfl, rfl, rfl⟩
  · by_cases h2 : chunk.1 = "tag"
    · simp only [h1, h2, if_true, if_false]
      unfold writeTag
      cases getSchemaInfo schema chunk.2.name with
      | none => simp
      | some id =>
        cases chunk.2.data with
        | none =>
          refine ⟨fun e h => (by cases h), fun s1 out h => ?_⟩
          simp only [Except.ok.injEq, Prod.mk.injEq] at h
          obtain ⟨rfl, rfl⟩ := h
          exact ⟨rfl, rfl, rfl⟩
        | some payload =>
          simp only
          cases encodeTag id payload none with
          | error err => simp
          | ok w =>
            cases stk with
            | nil =>
              refine ⟨fun e h => (by cases h), fun s1 out h => ?_⟩
              simp only [bufferAndFlush, flush, Buffers.buffer, Option.getD_none,
                Except.ok.injEq, Prod.mk.injEq] at h
              obtain ⟨rfl, rfl⟩ := h
              refine ⟨?_, rfl, rfl⟩
              cases pending <;> rfl
            | cons top rest =>
              refine ⟨fun e h => (by cases h), fun s1 out h => ?_⟩
              simp only [Except.ok.injEq, Prod.mk.injEq] at h
              obtain ⟨rfl, rfl⟩ := h
              exact ⟨rfl, rfl, rfl⟩
    · by_cases h3 : chunk.1 = "end"
      · simp only [h1, h2, h3, if_true, if_false]
        unfold endTag
        cases stk with
        | nil => simp
        | cons tag rest =>
          simp only
          cases childrenData cl tag.children with
          | error err => simp
          | ok body =>
            simp only
            cases encodeTag tag.id body tag.«end» with
            | error err => simp
            | ok w =>
              cases rest with
              | nil =>
                refine ⟨fun e h => (by cases h), fun s1 out h => ?_⟩
                simp only [bufferAndFlush, flush, Buffers.buffer, Option.getD_none,
                  Except.ok.injEq, Prod.mk.injEq] at h
                obtain ⟨rfl, rfl⟩ := h
                refine ⟨?_, rfl, rfl⟩
                cases pending <;> rfl
              | cons top rest =>
                refine ⟨fun e h => (by cases h), fun s1 out h => ?_⟩
                simp only [Except.ok.injEq, Prod.mk.injEq] at h
                obtain ⟨rfl, rfl⟩ := h
                exact ⟨rfl, rfl, rfl⟩
      · simp only [h1, h2, h3, if_false]
        refine ⟨fun e h => (by cases h), fun s1 out h => ?_⟩
        simp only [Except.ok.injEq, Prod.mk.injEq] at h
        obtain ⟨rfl, rfl⟩ := h
        exact ⟨rfl, rfl, rfl⟩

/-- One write to the stream of a corked encoder and of the same encoder not
corked and without pending buffer. -/
theorem write_corked (schema : Schema) (s : EbmlEncoder) (pending : Option Bytes)
    (chunk : Chunk) (hb : s.mBuffer = none) (hc : s.mCorked = false) :
    (∀ e, write schema s chunk = .error e →
      write schema { s with mCorked := true, mBuffer := pending } chunk = .error e) ∧
    (∀ s1 out, write schema s chunk = .ok (s1, out) →
      write schema { s with mCorked := true, mBuffer := pending } chunk =
        .ok ({ s1 with mCorked := true, mBuffer := pendingAfter pending out }, []) ∧
      s1.mBuffer = none ∧ s1.mCorked = false) := by
  obtain ⟨herr, hok⟩ := transform_corked schema s pending chunk hb hc
  unfold write
  by_cases hen : s.ended = true
  · simp only [hen, if_true]
    exact ⟨fun e h => h, fun s1 out h => (by cases h)⟩
  · have hen1 : s.ended = false := by simpa using hen
    simp only [hen1, Bool.false_eq_true, if_false] at herr hok ⊢
    cases h1 : _transform schema s chunk with
    | error e1 =>
      rw [herr _ h1]
      exact ⟨fun e h => h, fun s1 out h => (by cases h)⟩
    | ok p =>
      obtain ⟨sa, out1⟩ := p
      obtain ⟨hstep, hba, hca⟩ := hok sa out1 h1
      rw [hstep]
      have hfa : _flush sa = (sa, []) := by
        unfold _flush flush
        rw [hba]
      have hfc : _flush { sa with mCorked := true, mBuffer := pendingAfter pending out1 } =
          ({ sa with mCorked := true, mBuffer := pendingAfter pending out1 }, []) := by
        unfold _flush flush
        cases pendingAfter pending out1 <;> rfl
      simp only [hfa, hfc, List.append_nil]
      by_cases he : sa.ended = true
      · simp only [he, if_true]
        refine ⟨fun e h => (by cases h), fun s1 out h => ?_⟩
        simp only [Except.ok.injEq, Prod.mk.injEq] at h
        obtain ⟨rfl, rfl⟩ := h
        refine ⟨?_, hba, hca⟩
        simp [he]
      · have he1 : sa.ended = false := by simpa using he
        simp only [he1, Bool.false_eq_true, if_false]
        refine ⟨fun e h => (by cases h), fun s1 out h => ?_⟩
        simp only [Except.ok.injEq, Prod.mk.injEq] at h
        obtain ⟨rfl, rfl⟩ := h
        refine ⟨?_, hba, hca⟩
        simp [he1]

/-- A list of events written to the stream of a corked encoder and of the same
encoder not corked and without pending buffer. -/
theorem feed_corked (schema : Schema) :
    ∀ (cs : List Chunk) (s : EbmlEncoder) (pending : Option Bytes),
      s.mBuffer = none → s.mCorked = false →
      (∀ e, feed schema s cs = .error e →
        feed schema { s with mCorked := true, mBuffer := pending } cs = .error e) ∧
      (∀ s1 outs, feed schema s cs = .ok (s1, outs) →
        feed schema { s with mCorked := true, mBuffer := pending } cs =
          .ok ({ s1 with mCorked := true, mBuffer := pendingAfter pending outs }, []) ∧
        s1.mBuffer = none ∧ s1.mCorked = false) := by
  intro cs
  induction cs with
  | nil =>
    intro s pending hb hc
    refine ⟨fun e h => (by cases h), fun s1 outs h => ?_⟩
    simp only [feed, Except.ok.injEq, Prod.mk.injEq] at h
    obtain ⟨rfl, rfl⟩ := h
    exact ⟨rfl, hb, hc⟩
  | cons chunk cs ih =>
    intro s pending hb hc
    obtain ⟨herr, hok⟩ := write_corked schema s pending chunk hb hc
    cases h1 : write schema s chunk with
    | error e1 =>
      refine ⟨fun e h => ?_, fun s1 outs h => ?_⟩
      · simp only [feed, h1] at h
        cases h
        simp only [feed, herr _ h1]
      · simp only [feed, h1] at h
        cases h
    | ok p =>
      obtain ⟨sa, out1⟩ := p
      obtain ⟨hstep, hba, hca⟩ := hok sa out1 h1
      obtain ⟨ierr, iok⟩ := ih sa (pendingAfter pending out1) hba hca
      cases h2 : feed schema sa cs with
      | error e2 =>
        refine ⟨fun e h => ?_, fun s1 outs h => ?_⟩
        · simp only [feed, h1, h2] at h
          cases h
          simp only [feed, hstep, ierr _ h2]
        · simp only [feed, h1, h2] at h
          cases h
      | ok q =>
        obtain ⟨sb, out2⟩ := q
        obtain ⟨hrun, hbb, hcb⟩ := iok sb out2 h2
        refine ⟨fun e h => ?_, fun s1 outs h => ?_⟩
        · simp only [feed, h1, h2] at h
          cases h
        · simp only [feed, h1, h2, Except.ok.injEq, Prod.mk.injEq] at h
          obtain ⟨rfl, rfl⟩ := h
          refine ⟨?_, hbb, hcb⟩
          simp only [feed, hstep, hrun, pendingAfter_append, List.append_nil]

end EbmlEncoder

/-- C15: events written to the stream of an encoder between `cork()` and
`uncork()`, the encoder having no pending buffer at `cork()`: they throw what
they throw on the encoder not corked; otherwise nothing is delivered while
corked, the pending buffer is the chunks the encoder not corked delivers for
the same events, one after the other, `uncork()` delivers it as one chunk
(nothing when there was no chunk) and leaves the encoder that the encoder not
corked is after these events, not corked and with no pending buffer. -/
theorem cork_buffers (schema : Schema) (s : EbmlEncoder) (cs : List Chunk)
    (hb : s.mBuffer = none) (hc : s.mCorked = false) :
    (∀ e, EbmlEncoder.feed schema s cs = .error e →
      EbmlEncoder.feed schema (EbmlEncoder.cork s) cs = .error e) ∧
    (∀ s1 outs, EbmlEncoder.feed schema s cs = .ok (s1, outs) →
      ∃ c, EbmlEncoder.feed schema (EbmlEncoder.cork s) cs = .ok (c, []) ∧
        c.mCorked = true ∧
        c.mBuffer = (if outs = [] then none else some outs.flatten) ∧
        EbmlEncoder.uncork c = (s1, if outs = [] then [] else [outs.flatten]) ∧
        s1.mBuffer = none ∧ s1.mCorked = false) := by
  have hcork : EbmlEncoder.cork s = { s with mCorked := true, mBuffer := none } := by
    unfold EbmlEncoder.cork
    rw [← hb]
  obtain ⟨herr, hok⟩ := EbmlEncoder.feed_corked schema cs s none hb hc
  refine ⟨fun e h => (by rw [hcork]; exact herr e h), fun s1 outs h => ?_⟩
  obtain ⟨hrun, hb1, hc1⟩ := hok s1 outs h
  refine ⟨_, (by rw [hcork]; exact hrun), rfl, ?_, ?_, hb1, hc1⟩
  · exact EbmlEncoder.pendingAfter_none outs
  · obtain ⟨b, ck, stk, cl, nr, en⟩ := s1
    simp only at hb1 hc1
    subst hb1 hc1
    unfold EbmlEncoder.uncork EbmlEncoder.flush
    simp only [EbmlEncoder.pendingAfter_none]
    by_cases ho : outs = []
    · simp [ho]
    · simp [ho]

/-- C15 on two leaves written to a fresh encoder: not corked they are two
chunks, both empty, as `writeTag` hands `data.buffer` to `bufferAndFlush`;
corked they are one empty chunk at `uncork()`. -/
theorem cork_buffers_witness :
    EbmlEncoder.feed sampleSchema EbmlEncoder.fresh
        [("tag", { name := "EBMLVersion", data := some [0x00], «end» := none }),
         ("tag", { name := "EBMLVersion", data := some [0x01], «end» := none })] =
      .ok (EbmlEncoder.fresh, [[], []]) ∧
    ∃ c, EbmlEncoder.feed sampleSchema (EbmlEncoder.cork EbmlEncoder.fresh)
        [("tag", { name := "EBMLVersion", data := some [0x00], «end» := none }),
         ("tag", { name := "EBMLVersion", data := some [0x01], «end» := none })] =
          .ok (c, []) ∧
      c.mCorked = true ∧
      c.mBuffer = some [] ∧
      EbmlEncoder.uncork c = (EbmlEncoder.fresh, [[]]) ∧
      EbmlEncoder.fresh.mBuffer = none ∧ EbmlEncoder.fresh.mCorked = false :=
  ⟨by rfl,
    (cork_buffers sampleSchema EbmlEncoder.fresh
      [("tag", { name := "EBMLVersion", data := some [0x00], «end» := none }),
       ("tag", { name := "EBMLVersion", data := some [0x01], «end» := none })] rfl rfl).2
      EbmlEncoder.fresh [[], []] (by rfl)⟩
/-- C26 fails: after the `start` events of `EBML` and of a `Cluster` inside
it, the `end` event of the `Cluster` closes a nested element, `EBML` staying
open on the stack, and the encoder has called `end()`. -/
theorem nested_end_terminates :
    ∃ s, EbmlEncoder.transformAll sampleSchema EbmlEncoder.fresh
        [("start", { name := "EBML", data := none, «end» := none }),
         ("start", { name := "Cluster", data := none, «end» := some (-1) }),
         ("end", { name := "Cluster", data := none, «end» := some (-1) })] = .ok (s, []) ∧
      s.mStack.length = 1 ∧ s.ended = true :=
  ⟨_, by rfl, by rfl, by rfl⟩

/-- C26 as the code has it: an `end` event meets an open tag whose children
have their data, the children making up `body` with `end = -1` or a length up
to `2^53`: the call returns, the tag is popped and `end()` has been called,
whether tags remain open or not; no call for an `end` event returns without
`end()` called; a `start` or `tag` event leaves the stream as it was. -/
theorem end_always_terminates (schema : Schema) (s : EbmlEncoder) (info : TagInfo) :
    (∀ tag rest body, s.mStack = tag :: rest →
      EbmlEncoder.childrenData s.closed tag.children = .ok body →
      tag.«end» = some (-1) ∨ body.length ≤ 2 ^ 53 →
      ∃ s1 out, EbmlEncoder._transform schema s ("end", info) = .ok (s1, out) ∧
        s1.mStack = rest ∧ s1.ended = true) ∧
    (∀ s1 out, EbmlEncoder._transform schema s ("end", info) = .ok (s1, out) →
      s1.ended = true) ∧
    (∀ s1 out, EbmlEncoder._transform schema s ("start", info) = .ok (s1, out) →
      s1.ended = s.ended) ∧
    (∀ s1 out, EbmlEncoder._transform schema s ("tag", info) = .ok (s1, out) →
      s1.ended = s.ended) := by
  have hbf : ∀ (t : EbmlEncoder) (w : Option Bytes),
      (EbmlEncoder.bufferAndFlush t w).1.ended = t.ended ∧
      (EbmlEncoder.bufferAndFlush t w).1.mStack = t.mStack := by
    intro t w
    unfold EbmlEncoder.bufferAndFlush EbmlEncoder.flush
    cases t.mCorked <;> exact ⟨rfl, rfl⟩
  refine ⟨?_, ?_, ?_, ?_⟩
  · intro tag rest body hstk hbody hsize
    have henc : ∃ w, encodeTag tag.id body tag.«end» = .ok w := by
      unfold encodeTag
      by_cases he : tag.«end» = some (-1)
      · rw [if_pos he]
        exact ⟨_, rfl⟩
      · rw [if_neg he]
        obtain ⟨bs, hbs, -⟩ := Tools.writeVint_readVint body.length (by
          rcases hsize with h | h
          · exact absurd h he
          · exact h)
        rw [hbs]
        exact ⟨_, rfl⟩
    obtain ⟨w, hw⟩ := henc
    rw [EbmlEncoder.transform_end]
    unfold EbmlEncoder.endTag
    rw [hstk]
    simp only [hbody, hw]
    cases rest with
    | nil => exact ⟨_, _, rfl, (hbf _ _).2, rfl⟩
    | cons top rest => exact ⟨_, _, rfl, rfl, rfl⟩
  · intro s1 out h
    rw [EbmlEncoder.transform_end] at h
    unfold EbmlEncoder.endTag at h
    cases hstk : s.mStack with
    | nil => rw [hstk] at h; cases h
    | cons tag rest =>
      rw [hstk] at h
      simp only at h
      cases hbody : EbmlEncoder.childrenData s.closed tag.children with
      | error err => rw [hbody] at h; cases h
      | ok body =>
        rw [hbody] at h
        simp only at h
        cases hw : encodeTag tag.id body tag.«end» with
        | error err => rw [hw] at h; cases h
        | ok w =>
          rw [hw] at h
          simp only at h
          cases rest with
          | nil =>
            simp only [Except.ok.injEq, Prod.mk.injEq] at h
            obtain ⟨rfl, -⟩ := h
            rfl
          | cons top rest =>
            simp only [Except.ok.injEq, Prod.mk.injEq] at h
            obtain ⟨rfl, -⟩ := h
            rfl
  · intro s1 out h
    rw [EbmlEncoder.transform_start] at h
    unfold EbmlEncoder.startTag at h
    cases hid : EbmlEncoder.getSchemaInfo schema info.name with
    | none => rw [hid] at h; cases h
    | some id =>
      rw [hid] at h
      simp only at h
      cases hstk : s.mStack with
      | nil =>
        rw [hstk] at h
        simp only [Except.ok.injEq, Prod.mk.injEq] at h
        obtain ⟨rfl, -⟩ := h
        rfl
      | cons top rest =>
        rw [hstk] at h
        simp only [Except.ok.injEq, Prod.mk.injEq] at h
        obtain ⟨rfl, -⟩ := h
        rfl
  · intro s1 out h
    rw [EbmlEncoder.transform_tag] at h
    unfold EbmlEncoder.writeTag at h
    cases hid : EbmlEncoder.getSchemaInfo schema info.name with
    | none => rw [hid] at h; cases h
    | some id =>
      rw [hid] at h
      simp only at h
      cases hd : info.data with
      | none =>
        rw [hd] at h
        simp only [Except.ok.injEq, Prod.mk.injEq] at h
        obtain ⟨rfl, -⟩ := h
        rfl
      | some payload =>
        rw [hd] at h
        simp only at h
        cases hw : encodeTag id payload none with
        | error err => rw [hw] at h; cases h
        | ok w =>
          rw [hw] at h
          simp only at h
          cases hstk : s.mStack with
          | nil =>
            rw [hstk] at h
            simp only [Except.ok.injEq] at h
            have h1 := congrArg Prod.fst h
            simp only at h1
            rw [← h1]
            exact (hbf s _).1
          | cons top rest =>
            rw [hstk] at h
            simp only [Except.ok.injEq, Prod.mk.injEq] at h
            obtain ⟨rfl, -⟩ := h
            rfl

/-- C26 on the nested `Cluster` of the counterexample: its `end` event leaves
`EBML` open and the stream ended. -/
theorem end_always_terminates_witness :
    ∃ s1 out, EbmlEncoder._transform sampleSchema
        { EbmlEncoder.fresh with
          mStack := [{ ref := 1, id := [0x1f, 0x43, 0xb6, 0x75], name := "Cluster",
                       «end» := some (-1), children := [] },
                     { ref := 0, id := [0x1a, 0x45, 0xdf, 0xa3], name := "EBML", «end» := none,
                       children := [Child.tag 1] }]
          nextRef := 2 }
        ("end", { name := "Cluster", data := none, «end» := some (-1) }) = .ok (s1, out) ∧
      s1.mStack = [{ ref := 0, id := [0x1a, 0x45, 0xdf, 0xa3], name := "EBML", «end» := none,
                     children := [Child.tag 1] }] ∧
      s1.ended = true :=
  (end_always_terminates sampleSchema _ _).1 _ _ [] rfl rfl (Or.inl rfl)
/-! ## Incomplete input -/

/-- C21: when the byte at the offset `o` has a marker bit, which gives a
length `L` from 1 to 8, `readVint(buffer, o)` returns `null` exactly when the
buffer holds fewer than `L` bytes from `o`, and it never throws; `readTag` and
`readSize`, called with the cursor at `o`, return `false` exactly when
`readVint` returns `null`. -/
theorem readVint_incomplete (buffer : Bytes) (o b : Nat) (hb : buffer.get? o = some b)
    (h0 : b ≠ 0) :
    1 ≤ Tools.vintLength b ∧ Tools.vintLength b ≤ 8 ∧
    (Tools.readVint buffer o = .ok none ↔ buffer.length < o + Tools.vintLength b) ∧
    (∀ e, Tools.readVint buffer o ≠ .error e) ∧
    (∀ schema d, d.mBuffer = some buffer → d.mCursor = o →
      ((∃ d1 e1, EbmlDecoder.readTag schema d = .ok (false, d1, e1)) ↔
        Tools.readVint buffer o = .ok none)) ∧
    (∀ d h rest, d.mBuffer = some buffer → d.mCursor = o → d.mTagStack = h :: rest →
      ((∃ d1 e1, EbmlDecoder.readSize d = .ok (false, d1, e1)) ↔
        Tools.readVint buffer o = .ok none)) := by
  have h8 : Tools.vintLength b ≤ 8 := by
    unfold Tools.vintLength
    split_ifs <;> omega
  have hlt : ¬ buffer.length ≤ o := by
    intro hle
    rw [List.get?_eq_none.mpr hle] at hb
    cases hb
  have hiff : Tools.readVint buffer o = .ok none ↔ buffer.length < o + Tools.vintLength b := by
    unfold Tools.readVint
    rw [hb]
    simp only
    rw [if_neg (by omega)]
    constructor
    · intro h
      by_contra hc
      rw [if_neg hc] at h
      split_ifs at h <;> cases h
    · intro h
      rw [if_pos h]
  have herr : ∀ e, Tools.readVint buffer o ≠ .error e := by
    intro e
    unfold Tools.readVint
    rw [hb]
    simp only
    rw [if_neg (by omega)]
    split_ifs <;> simp
  refine ⟨Tools.vintLength_pos b, h8, hiff, herr, ?_, ?_⟩
  · intro schema d hbuf hcur
    unfold EbmlDecoder.readTag
    rw [hbuf]
    simp only
    rw [hcur, if_neg hlt]
    cases hv : Tools.readVint buffer o with
    | error e => exact absurd hv (herr e)
    | ok r =>
      cases r with
      | none => simp
      | some v => simp
  · intro d h rest hbuf hcur hstk
    unfold EbmlDecoder.readSize
    rw [hstk, hbuf]
    simp only
    rw [hcur, if_neg hlt]
    cases hv : Tools.readVint buffer o with
    | error e => exact absurd hv (herr e)
    | ok r =>
      cases r with
      | none => simp
      | some v => simp

/-- C21 on the two-byte ID `42 86` cut after its first byte, and complete. -/
theorem readVint_incomplete_witness :
    Tools.readVint [0x42] 0 = .ok none ∧ Tools.readVint [0x42, 0x86] 0 ≠ .ok none ∧
    ∃ d1 e1, EbmlDecoder.readTag sampleSchema
      { EbmlDecoder.fresh with mBuffer := some [0x42] } = .ok (false, d1, e1) :=
  ⟨(readVint_incomplete [0x42] 0 0x42 (by rfl) (by decide)).2.2.1.mpr (by decide),
    fun h => absurd ((readVint_incomplete [0x42, 0x86] 0 0x42 (by rfl) (by decide)).2.2.1.mp h)
      (by decide),
    ((readVint_incomplete [0x42] 0 0x42 (by rfl) (by decide)).2.2.2.2.1 sampleSchema
      { EbmlDecoder.fresh with mBuffer := some [0x42] } rfl rfl).mpr (by rfl)⟩

/-- C23: a call of `readTag`, `readSize` or `readContent` that returns `false`
leaves the decoder as it was, cursor, total, phase, tag stack and pending
buffer, and pushes no event; the next chunk is appended to the pending buffer
and changes none of cursor, total, phase and tag stack. -/
theorem incomplete_preserves_state (schema : Schema) (d d1 : EbmlDecoder) (e1 : List Event) :
    (EbmlDecoder.readTag schema d = .ok (false, d1, e1) → d1 = d ∧ e1 = []) ∧
    (EbmlDecoder.readSize d = .ok (false, d1, e1) → d1 = d ∧ e1 = []) ∧
    (EbmlDecoder.readContent d = .ok (false, d1, e1) → d1 = d ∧ e1 = []) ∧
    (∀ chunk, (EbmlDecoder.append d chunk).mCursor = d.mCursor ∧
      (EbmlDecoder.append d chunk).mTotal = d.mTotal ∧
      (EbmlDecoder.append d chunk).mState = d.mState ∧
      (EbmlDecoder.append d chunk).mTagStack = d.mTagStack ∧
      (EbmlDecoder.append d chunk).mBuffer = some (d.mBuffer.getD [] ++ chunk)) := by
  refine ⟨EbmlDecoder.readTag_false, EbmlDecoder.readSize_false,
    EbmlDecoder.readContent_false, ?_⟩
  intro chunk
  refine ⟨rfl, rfl, rfl, rfl, ?_⟩
  unfold EbmlDecoder.append
  cases d.mBuffer <;> rfl

/-- C23 on the decoder that waits for the payload of `EBMLVersion`:
`readContent` returns `false` and the decoder is the same. -/
theorem incomplete_preserves_state_witness :
    EbmlDecoder.readContent waitingForPayload = .ok (false, waitingForPayload, []) ∧
    waitingForPayload = waitingForPayload ∧ ([] : List Event) = [] :=
  ⟨by rfl, (incomplete_preserves_state sampleSchema waitingForPayload waitingForPayload
    []).2.2.1 (by rfl)⟩
/-! ## Consuming a leaf -/

/-- C24 fails: the first two bytes of `badBlockBytes` lead to a decoder that
waits for the payload, the third byte makes it `beforeBadBlock`, where a
header that is not a master and has the size 1 is on top of the stack and the
byte of payload is pending; the typed value decoder reads the track number of
a `SimpleBlock` as a vint, the byte `00` starts none, `readContent` throws
`Unrepresentable length` and no `tag` event is pushed. -/
theorem bad_block_not_consumed :
    (∃ d, EbmlDecoder._transform blockSchema EbmlDecoder.fresh [0xa3, 0x81] = .ok (d, []) ∧
      EbmlDecoder.append d [0x00] = beforeBadBlock ∧
      EbmlDecoder._transform blockSchema d [0x00] = .error .unrepresentableLength) ∧
    EbmlDecoder.readContent beforeBadBlock = .error .unrepresentableLength :=
  ⟨⟨_, by rfl, by rfl, by rfl⟩, by rfl⟩

namespace EbmlDecoder

/-- The call of `readContent` that consumes a leaf: the header on top is not a
master, its size is `n`, `n` bytes are pending at the cursor and the typed
value decoder accepts them. -/
theorem readContent_leaf (d : EbmlDecoder) (h : TagObj) (rest : List TagObj) (buffer : Bytes)
    (n : Nat) (t : TagData) (hstk : d.mTagStack = h :: rest) (hty : h.type ≠ .master)
    (hbuf : d.mBuffer = some buffer) (hds : h.dataSize = some (n : Int))
    (hlen : d.mCursor + n ≤ buffer.length)
    (ht : Tools.readDataFromTag h ((buffer.drop d.mCursor).take n) = .ok t) :
    readContent d = .ok (true,
      { mBuffer := some (buffer.drop (d.mCursor + n))
        mCursor := 0
        mTotal := d.mTotal + n
        mState := .tag
        mTagStack := (closeEnded (d.mTotal + n) rest).2 },
      Event.tag t :: (closeEnded (d.mTotal + n) rest).1) := by
  have e1 : ((d.mCursor : Int)).toNat = d.mCursor := Int.toNat_ofNat _
  have e2 : ((d.mCursor : Int) + (n : Int)).toNat = d.mCursor + n := by omega
  have hdata : subarray buffer d.mCursor ((d.mCursor : Int) + (n : Int)) =
      (buffer.drop d.mCursor).take n := by
    rw [subarray_of_le buffer d.mCursor ((d.mCursor : Int) + (n : Int)) (by omega) (by omega)
      (by omega) (by omega), e1, e2, Nat.add_sub_cancel_left]
  have hrest : subarray buffer ((d.mCursor : Int) + (n : Int)) buffer.length =
      buffer.drop (d.mCursor + n) := by
    rw [subarray_rest buffer ((d.mCursor : Int) + (n : Int)) (by omega) (by omega), e2]
  unfold readContent
  rw [hstk]
  simp only
  rw [if_neg hty, hbuf]
  simp only
  rw [hds]
  simp only
  rw [if_neg (by omega), hdata, ht, hrest]

end EbmlDecoder

namespace EbmlDecoder

/-- The call of `readContent` on a leaf whose payload the typed value decoder
refuses: the exception of the value decoder leaves `readContent`. -/
theorem readContent_refused (d : EbmlDecoder) (h : TagObj) (rest : List TagObj)
    (buffer : Bytes) (n : Nat) (e : DecodeError) (hstk : d.mTagStack = h :: rest)
    (hty : h.type ≠ .master) (hbuf : d.mBuffer = some buffer)
    (hds : h.dataSize = some (n : Int)) (hlen : d.mCursor + n ≤ buffer.length)
    (ht : Tools.readDataFromTag h ((buffer.drop d.mCursor).take n) = .error e) :
    readContent d = .error e := by
  have e1 : ((d.mCursor : Int)).toNat = d.mCursor := Int.toNat_ofNat _
  have e2 : ((d.mCursor : Int) + (n : Int)).toNat = d.mCursor + n := by omega
  have hdata : subarray buffer d.mCursor ((d.mCursor : Int) + (n : Int)) =
      (buffer.drop d.mCursor).take n := by
    rw [subarray_of_le buffer d.mCursor ((d.mCursor : Int) + (n : Int)) (by omega) (by omega)
      (by omega) (by omega), e1, e2, Nat.add_sub_cancel_left]
  unfold readContent
  rw [hstk]
  simp only
  rw [if_neg hty, hbuf]
  simp only
  rw [hds]
  simp only
  rw [if_neg (by omega), hdata, ht]

end EbmlDecoder

/-- C24 as the code has it: a header `h` that is not a master is on top of
the stack, its size is the number `n` and the pending buffer holds at least `n`
bytes from the cursor.  When the typed value decoder accepts these `n` bytes,
giving `t`, `readContent` returns `true`; it pushes the `tag` event of `t`
first, whose header is `h` and whose payload is the `n` bytes from the cursor,
and after it only `end` events; `total` has grown by `n`, the pending buffer is
what followed the payload, the cursor is 0, the phase is Tag, and the stack is
the one below `h` without the headers the closing loop popped.  When the typed
value decoder throws, `readContent` throws the same exception and pushes no
event. -/
theorem leaf_consumed (d : EbmlDecoder) (h : TagObj) (rest : List TagObj) (buffer : Bytes)
    (n : Nat) (hstk : d.mTagStack = h :: rest) (hty : h.type ≠ .master)
    (hbuf : d.mBuffer = some buffer) (hds : h.dataSize = some (n : Int))
    (hlen : d.mCursor + n ≤ buffer.length) :
    (∀ t, Tools.readDataFromTag h ((buffer.drop d.mCursor).take n) = .ok t →
      EbmlDecoder.readContent d = .ok (true,
        { mBuffer := some (buffer.drop (d.mCursor + n))
          mCursor := 0
          mTotal := d.mTotal + n
          mState := .tag
          mTagStack := (EbmlDecoder.closeEnded (d.mTotal + n) rest).2 },
        Event.tag t :: (EbmlDecoder.closeEnded (d.mTotal + n) rest).1) ∧
      t.tagObj = h ∧ t.data = (buffer.drop d.mCursor).take n ∧ t.data.length = n ∧
      (∀ ev ∈ (EbmlDecoder.closeEnded (d.mTotal + n) rest).1, ∃ g, ev = Event.«end» g) ∧
      (EbmlDecoder.closeEnded (d.mTotal + n) rest).2.Sublist rest) ∧
    (∀ e, Tools.readDataFromTag h ((buffer.drop d.mCursor).take n) = .error e →
      EbmlDecoder.readContent d = .error e) := by
  refine ⟨?_, ?_⟩
  · intro t ht
    obtain ⟨hobj, hdat⟩ := Tools.readDataFromTag_fields ht
    refine ⟨EbmlDecoder.readContent_leaf d h rest buffer n t hstk hty hbuf hds hlen ht, hobj,
      hdat, ?_, ?_, ?_⟩
    · rw [hdat, List.length_take, List.length_drop]
      omega
    · intro ev hev
      obtain ⟨g, hg, _⟩ := (EbmlDecoder.closeEnded_spec (d.mTotal + n) rest).2.1 ev hev
      exact ⟨g, hg⟩
    · exact EbmlDecoder.closeEnded_sublist (d.mTotal + n) rest
  · intro e ht
    exact EbmlDecoder.readContent_refused d h rest buffer n e hstk hty hbuf hds hlen ht

/-- C24 on `sampleBytes`: with the payload `00` of `EBMLVersion` pending at
the cursor 8, `readContent` pushes the `tag` event and then the `end` event of
`EBML`, whose end 9 is reached. -/
theorem leaf_consumed_witness :
    EbmlDecoder.readContent (EbmlDecoder.append waitingForPayload [0x00]) =
      .ok (true,
        { mBuffer := some [], mCursor := 0, mTotal := 9, mState := .tag, mTagStack := [] },
        [Event.tag
          { tagObj := { tag := 0x0286, tagStr := [0x42, 0x86], type := .unsigned,
                        name := "EBMLVersion", start := 5, «end» := 9, dataSize := some 1 }
            data := [0x00]
            value := .unsigned 0 },
         Event.«end» ebmlHeader]) :=
  ((leaf_consumed (EbmlDecoder.append waitingForPayload [0x00])
    { tag := 0x0286, tagStr := [0x42, 0x86], type := .unsigned, name := "EBMLVersion",
      start := 5, «end» := 9, dataSize := some 1 }
    [ebmlHeader] (partialBytes ++ [0x00]) 1 (by rfl) (by decide) (by rfl) (by rfl)
    (by decide)).1
    { tagObj := { tag := 0x0286, tagStr := [0x42, 0x86], type := .unsigned,
                  name := "EBMLVersion", start := 5, «end» := 9, dataSize := some 1 }
      data := [0x00]
      value := .unsigned 0 }
    (by rfl)).1.trans (by rfl)

/-! ## The total and the stream offset -/

namespace EbmlDecoder

theorem atLeast_step {schema : Schema} (t0 : Int) (d d1 : EbmlDecoder) (e1 : List Event)
    (h : AtLeast t0 d) (hstep : step schema d = .ok (true, d1, e1)) : AtLeast t0 d1 := by
  obtain ⟨h1, h2⟩ := h
  unfold step at hstep
  cases hs : d.mState <;> rw [hs] at hstep <;> simp only at hstep
  · rcases readTag_cases schema d with ⟨e, he, _⟩ | hf | ⟨buffer, tag, hd, _, hv, _, ht, _⟩
    · rw [he] at hstep; cases hstep
    · rw [hf] at hstep; cases hstep
    · rw [ht] at hstep
      cases hstep
      have hb := Tools.readVint_bounds hv
      refine ⟨?_, ?_⟩
      · dsimp only
        omega
      · intro hc
        cases hc
  · rcases readSize_cases d with ⟨e, he, _⟩ | hf | ⟨buffer, size, hd, rest, _, hstk, hv, ht, _⟩
    · rw [he] at hstep; cases hstep
    · rw [hf] at hstep; cases hstep
    · rw [ht] at hstep
      cases hstep
      have hb := Tools.readVint_bounds hv
      refine ⟨?_, ?_⟩
      · dsimp only
        omega
      · intro _ g rest1 ds hg hds
        dsimp only at hg hds ⊢
        simp only [List.cons.injEq] at hg
        obtain ⟨rfl, -⟩ := hg
        simp only [Option.some.injEq] at hds
        omega
  · rcases readContent_cases d with ⟨e, he, _⟩ | ⟨hf, _⟩ | ⟨hd, rest, _, _, ht, _⟩ |
      ⟨hd, rest, buffer, ds, t, hstk, _, _, hds, _, _, ht, _⟩
    · rw [he] at hstep; cases hstep
    · rw [hf] at hstep; cases hstep
    · rw [ht] at hstep
      cases hstep
      refine ⟨h1, ?_⟩
      intro hc
      cases hc
    · rw [ht] at hstep
      cases hstep
      refine ⟨h2 hs hd rest ds hstk hds, ?_⟩
      intro hc
      cases hc

theorem atLeast_append {schema : Schema} {d : EbmlDecoder} (hr : Resting schema d)
    (chunk : Bytes) : AtLeast d.mTotal (append d chunk) := by
  refine ⟨le_refl _, ?_⟩
  intro hc h rest ds hstk hds
  obtain ⟨hi, hw⟩ := hr
  have hc1 : d.mState = .content := hc
  have hstk1 : d.mTagStack = h :: rest := hstk
  rcases hw with ⟨_, ht⟩ | hw
  · rw [ht] at hc1
    cases hc1
  · unfold step at hw
    rw [hc1] at hw
    simp only at hw
    rcases readContent_cases d with ⟨e, he, _⟩ | ⟨_, _, g, rest1, ds1, hg, hds1, hlt⟩ |
      ⟨_, _, _, _, ht, _⟩ | ⟨_, _, _, _, _, _, _, _, _, _, _, ht, _⟩
    · rw [he] at hw; cases hw
    · rw [hstk1] at hg
      simp only [List.cons.injEq] at hg
      obtain ⟨rfl, -⟩ := hg
      rw [hds] at hds1
      simp only [Option.some.injEq] at hds1
      subst hds1
      have := hi.1
      show d.mTotal ≤ d.mTotal + ds
      omega
    · rw [ht] at hw; cases hw
    · rw [ht] at hw; cases hw

/-- From one delivery to the next `total` does not decrease. -/
theorem transform_total {schema : Schema} {d d1 : EbmlDecoder} {e1 : List Event}
    (hr : Resting schema d) {chunk : Bytes} (h : _transform schema d chunk = .ok (d1, e1)) :
    d.mTotal ≤ d1.mTotal := by
  have hrun := transform_runs hr chunk
  rw [h] at hrun
  exact (hrun.preserve (fun x _ => AtLeast d.mTotal x)
    (fun d0 _ d2 e2 _ h0 hs => atLeast_step _ d0 d2 e2 h0 hs) []
    (append_inv hr chunk) (atLeast_append hr chunk) d1 e1 rfl).1

theorem described_reach {schema : Schema} {stream : Bytes} {d : EbmlDecoder}
    {events : List Event} (h : Reach schema stream d events) : Described stream d events :=
  @Reach.induction schema Described described_fresh described_chunk described_step _ _ _ h

end EbmlDecoder
/-- Between two deliveries: in every state a fresh decoder reaches by delivering chunks, the
cursor is at most the length of the pending buffer, `total` is the number of
bytes delivered minus the length of the pending buffer plus the cursor, so it
is not negative and at most the number of bytes delivered, and the delivery of
one more chunk does not make it smaller. -/
theorem total_is_offset (schema : Schema) (stream : Bytes) (d : EbmlDecoder)
    (events : List Event) (h : EbmlDecoder.Reach schema stream d events) :
    d.mCursor ≤ EbmlDecoder.pending d ∧ EbmlDecoder.pending d ≤ stream.length ∧
    d.mTotal = (stream.length : Int) - EbmlDecoder.pending d + d.mCursor ∧
    0 ≤ d.mTotal ∧ d.mTotal ≤ stream.length ∧
    (∀ chunk d1 e1, EbmlDecoder._transform schema d chunk = .ok (d1, e1) →
      d.mTotal ≤ d1.mTotal) := by
  have hrest := h.between_chunks
  obtain ⟨⟨ha1, ha2, ha3⟩, _⟩ := EbmlDecoder.described_reach h
  have hcur := hrest.1.1
  have hpen : (EbmlDecoder.pending d : Int) = stream.length - (d.mTotal - d.mCursor) := by
    rcases ha3 with ⟨hb, hs⟩ | hb
    · simp only [EbmlDecoder.pending, hb] at hcur ⊢
      rw [hs] at ha2 ⊢
      simp only [List.length_nil] at ha2 ⊢
      omega
    · simp only [EbmlDecoder.pending, hb, List.length_drop]
      omega
  refine ⟨hcur, by omega, by omega, by omega, by omega, ?_⟩
  intro chunk d1 e1 ht
  exact EbmlDecoder.transform_total hrest ht

/-- C25 on `unknownLeafBytes`, an `EBMLVersion` whose size field is the vint
of the unknown size: the calls of `readTag` and `readSize` lead the decoder to
`beforeUnknownLeaf`, where `total` is 10, the number of bytes delivered, and
the call of `readContent` that follows adds the `dataSize` -1 and leaves
`total` at 9. -/
theorem total_steps_back :
    EbmlDecoder.Steps sampleSchema (EbmlDecoder.append EbmlDecoder.fresh unknownLeafBytes)
      beforeUnknownLeaf [] ∧
    beforeUnknownLeaf.mTotal = 10 ∧
    ∃ d1 e1, EbmlDecoder.step sampleSchema beforeUnknownLeaf = .ok (true, d1, e1) ∧
      d1.mTotal = 9 ∧ d1.mTotal < beforeUnknownLeaf.mTotal :=
  ⟨@EbmlDecoder.Steps.next sampleSchema _ _ _ [] [] (by rfl)
      (@EbmlDecoder.Steps.next sampleSchema _ _ _ [] [] (by rfl) (EbmlDecoder.Steps.done _)),
    by rfl, _, _, by rfl, by rfl, by decide⟩
/-! ## Start and end events -/

namespace EbmlDecoder

theorem openAfter_append (a b : List Event) :
    ∀ stack, openAfter (a ++ b) stack = (openAfter a stack).bind (openAfter b) := by
  induction a with
  | nil => intro stack; rfl
  | cons ev es ih =>
    intro stack
    cases ev with
    | start h => exact ih (h :: stack)
    | tag t => exact ih stack
    | «end» h =>
      cases stack with
      | nil => rfl
      | cons top rest =>
        simp only [List.cons_append, openAfter]
        split_ifs
        · exact ih rest
        · rfl

theorem openAfter_closeEnded (total : Int) (stack : List TagObj) :
    openAfter (closeEnded total stack).1 stack = some (closeEnded total stack).2 := by
  induction stack with
  | nil => rfl
  | cons top rest ih =>
    unfold closeEnded
    split_ifs with h
    · rfl
    · simp only [openAfter, if_true]
      exact ih

theorem openAfter_counts (es : List Event) :
    ∀ stack opened, openAfter es stack = some opened →
      es.countP isStart + stack.length = es.countP isEnd + opened.length := by
  induction es with
  | nil =>
    intro stack opened h
    simp only [openAfter, Option.some.injEq] at h
    subst h
    rfl
  | cons ev es ih =>
    intro stack opened h
    cases ev with
    | start g =>
      have := ih (g :: stack) opened h
      simp only [List.countP_cons, isStart, isEnd, List.length_cons] at this ⊢
      simp only [if_true] at this ⊢
      simp at this ⊢
      omega
    | tag t =>
      have := ih stack opened h
      simp only [List.countP_cons, isStart, isEnd] at this ⊢
      simp at this ⊢
      omega
    | «end» g =>
      cases stack with
      | nil => cases h
      | cons top rest =>
        simp only [openAfter] at h
        split_ifs at h
        have := ih rest opened h
        simp only [List.countP_cons, isStart, isEnd, List.length_cons] at this ⊢
        simp at this ⊢
        omega

theorem openAfter_mem (es : List Event) :
    ∀ stack opened, openAfter es stack = some opened →
      ∀ g ∈ opened, g ∈ stack ∨ Event.start g ∈ es := by
  induction es with
  | nil =>
    intro stack opened h g hg
    simp only [openAfter, Option.some.injEq] at h
    subst h
    exact Or.inl hg
  | cons ev es ih =>
    intro stack opened h g hg
    cases ev with
    | start k =>
      rcases ih (k :: stack) opened h g hg with h1 | h1
      · rcases List.mem_cons.mp h1 with rfl | h2
        · exact Or.inr (List.mem_cons_self _ _)
        · exact Or.inl h2
      · exact Or.inr (List.mem_cons_of_mem _ h1)
    | tag t =>
      rcases ih stack opened h g hg with h1 | h1
      · exact Or.inl h1
      · exact Or.inr (List.mem_cons_of_mem _ h1)
    | «end» k =>
      cases stack with
      | nil => cases h
      | cons top rest =>
        simp only [openAfter] at h
        split_ifs at h
        rcases ih rest opened h g hg with h1 | h1
        · exact Or.inl (List.mem_cons_of_mem _ h1)
        · exact Or.inr (List.mem_cons_of_mem _ h1)

/-- What is open after a part of the events that replay. -/
theorem openAfter_split {pre post : List Event} {opened : List TagObj}
    (h : openAfter (pre ++ post) [] = some opened) :
    ∃ mid, openAfter pre [] = some mid ∧ openAfter post mid = some opened := by
  rw [openAfter_append] at h
  cases hp : openAfter pre [] with
  | none => rw [hp] at h; cases h
  | some mid =>
    rw [hp] at h
    exact ⟨mid, rfl, h⟩

theorem nested_fresh : Nested fresh [] := by
  refine ⟨rfl, ?_⟩
  intro h hh
  cases hh

theorem nested_step {schema : Schema} (d : EbmlDecoder) (events : List Event)
    (d1 : EbmlDecoder) (e1 : List Event) (h : Nested d events)
    (hstep : step schema d = .ok (true, d1, e1)) : Nested d1 (events ++ e1) := by
  obtain ⟨h1, h2⟩ := h
  unfold step at hstep
  cases hs : d.mState <;> rw [hs] at hstep <;> simp only at hstep
  · rcases readTag_cases schema d with ⟨e, he, _⟩ | hf | ⟨buffer, tag, hd, _, hv, _, ht, _⟩
    · rw [he] at hstep; cases hstep
    · rw [hf] at hstep; cases hstep
    · rw [ht] at hstep
      cases hstep
      simp only [started, hs] at h1 h2
      rw [List.append_nil]
      exact ⟨h1, h2⟩
  · rcases readSize_cases d with ⟨e, he, _⟩ | hf | ⟨buffer, size, hd, rest, _, hstk, hv, ht, _⟩
    · rw [he] at hstep; cases hstep
    · rw [hf] at hstep; cases hstep
    · rw [ht] at hstep
      cases hstep
      simp only [started, hs, hstk, List.tail_cons] at h1 h2
      rw [List.append_nil]
      exact ⟨h1, h2⟩
  · rcases readContent_cases d with ⟨e, he, _⟩ | ⟨hf, _⟩ | ⟨hd, rest, hstk, hm, ht, _⟩ |
      ⟨hd, rest, buffer, ds, t, hstk, _, _, hds, _, _, ht, _⟩
    · rw [he] at hstep; cases hstep
    · rw [hf] at hstep; cases hstep
    · rw [ht] at hstep
      cases hstep
      simp only [started, hs, hstk, List.tail_cons] at h1 h2
      refine ⟨?_, ?_⟩
      · rw [openAfter_append, h1]
        simp only [started, hstk]
        rfl
      · intro g hg
        simp only [started, hstk] at hg
        rcases List.mem_cons.mp hg with rfl | hg1
        · exact hm
        · exact h2 g hg1
    · rw [ht] at hstep
      cases hstep
      simp only [started, hs, hstk, List.tail_cons] at h1 h2
      refine ⟨?_, ?_⟩
      · rw [openAfter_append, h1]
        simp only [started]
        exact openAfter_closeEnded _ rest
      · intro g hg
        simp only [started] at hg
        exact h2 g ((closeEnded_mem _ rest).2 g hg)

theorem nested_reach {schema : Schema} {stream : Bytes} {d : EbmlDecoder}
    {events : List Event} (h : Reach schema stream d events) : Nested d events := by
  refine @Reach.induction schema (fun _ d events => Nested d events) nested_fresh ?_ ?_ _ _ _ h
  · intro _ d events chunk _ hn
    exact hn
  · intro _ d events d1 e1 _ hn hs
    exact nested_step d events d1 e1 hn hs

end EbmlDecoder

/-- C27: in every state a fresh decoder reaches, the headers that are open
after the events pushed so far, each `start` event opening its header and each
`end` event closing the header on top, are the headers of the stack that have
gone through `readContent`, and they are masters; in the Tag phase these are
all headers of the stack, and each has its `start` event among the events.
Every `end` event carries the header that is on top of the open ones when it
is pushed, and no prefix of the events has more `end` than `start` events. -/
theorem events_nested (schema : Schema) (stream : Bytes) (d : EbmlDecoder)
    (events : List Event) (h : EbmlDecoder.Reach schema stream d events) :
    EbmlDecoder.openAfter events [] = some (EbmlDecoder.started d) ∧
    (∀ g ∈ EbmlDecoder.started d, g.type = .master ∧ Event.start g ∈ events) ∧
    (d.mState = .tag → EbmlDecoder.started d = d.mTagStack) ∧
    (∀ pre g post, events = pre ++ Event.«end» g :: post →
      ∃ rest, EbmlDecoder.openAfter pre [] = some (g :: rest)) ∧
    (∀ pre post, events = pre ++ post →
      pre.countP EbmlDecoder.isEnd ≤ pre.countP EbmlDecoder.isStart) := by
  obtain ⟨h1, h2⟩ := EbmlDecoder.nested_reach h
  refine ⟨h1, ?_, ?_, ?_, ?_⟩
  · intro g hg
    refine ⟨h2 g hg, ?_⟩
    rcases EbmlDecoder.openAfter_mem events [] _ h1 g hg with h3 | h3
    · cases h3
    · exact h3
  · intro hs
    simp only [EbmlDecoder.started, hs]
  · intro pre g post hev
    rw [hev] at h1
    obtain ⟨mid, hpre, hpost⟩ := EbmlDecoder.openAfter_split h1
    cases mid with
    | nil => cases hpost
    | cons top rest =>
      simp only [EbmlDecoder.openAfter] at hpost
      split_ifs at hpost with hg
      exact ⟨rest, by rw [hpre, hg]⟩
  · intro pre post hev
    rw [hev] at h1
    obtain ⟨mid, hpre, _⟩ := EbmlDecoder.openAfter_split h1
    have := EbmlDecoder.openAfter_counts pre [] mid hpre
    simp only [List.length_nil] at this
    omega
/-- C27 on `emptyMasterStream`: the five events replay to the empty stack;
before the `end` event of the empty `Cluster` its header is on top of the open
ones, above that of `EBML`. -/
theorem events_nested_witness :
    EbmlDecoder.Reach sampleSchema emptyMasterStream afterLateLeaf emptyMasterEvents ∧
    EbmlDecoder.openAfter emptyMasterEvents [] = some (EbmlDecoder.started afterLateLeaf) ∧
    (∃ rest, EbmlDecoder.openAfter
      [Event.start outerHeader, Event.start emptyClusterHeader,
       Event.tag { tagObj := lateVersionHeader, data := [0x00], value := .unsigned 0 }] [] =
        some (emptyClusterHeader :: rest)) :=
  have hr : EbmlDecoder.Reach sampleSchema emptyMasterStream afterLateLeaf emptyMasterEvents :=
    @EbmlDecoder.Reach.deliver _ _ _ _ emptyMasterStream _ _ EbmlDecoder.Reach.fresh (by rfl)
  ⟨hr, (events_nested sampleSchema emptyMasterStream afterLateLeaf emptyMasterEvents hr).1,
    (events_nested sampleSchema emptyMasterStream afterLateLeaf emptyMasterEvents hr).2.2.2.1
      _ emptyClusterHeader [Event.«end» outerHeader] (by rfl)⟩

namespace EbmlDecoder

theorem closedLate_append (events new : List Event) (h : ClosedLate events)
    (hnew : ∀ ea g eb, new = ea ++ Event.«end» g :: eb →
      ∃ a b t, events ++ ea = a ++ Event.start g :: b ∧ Event.tag t ∈ b) :
    ClosedLate (events ++ new) := by
  intro pre g post hsplit
  rcases List.append_eq_append_iff.mp hsplit with ⟨a1, hpre, hn⟩ | ⟨c1, hev, hc⟩
  · rw [hpre]
    exact hnew a1 g post hn
  · cases c1 with
    | nil =>
      rw [List.nil_append] at hc
      rw [List.append_nil] at hev
      have := hnew [] g post (by rw [List.nil_append]; exact hc.symm)
      rw [List.append_nil, hev] at this
      exact this
    | cons x c2 =>
      rw [List.cons_append] at hc
      simp only [List.cons.injEq] at hc
      obtain ⟨rfl, _⟩ := hc
      exact h pre g c2 hev

theorem closedLate_step {schema : Schema} (d : EbmlDecoder) (events : List Event)
    (d1 : EbmlDecoder) (e1 : List Event) (hn : Nested d events) (h : ClosedLate events)
    (hstep : step schema d = .ok (true, d1, e1)) : ClosedLate (events ++ e1) := by
  unfold step at hstep
  cases hs : d.mState <;> rw [hs] at hstep <;> simp only at hstep
  · rcases readTag_cases schema d with ⟨e, he, _⟩ | hf | ⟨buffer, tag, hd, _, hv, _, ht, _⟩
    · rw [he] at hstep; cases hstep
    · rw [hf] at hstep; cases hstep
    · rw [ht] at hstep
      cases hstep
      rw [List.append_nil]
      exact h
  · rcases readSize_cases d with ⟨e, he, _⟩ | hf | ⟨buffer, size, hd, rest, _, hstk, hv, ht, _⟩
    · rw [he] at hstep; cases hstep
    · rw [hf] at hstep; cases hstep
    · rw [ht] at hstep
      cases hstep
      rw [List.append_nil]
      exact h
  · rcases readContent_cases d with ⟨e, he, _⟩ | ⟨hf, _⟩ | ⟨hd, rest, hstk, hm, ht, _⟩ |
      ⟨hd, rest, buffer, ds, t, hstk, _, _, hds, _, _, ht, _⟩
    · rw [he] at hstep; cases hstep
    · rw [hf] at hstep; cases hstep
    · rw [ht] at hstep
      cases hstep
      refine closedLate_append events _ h ?_
      intro ea g eb heq
      have hmem : Event.«end» g ∈ [Event.start hd] := by
        rw [heq]
        simp
      simp at hmem
    · rw [ht] at hstep
      cases hstep
      refine closedLate_append events _ h ?_
      intro ea g eb heq
      cases ea with
      | nil =>
        rw [List.nil_append] at heq
        cases heq
      | cons x ea1 =>
        rw [List.cons_append] at heq
        simp only [List.cons.injEq] at heq
        obtain ⟨rfl, hends⟩ := heq
        have hmem : Event.«end» g ∈ (closeEnded (d.mTotal + ds) rest).1 := by
          rw [hends]
          simp
        have hg : g ∈ rest := (closeEnded_mem _ rest).1 _ hmem
        obtain ⟨hopen, _⟩ := hn
        simp only [started, hs, hstk, List.tail_cons] at hopen
        rcases openAfter_mem events [] rest hopen g hg with h0 | hstart
        · cases h0
        · obtain ⟨a, b, hab⟩ := List.append_of_mem hstart
          refine ⟨a, b ++ Event.tag t :: ea1, t, ?_, ?_⟩
          · rw [hab]
            simp
          · simp

theorem closedLate_reach {schema : Schema} {stream : Bytes} {d : EbmlDecoder}
    {events : List Event} (h : Reach schema stream d events) : ClosedLate events := by
  have := @Reach.induction schema (fun _ d events => Nested d events ∧ ClosedLate events)
    ⟨nested_fresh, ?_⟩ ?_ ?_ _ _ _ h
  · exact this.2
  · intro pre g post heq
    have : Event.«end» g ∈ ([] : List Event) := by
      rw [heq]
      simp
    cases this
  · intro _ d events chunk _ hp
    exact hp
  · intro _ d events d1 e1 _ hp hs
    exact ⟨nested_step d events d1 e1 hp.1 hs, closedLate_step d events d1 e1 hp.1 hp.2 hs⟩

end EbmlDecoder

/-- C28: `readContent` on a master, of whatever size, pushes its `start`
event, leaves its header on the stack and runs no closing loop.  In the events
of every state a fresh decoder reaches, an `end` event comes after the `start`
event of its header and after a `tag` event between the two: a master, an empty
one too, is closed only after a leaf read after its `start`, and never when no
leaf follows.  A master below the leaf that is consumed, its end reached, gets
its `end` event right after the `tag` event of this leaf. -/
theorem empty_master_closed_late (schema : Schema) :
    (∀ d h rest, d.mTagStack = h :: rest → h.type = .master →
      EbmlDecoder.readContent d = .ok (true, { d with mState := .tag }, [Event.start h])) ∧
    (∀ stream d events, EbmlDecoder.Reach schema stream d events →
      EbmlDecoder.ClosedLate events) ∧
    (∀ d h m rest buffer (n : Nat) t, d.mTagStack = h :: m :: rest → h.type ≠ .master →
      d.mBuffer = some buffer → h.dataSize = some (n : Int) → d.mCursor + n ≤ buffer.length →
      Tools.readDataFromTag h ((buffer.drop d.mCursor).take n) = .ok t →
      m.«end» ≤ d.mTotal + n →
      ∃ d1 es, EbmlDecoder.readContent d =
        .ok (true, d1, Event.tag t :: Event.«end» m :: es)) := by
  refine ⟨?_, ?_, ?_⟩
  · intro d h rest hstk hm
    unfold EbmlDecoder.readContent
    rw [hstk]
    simp only
    rw [if_pos hm]
  · intro stream d events h
    exact EbmlDecoder.closedLate_reach h
  · intro d h m rest buffer n t hstk hty hbuf hds hlen ht hend
    have hr := EbmlDecoder.readContent_leaf d h (m :: rest) buffer n t hstk hty hbuf hds hlen ht
    have hc : EbmlDecoder.closeEnded (d.mTotal + n) (m :: rest) =
        (Event.«end» m :: (EbmlDecoder.closeEnded (d.mTotal + n) rest).1,
          (EbmlDecoder.closeEnded (d.mTotal + n) rest).2) := by
      rw [EbmlDecoder.closeEnded, if_neg (by omega)]
    rw [hc] at hr
    exact ⟨_, _, hr⟩

/-- C28 on `emptyMasterBytes`: before the payload of `EBMLVersion` arrives the
empty `Cluster` has its `start` event and no `end` event; with the payload its
`end` event follows the `tag` event; and `emptyRootBytes`, an empty master that
nothing follows, gives a `start` event alone. -/
theorem empty_master_closed_late_witness :
    EbmlDecoder.Reach sampleSchema emptyMasterBytes afterEmptyMaster
      [Event.start outerHeader, Event.start emptyClusterHeader] ∧
    EbmlDecoder.Reach sampleSchema emptyMasterStream afterLateLeaf emptyMasterEvents ∧
    EbmlDecoder.ClosedLate emptyMasterEvents ∧
    (EbmlDecoder.feed sampleSchema EbmlDecoder.fresh [emptyRootBytes]).map Prod.snd =
      .ok [Event.start emptyRootHeader] :=
  have hr : EbmlDecoder.Reach sampleSchema emptyMasterStream afterLateLeaf emptyMasterEvents :=
    @EbmlDecoder.Reach.deliver _ _ _ _ emptyMasterStream _ _ EbmlDecoder.Reach.fresh (by rfl)
  ⟨@EbmlDecoder.Reach.deliver _ _ _ _ emptyMasterBytes _ _ EbmlDecoder.Reach.fresh (by rfl), hr,
    (empty_master_closed_late sampleSchema).2.1 _ _ _ hr, by rfl⟩

end Ebml
